import Mathlib

/-!
Shallow embedding of the `routes` package of patterson-a/rest_project
(`src/main.go`, second compilation unit: `package routes`), together with
proofs about the store's claims.

Modelling conventions:
* Go `float64` edge weights are modelled as exact rationals (`ℚ`).  Every
  concrete weight appearing in the claims is a small integer, on which
  float64 arithmetic is exact.
* Redis hash values are written by the store as decimal renderings of
  weights and read back through `strconv.ParseFloat`.  The string codec is
  abstracted by `RVal`: `RVal.num w` is a string that parses to the weight
  `w`, `RVal.bad s` is a string that fails to parse.
* Go map iteration order and redis set/hash enumeration order are not
  specified; the embedding fixes insertion order (association lists).  All
  claim-level statements compare the resulting collections as sets or as
  pointwise lookup functions, never by list order.
* `redis.Conn.Do` may fail (network errors).  The connection carries a
  schedule `fails : List Bool`; each command consumes one entry (an empty
  schedule means the command succeeds).  A failed command performs no data
  mutation and reports an error.
* The store's `sync.Mutex` is the `locked` flag.  Go's `sync.Mutex` is not
  reentrant: a goroutine calling `Lock` on a mutex it already holds blocks
  forever.  Each public operation models `rs.Lock()` as: if `locked` is
  already set the operation ends in `Outcome.deadlock`, otherwise it runs
  with the flag set and clears it on every return path (the `defer
  rs.Unlock()`).
* `gonum` panics (`AddNode` on an existing ID, `SetWeightedEdge` on a
  self-loop by ID) are the `Outcome.crash` result.
-/

namespace RestProject

/-! ### Association-list primitives (Go maps / redis hashes) -/

def alookup {α β : Type} [DecidableEq α] : List (α × β) → α → Option β
  | [], _ => none
  | (k, v) :: rest, a => if k = a then some v else alookup rest a

def aupdate {α β : Type} [DecidableEq α] : List (α × β) → α → β → List (α × β)
  | [], a, b => [(a, b)]
  | (k, v) :: rest, a, b =>
    if k = a then (a, b) :: rest else (k, v) :: aupdate rest a b

def aremove {α β : Type} [DecidableEq α] : List (α × β) → α → List (α × β)
  | [], _ => []
  | (k, v) :: rest, a =>
    if k = a then aremove rest a else (k, v) :: aremove rest a

/-! ### Location identity (`Location.ID`, src/main.go:235-239)

`Location.ID` hashes the location name with `hash/fnv`'s `New64` (the
FNV-1 64-bit hash: starting from the offset basis, each byte first
multiplies the state by the FNV prime modulo 2^64 and is then XORed in)
and reinterprets the `uint64` digest as an `int64`.  The bit-reinterpretation
is a bijection, so two IDs are equal exactly when the `uint64` digests are
equal; we keep the digest as a `Nat` below `2^64`. -/

def fnvPrime : Nat := 1099511628211

def fnvOffset : Nat := 14695981039346656037

def fnv1Step (h b : Nat) : Nat := ((h * fnvPrime) % 2 ^ 64) ^^^ b

def fnv1 (bytes : List Nat) : Nat := bytes.foldl fnv1Step fnvOffset

/-- UTF-8 encoding of one character; `[]byte(self)` hashes the UTF-8 bytes
of the name. -/
def utf8Bytes (c : Char) : List Nat :=
  let n := c.toNat
  if n < 0x80 then [n]
  else if n < 0x800 then
    [0xC0 ||| (n >>> 6), 0x80 ||| (n &&& 0x3F)]
  else if n < 0x10000 then
    [0xE0 ||| (n >>> 12), 0x80 ||| ((n >>> 6) &&& 0x3F), 0x80 ||| (n &&& 0x3F)]
  else
    [0xF0 ||| (n >>> 18), 0x80 ||| ((n >>> 12) &&& 0x3F),
     0x80 ||| ((n >>> 6) &&& 0x3F), 0x80 ||| (n &&& 0x3F)]

def strBytes (s : String) : List Nat := (s.data.map utf8Bytes).flatten

/-- `Location(name).ID()`. -/
def locId (s : String) : Nat := fnv1 (strBytes s)

/-! ### The redis backend

State of the data reachable through the store's `redis.Conn`: the
`rest_project:locations` set and one hash per location name, plus the
failure schedule of the connection. -/

inductive RVal where
  | num (w : ℚ)
  | bad (s : String)
deriving DecidableEq, Repr

structure Redis where
  locSet : List String
  hashes : List (String × List (String × RVal))
  fails : List Bool
deriving DecidableEq, Repr

/-- Consume one entry of the failure schedule (one `conn.Do` call). -/
def Redis.step (r : Redis) : Bool × Redis :=
  match r.fails with
  | [] => (false, r)
  | b :: rest => (b, { r with fails := rest })

/-- `SMEMBERS rest_project:locations` (`none` = connection error). -/
def Redis.smembers (r : Redis) : Option (List String) × Redis :=
  let (f, r') := r.step
  if f then (none, r') else (some r'.locSet, r')

/-- `SADD rest_project:locations m`; the `Bool` is the error flag. -/
def Redis.sadd (r : Redis) (m : String) : Bool × Redis :=
  let (f, r') := r.step
  if f then (true, r')
  else (false, { r' with
    locSet := if m ∈ r'.locSet then r'.locSet else r'.locSet ++ [m] })

/-- `SREM rest_project:locations m`. -/
def Redis.srem (r : Redis) (m : String) : Bool × Redis :=
  let (f, r') := r.step
  if f then (true, r')
  else (false, { r' with locSet := r'.locSet.filter (fun x => x ≠ m) })

/-- Fields of the hash stored at `key` (empty if the key is absent). -/
def Redis.hashOf (r : Redis) (key : String) : List (String × RVal) :=
  (alookup r.hashes key).getD []

/-- `HSET key field value`. -/
def Redis.hset (r : Redis) (key field : String) (v : RVal) : Bool × Redis :=
  let (f, r') := r.step
  if f then (true, r')
  else (false, { r' with
    hashes := aupdate r'.hashes key (aupdate (r'.hashOf key) field v) })

/-- `HDEL key field`. -/
def Redis.hdel (r : Redis) (key field : String) : Bool × Redis :=
  let (f, r') := r.step
  if f then (true, r')
  else (false, { r' with
    hashes := aupdate r'.hashes key (aremove (r'.hashOf key) field) })

/-- `HGETALL key` (`none` = connection error). -/
def Redis.hgetall (r : Redis) (key : String) : Option (List (String × RVal)) × Redis :=
  let (f, r') := r.step
  if f then (none, r') else (some (r'.hashOf key), r')

/-! ### The in-memory graph (`gonum` `simple.WeightedDirectedGraph`)

Nodes are stored keyed by their int64 ID; every node the store ever
inserts is a `Location`, so each node record carries the name string.
Edges are keyed by the ordered (from-ID, to-ID) pair. -/

structure WGraph where
  nodes : List (Nat × String)
  edges : List ((Nat × Nat) × ℚ)
deriving DecidableEq, Repr

def WGraph.nodeAt (g : WGraph) (i : Nat) : Option String := alookup g.nodes i

def WGraph.edgeW (g : WGraph) (f t : Nat) : Option ℚ := alookup g.edges (f, t)

def WGraph.nodeNames (g : WGraph) : List String := g.nodes.map Prod.snd

/-- `AddNode` (all call sites first check that the ID is absent, so the
gonum duplicate-ID panic is unreachable from the store code). -/
def WGraph.addNode (g : WGraph) (s : String) : WGraph :=
  { g with nodes := g.nodes ++ [(locId s, s)] }

/-- `SetWeightedEdge(NewWeightedEdge(Location(fromS), Location(toS), w))`:
panics (`none`) when the two endpoint IDs coincide; otherwise stores the
edge's endpoint nodes unconditionally — `gonum`'s `simple` graph executes
`g.nodes[fid] = from` and `g.nodes[tid] = to`, adding the record when the
ID is absent and replacing the stored record when it is present (so under
an ID collision the colliding node's `Location` is overwritten by the
edge's endpoint) — and then creates/overwrites the edge.  `aupdate`
replaces in place or appends, matching the map write. -/
def WGraph.setWEdge (g : WGraph) (fromS toS : String) (w : ℚ) : Option WGraph :=
  let fid := locId fromS
  let tid := locId toS
  if fid = tid then none
  else
    some { nodes := aupdate (aupdate g.nodes fid fromS) tid toS
           edges := aupdate g.edges (fid, tid) w }

/-- `RemoveEdge(fid, tid)`. -/
def WGraph.removeEdge (g : WGraph) (fid tid : Nat) : WGraph :=
  { g with edges := aremove g.edges (fid, tid) }

/-- `RemoveNode(i)`: removes the node and every incident edge. -/
def WGraph.removeNode (g : WGraph) (i : Nat) : WGraph :=
  { nodes := aremove g.nodes i
    edges := g.edges.filter (fun e => e.1.1 ≠ i ∧ e.1.2 ≠ i) }

/-- Names of the direct successors of node `i` (`rs.graph.From(id)`).
Every stored edge's endpoints are nodes of the graph (a `gonum` structural
invariant maintained by `setWEdge`), and every stored node is a
`Location`, so the `strconv.FormatInt` fallback of the Go code is
unreachable and the `filterMap` drops nothing. -/
def WGraph.fromNames (g : WGraph) (i : Nat) : List String :=
  g.edges.filterMap (fun e => if e.1.1 = i then g.nodeAt e.1.2 else none)

/-! ### The store -/

structure RouteStore where
  locked : Bool
  graph : WGraph
  redis : Redis
deriving DecidableEq, Repr

structure Route where
  route : List String
  weight : ℚ
deriving DecidableEq, Repr

inductive Outcome (α : Type) where
  | ok (a : α)
  | err (msg : String)
  | deadlock
  | crash
deriving DecidableEq, Repr

/-- `New(conn)`: empty weighted directed graph, lock free. -/
def RouteStore.new (r : Redis) : RouteStore :=
  { locked := false, graph := ⟨[], []⟩, redis := r }

/-- The shared edge-application loop of `AddLocation` and `AddRoutes`
(src/main.go:316-323 and 415-422): for each `(to, weight)` pair with
`name != to`, set the in-memory weighted edge (possible gonum self-loop
panic on an ID collision) and then `HSET name to weight`; a redis error
aborts the loop. -/
def applyRoutes (name : String) :
    List (String × ℚ) → WGraph → Redis → Outcome Unit × WGraph × Redis
  | [], g, r => (.ok (), g, r)
  | (dst, w) :: rest, g, r =>
    if name ≠ dst then
      match g.setWEdge name dst w with
      | none => (.crash, g, r)
      | some g' =>
        let (failed, r') := r.hset name dst (RVal.num w)
        if failed then (.err "redis error", g', r')
        else applyRoutes name rest g' r'
    else applyRoutes name rest g r

/-- `AddLocation` (src/main.go:302-325). -/
def RouteStore.addLocation (s : RouteStore) (name : String)
    (routes : List (String × ℚ)) : Outcome Unit × RouteStore :=
  if s.locked then (.deadlock, s)
  else if (s.graph.nodeAt (locId name)).isSome then
    (.err (name ++ " already exists"), s)
  else
    let g := s.graph.addNode name
    let (failed, r) := s.redis.sadd name
    if failed then (.err "redis error", { s with graph := g, redis := r })
    else
      match applyRoutes name routes g r with
      | (o, g', r') => (o, { s with graph := g', redis := r' })

/-- `GetLocations` (src/main.go:328-345). -/
def RouteStore.getLocations (s : RouteStore) : Outcome (List String) × RouteStore :=
  if s.locked then (.deadlock, s)
  else (.ok s.graph.nodeNames, s)

/-- `RoutesFrom` (src/main.go:348-371). -/
def RouteStore.routesFrom (s : RouteStore) (name : String) :
    Outcome (List String) × RouteStore :=
  if s.locked then (.deadlock, s)
  else if (s.graph.nodeAt (locId name)).isNone then
    (.err (name ++ " does not exist"), s)
  else (.ok (s.graph.fromNames (locId name)), s)

/-- `AddRoutes` (src/main.go:405-424). -/
def RouteStore.addRoutes (s : RouteStore) (name : String)
    (routes : List (String × ℚ)) : Outcome Unit × RouteStore :=
  if s.locked then (.deadlock, s)
  else if (s.graph.nodeAt (locId name)).isNone then
    (.err (name ++ " does not exist"), s)
  else
    match applyRoutes name routes s.graph s.redis with
    | (o, g', r') => (o, { s with graph := g', redis := r' })

/-- The per-target loop of `RemoveRoutes` (src/main.go:437-444): for each
`to` with `name != to`, `HDEL name to` and then remove the in-memory
edge. -/
def removeRoutesLoop (name : String) :
    List String → WGraph → Redis → Outcome Unit × WGraph × Redis
  | [], g, r => (.ok (), g, r)
  | dst :: rest, g, r =>
    if name ≠ dst then
      let (failed, r') := r.hdel name dst
      if failed then (.err "redis error", g, r')
      else removeRoutesLoop name rest (g.removeEdge (locId name) (locId dst)) r'
    else removeRoutesLoop name rest g r

/-- `RemoveRoutes` (src/main.go:427-446). -/
def RouteStore.removeRoutes (s : RouteStore) (name : String)
    (routes : List String) : Outcome Unit × RouteStore :=
  if s.locked then (.deadlock, s)
  else if (s.graph.nodeAt (locId name)).isNone then
    (.err (name ++ " does not exist"), s)
  else
    match removeRoutesLoop name routes s.graph s.redis with
    | (o, g', r') => (o, { s with graph := g', redis := r' })

/-- The per-location `HDEL loc name` loop of `DeleteLocation`
(src/main.go:462-466). -/
def deleteHdelLoop (name : String) :
    List String → Redis → Outcome Unit × Redis
  | [], r => (.ok (), r)
  | loc :: rest, r =>
    let (failed, r') := r.hdel loc name
    if failed then (.err "redis error", r') else deleteHdelLoop name rest r'

/-- `DeleteLocation` (src/main.go:449-471).  After the `SREM` it calls the
public `rs.GetLocations()` while already holding `rs`'s mutex
(src/main.go:462); `sync.Mutex` is not reentrant, so that call blocks
forever and the code after it is unreachable. -/
def RouteStore.deleteLocation (s : RouteStore) (name : String) :
    Outcome Unit × RouteStore :=
  if s.locked then (.deadlock, s)
  else
    let s₁ : RouteStore := { s with locked := true }
    if (s₁.graph.nodeAt (locId name)).isNone then
      (.err (name ++ " does not exist"), { s₁ with locked := false })
    else
      let (failed, r) := s₁.redis.srem name
      let s₂ : RouteStore := { s₁ with redis := r }
      if failed then (.err "redis error", { s₂ with locked := false })
      else
        match s₂.getLocations with
        | (.ok locs, s₃) =>
          match deleteHdelLoop name locs s₃.redis with
          | (.ok _, r') =>
            (.ok (), { locked := false
                       graph := s₃.graph.removeNode (locId name)
                       redis := r' })
          | (o, r') => (o, { s₃ with locked := false, redis := r' })
        | (_, s₃) => (.deadlock, s₃)

/-! ### The shortest-path engine

`RoutesBetween` calls `path.DijkstraAllFrom(from, rs.graph).AllTo(to.ID())`
from `gonum/graph/path`: all shortest paths from `from` to `to` together
with their common weight.  The library is embedded through its contract:
for `from == to` (by ID) the single trivial path with weight 0; otherwise
the set of all elementary (duplicate-free) paths achieving the minimal
total weight, and `([], +Inf)` when `to` is unreachable (the `+Inf` never
reaches a `Route`, because no path is enumerated then). -/

/-- Direct successors of node `i` with edge weights. -/
def WGraph.succs (g : WGraph) (i : Nat) : List (Nat × ℚ) :=
  g.edges.filterMap (fun e => if e.1.1 = i then some (e.1.2, e.2) else none)

/-- Total weight of an ID path (`none` if some step is not an edge). -/
def WGraph.idPathW (g : WGraph) : List Nat → Option ℚ
  | [] => some 0
  | [_] => some 0
  | a :: b :: rest =>
    match g.edgeW a b, g.idPathW (b :: rest) with
    | some w, some rw => some (w + rw)
    | _, _ => none

/-- All duplicate-free paths from `u` to `v` that avoid `visited`, of at
most `fuel` edges.  With `fuel ≥` the number of nodes this enumerates
every elementary path from `u` to `v`. -/
def WGraph.pathsAux (g : WGraph) (v : Nat) :
    Nat → Nat → List Nat → List (List Nat)
  | 0, u, _ => if u = v then [[u]] else []
  | fuel + 1, u, visited =>
    if u = v then [[u]]
    else
      ((g.succs u).filter (fun p => p.1 ∉ u :: visited)).flatMap
        (fun p => (g.pathsAux v fuel p.1 (u :: visited)).map (u :: ·))

/-- Least element of a list of weights (`none` on the empty list,
`gonum`'s `+Inf`). -/
def minWeight : List ℚ → Option ℚ
  | [] => none
  | w :: rest => some (rest.foldl (fun a b => if a ≤ b then a else b) w)

/-- Saturation rounds of reachability along non-negative-weight edges:
each round adds every edge target whose source is already reached and
whose weight is non-negative. -/
def WGraph.reachN (g : WGraph) : Nat → List Nat → List Nat
  | 0, vs => vs
  | n + 1, vs =>
    g.reachN n (vs ++ g.edges.filterMap (fun e =>
      if e.1.1 ∈ vs ∧ 0 ≤ e.2 ∧ e.1.2 ∉ vs then some e.1.2 else none))

/-- Whether `path.DijkstraAllFrom(from, g)` panics
(`"dijkstra: negative edge weight"`): `gonum`'s Dijkstra examines every
outgoing edge of every node it pops off the queue and panics on the first
negative weight it sees, and a node is queued exactly when it is reached
along edges whose weights were examined without panicking — so the run
panics (in any pop order) if and only if some node reachable from the
source along non-negative-weight edges has an outgoing edge of negative
weight.  `edges.length + 1` rounds saturate the reachable set, since each
round before the fixpoint adds at least one of the at most
`edges.length` distinct edge targets. -/
def WGraph.negPanic (g : WGraph) (u : Nat) : Prop :=
  ∃ e ∈ g.edges, e.2 < 0 ∧ e.1.1 ∈ g.reachN (g.edges.length + 1) [u]

instance (g : WGraph) (u : Nat) : Decidable (g.negPanic u) := by
  unfold WGraph.negPanic
  infer_instance

/-- `DijkstraAllFrom(u, g).AllTo(v)` when the Dijkstra construction does
not panic: the trivial path for `u = v`, otherwise all minimal-weight
elementary paths and their common weight. -/
def WGraph.allTo (g : WGraph) (u v : Nat) : List (List Nat) × Option ℚ :=
  if u = v then ([[u]], some 0)
  else
    let cands := g.pathsAux v g.nodes.length u []
    match minWeight (cands.filterMap g.idPathW) with
    | none => ([], none)
    | some m => (cands.filter (fun p => g.idPathW p = some m), some m)

/-- `RoutesBetween` (src/main.go:374-402).  The
`path.DijkstraAllFrom(from, rs.graph)` call (src/main.go:388) panics when
a negative edge weight is reachable from `from` (nothing validates
weights), modelled by the `negPanic` branch.  Path nodes are rendered via
their stored `Location` name; the `strconv.FormatInt` fallback
(`Nat.repr`) is unreachable because every node the store inserts is a
`Location`. -/
def RouteStore.routesBetween (s : RouteStore) (fromS toS : String) :
    Outcome (List Route) × RouteStore :=
  if s.locked then (.deadlock, s)
  else if (s.graph.nodeAt (locId fromS)).isNone then
    (.err (fromS ++ " does not exist"), s)
  else if (s.graph.nodeAt (locId toS)).isNone then
    (.err (toS ++ " does not exist"), s)
  else if s.graph.negPanic (locId fromS) then (.crash, s)
  else
    let pw := s.graph.allTo (locId fromS) (locId toS)
    (.ok (pw.1.map (fun p =>
      { route := p.map (fun i => (s.graph.nodeAt i).getD (Nat.repr i))
        weight := pw.2.getD 0 })), s)

/-! ### Restore (src/main.go:260-299) -/

/-- `strconv.ParseFloat` over the fields of a hash: fails on the first
unparsable value. -/
def parseAll : List (String × RVal) → Option (List (String × ℚ))
  | [] => some []
  | (k, RVal.num w) :: rest => (parseAll rest).map (fun m => (k, w) :: m)
  | (_, RVal.bad _) :: _ => none

/-- `getEdges` (src/main.go:285-299): `HGETALL loc` and parse every
weight. -/
def getEdges (r : Redis) (loc : String) : Option (List (String × ℚ)) × Redis :=
  match r.hgetall loc with
  | (none, r') => (none, r')
  | (some fields, r') => (parseAll fields, r')

/-- Result of `Restore`: the Go `(*RouteStore, error)` pair, or a panic /
a permanently blocked call. -/
inductive RestoreResult where
  | ret (store : Option RouteStore) (e : Option String)
  | hang
  | crash
deriving DecidableEq, Repr

/-- First loop of `Restore` (src/main.go:268-274): for each location from
the backend set, `AddLocation(loc, nil)` — its result is discarded — then
read that location's edge hash; a read/parse failure aborts.  Returns the
accumulated `routes` mapping in set order. -/
def restoreRead :
    List String → RouteStore →
    Option (List (String × List (String × ℚ))) × RouteStore
  | [], s => (some [], s)
  | loc :: rest, s =>
    let s₁ := (s.addLocation loc []).2
    match getEdges s₁.redis loc with
    | (none, r') => (none, { s₁ with redis := r' })
    | (some connected, r') =>
      match restoreRead rest { s₁ with redis := r' } with
      | (none, sF) => (none, sF)
      | (some m, sF) => (some ((loc, connected) :: m), sF)

/-- Second loop of `Restore` (src/main.go:276-280): replay every edge
mapping through `AddRoutes`.  When `AddRoutes` reports an error the Go
code executes `return nil, err` — but `err` is the variable last assigned
by the successful `getEdges` calls, which is `nil` at this point, so the
caller receives a `nil` store with a `nil` error. -/
def restoreReplay : List (String × List (String × ℚ)) → RouteStore → RestoreResult
  | [], s => .ret (some s) none
  | (src, connected) :: rest, s =>
    match s.addRoutes src connected with
    | (.ok _, s') => restoreReplay rest s'
    | (.err _, _) => .ret none none
    | (.deadlock, _) => .hang
    | (.crash, _) => .crash

/-- `Restore` (src/main.go:260-283). -/
def Restore (r : Redis) : RestoreResult :=
  let s := RouteStore.new r
  match Redis.smembers r with
  | (none, r₁) => .ret (some { s with redis := r₁ }) (some "redis error")
  | (some locations, r₁) =>
    match restoreRead locations { s with redis := r₁ } with
    | (none, _) => .ret none (some "redis or parse error")
    | (some routes, s') => restoreReplay routes s'

/-! ### Operation histories -/

inductive Op where
  | addLoc (name : String) (routes : List (String × ℚ))
  | addRts (name : String) (routes : List (String × ℚ))
  | rmRts (name : String) (routes : List String)
  | delLoc (name : String)
deriving DecidableEq, Repr

def runOp (s : RouteStore) : Op → Outcome Unit × RouteStore
  | .addLoc n rts => s.addLocation n rts
  | .addRts n rts => s.addRoutes n rts
  | .rmRts n rts => s.removeRoutes n rts
  | .delLoc n => s.deleteLocation n

/-- Run a history; `none` as soon as one operation does not succeed. -/
def execAll : RouteStore → List Op → Option RouteStore
  | s, [] => some s
  | s, op :: rest =>
    match runOp s op with
    | (.ok _, s') => execAll s' rest
    | _ => none

def emptyRedis : Redis := { locSet := [], hashes := [], fails := [] }

/-- A fresh store over an empty, reliable backend. -/
def s0 : RouteStore := RouteStore.new emptyRedis

/-- Every location name an operation mentions. -/
def Op.names : Op → List String
  | .addLoc n rts => n :: rts.map Prod.fst
  | .addRts n rts => n :: rts.map Prod.fst
  | .rmRts n rts => n :: rts
  | .delLoc n => [n]

def usedNames (H : List Op) : List String := (H.map Op.names).flatten

/-- Names created by `AddLocation` calls of the history. -/
def explicitNames : List Op → List String
  | [] => []
  | .addLoc n _ :: rest => n :: explicitNames rest
  | _ :: rest => explicitNames rest

/-! ### Derived observations used by the claims -/

/-- The weight persisted in the backend for the edge `name → dst`:
the field `dst` of the hash at key `name`, when it parses. -/
def Redis.hashNum (r : Redis) (name dst : String) : Option ℚ :=
  match alookup (r.hashOf name) dst with
  | some (RVal.num w) => some w
  | _ => none

/-- Well-formedness of the in-memory graph: every node record is keyed by
the FNV-1 ID of its name, node and edge keys are duplicate-free, and
every edge's endpoints are nodes (all are structural invariants of
`gonum`'s `simple.WeightedDirectedGraph` as used by the store). -/
structure WGraph.WF (g : WGraph) : Prop where
  nodeId : ∀ p ∈ g.nodes, p.1 = locId p.2
  nodeKeys : (g.nodes.map Prod.fst).Nodup
  edgeKeys : (g.edges.map Prod.fst).Nodup
  edgeEnds : ∀ e ∈ g.edges, (g.nodeAt e.1.1).isSome ∧ (g.nodeAt e.1.2).isSome

/-- The consecutive elements of `p` are all edges of `g`. -/
def WGraph.chainB (g : WGraph) : List Nat → Bool
  | [] => true
  | [_] => true
  | a :: b :: rest => (g.edgeW a b).isSome && g.chainB (b :: rest)

/-- `p` is a walk from node `u` to node `v` along edges of `g`
(repetitions allowed). -/
def WGraph.IsWalk (g : WGraph) (u v : Nat) (p : List Nat) : Prop :=
  p.head? = some u ∧ p.getLast? = some v ∧ g.chainB p = true

instance (g : WGraph) (u v : Nat) (p : List Nat) :
    Decidable (g.IsWalk u v p) := by
  unfold WGraph.IsWalk; infer_instance

/-- Total weight of a walk (`idPathW` is defined on every walk). -/
def WGraph.wW (g : WGraph) (p : List Nat) : ℚ := (g.idPathW p).getD 0

/-- Location names along an ID path, as `RoutesBetween` renders them. -/
def WGraph.namesOf (g : WGraph) (p : List Nat) : List String :=
  p.map (fun i => (g.nodeAt i).getD (Nat.repr i))

/-- Histories consisting only of `AddLocation` calls and of `AddRoutes`
calls addressed to an explicitly created location (the accumulator is the
set of names created so far). -/
def explicitOnly : List Op → List String → Bool
  | [], _ => true
  | .addLoc n _ :: rest, acc => explicitOnly rest (acc ++ [n])
  | .addRts n _ :: rest, acc => n ∈ acc && explicitOnly rest acc
  | _ :: _, _ => false

/-- `locId` is injective on the names of the list (no FNV-1 64-bit
collisions among them). -/
def IdInj (l : List String) : Prop :=
  ∀ a ∈ l, ∀ b ∈ l, locId a = locId b → a = b

instance (l : List String) : Decidable (IdInj l) := by
  unfold IdInj; infer_instance

/-! ### Concrete data for the individual claims -/

/-- A concrete FNV-1 64-bit collision: two distinct 16-character names
whose `Location.ID` coincide. -/
def collA : String := "9b28fbbeba2fc6a4"

def collB : String := "b50f83ad2c7b91d6"

/-- Store contents after `AddLocation("A", {"B": 1})` on a fresh store. -/
def c1Store : RouteStore :=
  { locked := false
    graph := ⟨[(locId "A", "A"), (locId "B", "B")],
              [((locId "A", locId "B"), 1)]⟩
    redis := { locSet := ["A"]
               hashes := [("A", [("B", RVal.num 1)])]
               fails := [] } }

/-- Store holding the two locations `"L"` and `"M"` with an edge
`M → L`. -/
def c2Store : RouteStore :=
  { locked := false
    graph := ⟨[(locId "L", "L"), (locId "M", "M")],
              [((locId "M", locId "L"), 5)]⟩
    redis := { locSet := ["L", "M"]
               hashes := [("M", [("L", RVal.num 5)])]
               fails := [] } }

/-- Store holding the two locations `"X"` and `"Y"` and no edges. -/
def c3Store : RouteStore :=
  { locked := false
    graph := ⟨[(locId "X", "X"), (locId "Y", "Y")], []⟩
    redis := { locSet := ["X", "Y"], hashes := [], fails := [] } }

/-- A backend holding location `"A"` with one persisted edge `A → B`,
whose connection fails on the fourth command: the commands `Restore`
issues are `SMEMBERS`, `SADD A`, `HGETALL A`, and then the `HSET A B`
of the `AddRoutes` replay, which is the failing one. -/
def c4Redis : Redis :=
  { locSet := ["A"]
    hashes := [("A", [("B", RVal.num 1)])]
    fails := [false, false, false, true] }

/-- The build sequence of the spec's shortest-path scenario, verbatim. -/
def c6SpecHist : List Op :=
  [.addLoc "A" [("B", 1), ("C", 4)], .addLoc "B" [("C", 1)], .addLoc "C" []]

/-- The scenario graph as the code can actually build it: `"B"` and `"C"`
already exist (implicitly created by `AddLocation("A", ·)`), so the
remaining edge is added with `AddRoutes`. -/
def c6Hist : List Op :=
  [.addLoc "A" [("B", 1), ("C", 4)], .addRts "B" [("C", 1)]]

/-- Store holding the single location `"P"`. -/
def c7Store : RouteStore :=
  { locked := false
    graph := ⟨[(locId "P", "P")], []⟩
    redis := { locSet := ["P"], hashes := [], fails := [] } }

/-- History planting a negative-weight edge: `AddLocation("X", {"Y": -1})`
succeeds, since nothing in the code validates weights. -/
def c7NegHist : List Op := [.addLoc "X" [("Y", -1)]]

/-- Store contents after running `c7NegHist`. -/
def c7NegStore : RouteStore :=
  { locked := false
    graph := ⟨[(locId "X", "X"), (locId "Y", "Y")],
              [((locId "X", locId "Y"), -1)]⟩
    redis := { locSet := ["X"]
               hashes := [("X", [("Y", RVal.num (-1))])]
               fails := [] } }

/-- Store holding the single location `"Q"`. -/
def c8Store : RouteStore :=
  { locked := false
    graph := ⟨[(locId "Q", "Q")], []⟩
    redis := { locSet := ["Q"], hashes := [], fails := [] } }

/-- History whose second operation adds an edge out of the implicitly
created location `"B"`: the edge is persisted under the hash key `"B"`,
but `"B"` is not in the backend's location set, so `Restore` never reads
that hash back. -/
def c9Hist : List Op := [.addLoc "A" [("B", 1)], .addRts "B" [("C", 2)]]

/-- History driving the C10 counterexample: `AddRoutes("X", {collA: 1})`
succeeds although `collA` is no location, but because `collA`'s ID
collides with the existing location `collB`, the edge attaches to
`collB`'s node and `collA` never becomes a location. -/
def c10Hist : List Op := [.addLoc "X" [], .addLoc collB [], .addRts "X" [(collA, 1)]]

/-- Store contents after `AddLocation("A", {"B": 1, "C": 4})` on a fresh
store (the only operation of the spec's scenario that succeeds). -/
def c6Store1 : RouteStore :=
  { locked := false
    graph := ⟨[(locId "A", "A"), (locId "B", "B"), (locId "C", "C")],
              [((locId "A", locId "B"), 1), ((locId "A", locId "C"), 4)]⟩
    redis := { locSet := ["A"]
               hashes := [("A", [("B", RVal.num 1), ("C", RVal.num 4)])]
               fails := [] } }

/-- Store contents after running `c6Hist` (the buildable version of the
spec's scenario: the edge `B → C` is added with `AddRoutes`, since
`AddLocation("B", ·)` fails on the implicitly created node `"B"`). -/
def c6Store2 : RouteStore :=
  { locked := false
    graph := ⟨[(locId "A", "A"), (locId "B", "B"), (locId "C", "C")],
              [((locId "A", locId "B"), 1), ((locId "A", locId "C"), 4),
               ((locId "B", locId "C"), 1)]⟩
    redis := { locSet := ["A"]
               hashes := [("A", [("B", RVal.num 1), ("C", RVal.num 4)]),
                          ("B", [("C", RVal.num 1)])]
               fails := [] } }

/-- Store contents after running `c9Hist`. -/
def c9Store : RouteStore :=
  { locked := false
    graph := ⟨[(locId "A", "A"), (locId "B", "B"), (locId "C", "C")],
              [((locId "A", locId "B"), 1), ((locId "B", locId "C"), 2)]⟩
    redis := { locSet := ["A"]
               hashes := [("A", [("B", RVal.num 1)]), ("B", [("C", RVal.num 2)])]
               fails := [] } }

/-- Store that `Restore` rebuilds from `c9Store`'s backend: the node
`"C"` and the edge `B → C` are missing, because the hash key `"B"` is
not reachable from the location set. -/
def c9Restored : RouteStore :=
  { locked := false
    graph := ⟨[(locId "A", "A"), (locId "B", "B")],
              [((locId "A", locId "B"), 1)]⟩
    redis := c9Store.redis }

/-- Store holding the single location `collB` (C10 counterexample
input). -/
def c10CrashStore : RouteStore :=
  { locked := false
    graph := ⟨[(locId collB, collB)], []⟩
    redis := { locSet := [collB], hashes := [], fails := [] } }

/-- Store contents after running `c10Hist`: `SetWeightedEdge` wrote the
edge target over the record stored at the shared ID, so the node map now
carries `collA`'s name where `collB`'s used to be. -/
def c10Store : RouteStore :=
  { locked := false
    graph := ⟨[(locId "X", "X"), (locId collA, collA)],
              [((locId "X", locId collA), 1)]⟩
    redis := { locSet := ["X", collB]
               hashes := [("X", [(collA, RVal.num 1)])]
               fails := [] } }

/-- Numeric content of a hash-field list (defined on all-parsable lists,
where it agrees with `parseAll`). -/
def mapNum : List (String × RVal) → List (String × ℚ)
  | [] => []
  | (k, RVal.num w) :: rest => (k, w) :: mapNum rest
  | (_, RVal.bad _) :: rest => mapNum rest

/-- Every `routes` argument of the history has duplicate-free keys (Go
maps cannot carry duplicate keys, so only such argument lists arise from
the HTTP layer). -/
def Op.keysNodup : Op → Prop
  | .addLoc _ rts => (rts.map Prod.fst).Nodup
  | .addRts _ rts => (rts.map Prod.fst).Nodup
  | .rmRts _ _ => True
  | .delLoc _ => True

instance (op : Op) : Decidable op.keysNodup := by
  cases op <;> (unfold Op.keysNodup; infer_instance)

/-- Invariant tying a reachable store to the universe `U` of names used
so far and the list `E` of explicitly created locations.  Its `mirror`
field is the edge half of the spec's persisted-mirror invariant; its
`locSetEq`/`locSub` fields are the (amended) node half. -/
structure Inv (U E : List String) (s : RouteStore) : Prop where
  lockedEq : s.locked = false
  failsEq : s.redis.fails = []
  gwf : s.graph.WF
  nodeSub : ∀ n ∈ s.graph.nodeNames, n ∈ U
  locSetEq : s.redis.locSet = E
  locSetNodup : s.redis.locSet.Nodup
  locSub : ∀ n ∈ E, n ∈ s.graph.nodeNames
  hashKeySub : ∀ h ∈ s.redis.hashes, h.1 ∈ U
  hashFieldSub : ∀ h ∈ s.redis.hashes, ∀ f ∈ h.2, f.1 ∈ U
  hashGood : ∀ h ∈ s.redis.hashes, ∀ f ∈ h.2, (∃ w, f.2 = RVal.num w) ∧ f.1 ≠ h.1
  hashKeysNodup : (s.redis.hashes.map Prod.fst).Nodup
  hashFieldsNodup : ∀ h ∈ s.redis.hashes, (h.2.map Prod.fst).Nodup
  mirror : ∀ name ∈ U, ∀ dst ∈ U,
    s.redis.hashNum name dst = s.graph.edgeW (locId name) (locId dst)

/-- Additional invariant available for histories built only from
`AddLocation` and explicitly-addressed `AddRoutes` (the `explicitOnly`
histories): hashes live only under explicit keys, every edge starts at an
explicit location, and every node is explicit or an edge target. -/
structure InvR (U E : List String) (s : RouteStore) extends Inv U E s : Prop where
  hashKeyExpl : ∀ h ∈ s.redis.hashes, h.2 ≠ [] → h.1 ∈ E
  edgeSrc : ∀ e ∈ s.graph.edges, ∃ n ∈ E, e.1.1 = locId n
  nodeReach : ∀ p ∈ s.graph.nodes, p.2 ∈ E ∨ ∃ e ∈ s.graph.edges, e.1.2 = p.1

/-- Accumulated effect of the `HSET`s of one `applyRoutes` run on the
hash stored at `name`. -/
def hfold (name : String) : List (String × RVal) → List (String × ℚ) → List (String × RVal)
  | base, [] => base
  | base, (d, w) :: rest =>
    if name ≠ d then hfold name (aupdate base d (RVal.num w)) rest
    else hfold name base rest

/-- Accumulated effect of the `HDEL`s of one `removeRoutesLoop` run on
the hash stored at `name`. -/
def rfold (name : String) : List (String × RVal) → List String → List (String × RVal)
  | base, [] => base
  | base, d :: rest =>
    if name ≠ d then rfold name (aremove base d) rest
    else rfold name base rest

/-- Pointwise description of the state reached by a successful
`applyRoutes name fields` run from `(g, r)`. -/
structure ApplyEff (name : String) (fields : List (String × ℚ))
    (g : WGraph) (r : Redis) (g' : WGraph) (r' : Redis) : Prop where
  locSetEq : r'.locSet = r.locSet
  failsEq : r'.fails = r.fails
  hashOfOther : ∀ key, key ≠ name → r'.hashOf key = r.hashOf key
  hashOfName : r'.hashOf name = hfold name (r.hashOf name) fields
  hashNodup : (r.hashes.map Prod.fst).Nodup → (r'.hashes.map Prod.fst).Nodup
  hashMem : (r.hashes.map Prod.fst).Nodup → ∀ h ∈ r'.hashes, h ∈ r.hashes ∨
    (h.1 = name ∧ h.2 = hfold name (r.hashOf name) fields)
  nodesApp : ∃ ext, g'.nodes = g.nodes ++ ext ∧ (ext.map Prod.fst).Nodup ∧
    ∀ p ∈ ext, (∃ w', (p.2, w') ∈ fields) ∧ p.2 ≠ name ∧
      p.1 = locId p.2 ∧ g.nodeAt p.1 = none
  nodesNew : ∀ p ∈ fields, p.1 ≠ name → (g'.nodeAt (locId p.1)).isSome = true
  edgeWOther : ∀ f t, f ≠ locId name → g'.edgeW f t = g.edgeW f t
  edgeWNomatch : ∀ t, (∀ p ∈ fields, p.1 = name ∨ locId p.1 ≠ t) →
    g'.edgeW (locId name) t = g.edgeW (locId name) t
  edgeWMatch : ∀ d w', (d, w') ∈ fields → d ≠ name →
    g'.edgeW (locId name) (locId d) = some w'
  edgeMem : ∀ e ∈ g'.edges, e ∈ g.edges ∨
    (e.1.1 = locId name ∧ ∃ d w', (d, w') ∈ fields ∧ d ≠ name ∧ e.1.2 = locId d)
  edgeKeysPres : ∀ f t, (g.edgeW f t).isSome = true → (g'.edgeW f t).isSome = true
  edgeNodup : (g.edges.map Prod.fst).Nodup → (g'.edges.map Prod.fst).Nodup

/-- Pointwise description of the state reached by a successful
`removeRoutesLoop name targets` run from `(g, r)`. -/
structure RemoveEff (name : String) (targets : List String)
    (g : WGraph) (r : Redis) (g' : WGraph) (r' : Redis) : Prop where
  locSetEq : r'.locSet = r.locSet
  failsEq : r'.fails = r.fails
  hashOfOther : ∀ key, key ≠ name → r'.hashOf key = r.hashOf key
  hashOfName : r'.hashOf name = rfold name (r.hashOf name) targets
  hashNodup : (r.hashes.map Prod.fst).Nodup → (r'.hashes.map Prod.fst).Nodup
  hashMem : (r.hashes.map Prod.fst).Nodup → ∀ h ∈ r'.hashes, h ∈ r.hashes ∨
    (h.1 = name ∧ h.2 = rfold name (r.hashOf name) targets)
  nodesEq : g'.nodes = g.nodes
  edgeWOther : ∀ f t, f ≠ locId name → g'.edgeW f t = g.edgeW f t
  edgeWNomatch : ∀ t, (∀ d ∈ targets, d = name ∨ locId d ≠ t) →
    g'.edgeW (locId name) t = g.edgeW (locId name) t
  edgeWMatch : ∀ d ∈ targets, d ≠ name → g'.edgeW (locId name) (locId d) = none
  edgeWNone : ∀ f t, g.edgeW f t = none → g'.edgeW f t = none
  edgeMemSub : ∀ e ∈ g'.edges, e ∈ g.edges
  edgeNodup : (g.edges.map Prod.fst).Nodup → (g'.edges.map Prod.fst).Nodup

/-- Invariant of the replay loop of `Restore` over the backend `r`: after
the bare `AddLocation` pass has created one node per location of the
backend set `E` and the edge hashes of the locations in `P` (a prefix of
`E`) have been replayed, the accumulated store holds exactly the nodes
and edge weights those hashes demand. -/
structure RepInv (r : Redis) (E P : List String) (acc : RouteStore) : Prop where
  lockedEq : acc.locked = false
  failsEq : acc.redis.fails = []
  gwf : acc.graph.WF
  nodeIff : ∀ i n, acc.graph.nodeAt i = some n ↔
    ((n ∈ E ∧ i = locId n) ∨
     ∃ loc ∈ P, ∃ v, (n, v) ∈ r.hashOf loc ∧ i = locId n)
  edgeIff : ∀ f t w, acc.graph.edgeW f t = some w ↔
    ∃ loc ∈ P, ∃ dst, alookup (r.hashOf loc) dst = some (RVal.num w) ∧
      f = locId loc ∧ t = locId dst

/-- Store holding the single location `"W"` (C10 witness input). -/
def c10WStore : RouteStore :=
  { locked := false
    graph := ⟨[(locId "W", "W")], []⟩
    redis := { locSet := ["W"], hashes := [], fails := [] } }

/-- Witness history for the amended C1 mirror invariant. -/
def c1WitHist : List Op :=
  [.addLoc "A" [("B", 1)], .addRts "A" [("C", 2)], .rmRts "A" ["B"]]

/-- Store contents after running `c1WitHist`. -/
def c1WitStore : RouteStore :=
  { locked := false
    graph := ⟨[(locId "A", "A"), (locId "B", "B"), (locId "C", "C")],
              [((locId "A", locId "C"), 2)]⟩
    redis := { locSet := ["A"]
               hashes := [("A", [("C", RVal.num 2)])]
               fails := [] } }

/-- Witness history for the amended C9 round trip. -/
def c9WitHist : List Op :=
  [.addLoc "D" [("E", 3)], .addLoc "F" [], .addRts "F" [("D", 7)]]

/-- Store contents after running `c9WitHist`. -/
def c9WitStore : RouteStore :=
  { locked := false
    graph := ⟨[(locId "D", "D"), (locId "E", "E"), (locId "F", "F")],
              [((locId "D", locId "E"), 3), ((locId "F", locId "D"), 7)]⟩
    redis := { locSet := ["D", "F"]
               hashes := [("D", [("E", RVal.num 3)]), ("F", [("D", RVal.num 7)])]
               fails := [] } }

/-! ## Theorems -/

section ConcreteEvaluation

attribute [local semireducible] Rat.add

/-- C5 (code_bug evaluation): location identity is not injective.  The
two distinct names `collA` and `collB` collide on `Location.ID` (both
FNV-1 64-bit digests equal 17882241782004685278), so the store silently
treats them as the same node. -/
theorem locId_not_injective :
    collA ≠ collB ∧ locId collA = locId collB ∧
    locId collA = 17882241782004685278 := by
  refine ⟨by decide, by rfl, by rfl⟩

/-- C3 (code_bug evaluation): `DeleteLocation` on the existing location
`"X"` of `c3Store` — a store reachable by two successful creates — passes
its existence check, removes `"X"` from the backend set, and then calls
the public `GetLocations` while still holding the store mutex.
`sync.Mutex` is not reentrant, so the operation blocks forever: it
neither returns nor releases the lock. -/
theorem deleteLocation_deadlocks_concrete :
    execAll s0 [.addLoc "X" [], .addLoc "Y" []] = some c3Store ∧
    (c3Store.deleteLocation "X").1 = Outcome.deadlock ∧
    (c3Store.deleteLocation "X").2.locked = true := by
  refine ⟨by rfl, by rfl, by rfl⟩

/-- C4 (code_bug evaluation): when the backend write of the edge replay
(the `HSET` issued by `AddRoutes` from inside `Restore`) fails, the code
executes `return nil, err` with the shadowed `err` still `nil`: the
caller receives a nil store and a nil error, so `NewRouteServer` — which
only aborts on a non-nil error — continues with a nil store instead of
aborting startup.  An empty backend, in contrast, correctly yields the
fresh empty store with no error. -/
theorem restore_swallows_replay_failure :
    Restore c4Redis = RestoreResult.ret none none ∧
    Restore emptyRedis = RestoreResult.ret (some s0) none := by
  refine ⟨by rfl, by rfl⟩

/-- C1 (counterexample): after the single successful mutating operation
`AddLocation("A", {"B": 1})` on a fresh store, the in-memory node set is
{"A", "B"} while the backend's location-name set is only {"A"}: the edge
target `"B"` became an in-memory node with no `SADD`, so the backend's
location-name set does not match the in-memory node set. -/
theorem mirror_invariant_fails_on_implicit_node :
    execAll s0 [.addLoc "A" [("B", 1)]] = some c1Store ∧
    c1Store.graph.nodeNames = ["A", "B"] ∧
    c1Store.redis.locSet = ["A"] ∧
    "B" ∈ c1Store.graph.nodeNames ∧ "B" ∉ c1Store.redis.locSet := by
  refine ⟨by rfl, by rfl, by rfl, by decide, by decide⟩

/-- C6 (counterexample): the spec's build sequence does not produce the
claimed graph.  `AddLocation("A", {"B":1, "C":4})` implicitly creates
the nodes `"B"` and `"C"`, so the subsequent `AddLocation("B", {"C":1})`
and `AddLocation("C", {})` both fail with AlreadyExists and change
nothing; on the state the three calls actually reach, `RoutesBetween("A",
"C")` returns the single direct route `["A","C"]` with weight 4 — not
`["A","B","C"]` with weight 2 as claimed. -/
theorem spec_scenario_build_fails :
    execAll s0 c6SpecHist = none ∧
    s0.addLocation "A" [("B", 1), ("C", 4)] = (.ok (), c6Store1) ∧
    c6Store1.addLocation "B" [("C", 1)] = (.err "B already exists", c6Store1) ∧
    c6Store1.addLocation "C" [] = (.err "C already exists", c6Store1) ∧
    (c6Store1.routesBetween "A" "C").1 =
      .ok [{ route := ["A", "C"], weight := 4 }] := by
  refine ⟨by rfl, by rfl, by rfl, by rfl, by decide⟩

/-- C9 (counterexample): the backend produced by the two successful
mutations of `c9Hist` does not restore to the pre-restart state: the
edge `B → C` was persisted under hash key `"B"`, but `"B"` is not in the
backend's location set, so `Restore` never reads that hash — the node
`"C"` and the edge `B → C` are lost. -/
theorem restore_loses_implicit_source_edges :
    execAll s0 c9Hist = some c9Store ∧
    Restore c9Store.redis = RestoreResult.ret (some c9Restored) none ∧
    "C" ∈ c9Store.graph.nodeNames ∧ "C" ∉ c9Restored.graph.nodeNames ∧
    c9Store.graph.edgeW (locId "B") (locId "C") = some 2 ∧
    c9Restored.graph.edgeW (locId "B") (locId "C") = none := by
  refine ⟨by rfl, by rfl, by decide, by decide, by rfl, by rfl⟩

/-- C10 (counterexample): silent creation fails when the new name's ID
collides with the ID of the source location itself.  In `c10CrashStore`
(single location `collB`), the name `collA` is not a node, yet
`AddRoutes(collB, {collA: 1})` does not succeed and does not create
`collA`: both endpoint IDs are 17882241782004685278, so gonum's
`SetWeightedEdge` panics (`"simple: adding self edge"`). -/
theorem addRoutes_collision_self_edge_crash :
    execAll s0 [Op.addLoc collB []] = some c10CrashStore ∧
    collA ∉ c10CrashStore.graph.nodeNames ∧
    collA ≠ collB ∧
    (c10CrashStore.addRoutes collB [(collA, 1)]).1 = .crash := by
  refine ⟨by rfl, by decide, by decide, by rfl⟩

/-- C7 (counterexample): the trivial-route claim fails on reachable
stores with a negative edge weight.  `AddLocation("X", {"Y": -1})`
succeeds (nothing validates weights, as spec section 9 notes), and then
`RoutesBetween("X", "X")` panics inside gonum's `DijkstraAllFrom` — the
negative edge `X → Y` is examined while processing the source — instead
of returning the trivial route `["X"]`. -/
theorem routesBetween_self_neg_weight_crash :
    execAll s0 c7NegHist = some c7NegStore ∧
    "X" ∈ c7NegStore.graph.nodeNames ∧
    (c7NegStore.routesBetween "X" "X").1 = .crash := by
  refine ⟨by rfl, by decide, by rfl⟩

end ConcreteEvaluation

/-! ### Association-list lemmas -/

theorem alookup_eq_none {α β : Type} [DecidableEq α] (l : List (α × β)) (a : α) :
    alookup l a = none ↔ a ∉ l.map Prod.fst := by
  induction l with
  | nil => simp [alookup]
  | cons p rest ih =>
    obtain ⟨k, v⟩ := p
    by_cases h : k = a <;> simp [alookup, h, ih, Ne.symm]

theorem alookup_isSome {α β : Type} [DecidableEq α] (l : List (α × β)) (a : α) :
    (alookup l a).isSome = true ↔ a ∈ l.map Prod.fst := by
  rw [Option.isSome_iff_ne_none]
  simp [alookup_eq_none]

theorem alookup_mem {α β : Type} [DecidableEq α] {l : List (α × β)} {a : α}
    {b : β} (h : alookup l a = some b) : (a, b) ∈ l := by
  induction l with
  | nil => simp [alookup] at h
  | cons p rest ih =>
    obtain ⟨k, v⟩ := p
    by_cases hk : k = a
    · subst hk
      simp [alookup] at h
      simp [h]
    · simp [alookup, hk] at h
      exact List.mem_cons_of_mem _ (ih h)

theorem mem_alookup {α β : Type} [DecidableEq α] :
    ∀ {l : List (α × β)} {a : α} {b : β},
      (l.map Prod.fst).Nodup → (a, b) ∈ l → alookup l a = some b
  | [], _, _, _, h => by simp at h
  | (k, v) :: rest, a, b, hnd, h => by
    rw [List.map_cons, List.nodup_cons] at hnd
    rcases List.mem_cons.mp h with heq | hmem
    · cases heq
      simp [alookup]
    · have hk : k ≠ a := by
        rintro rfl
        exact hnd.1 (List.mem_map.mpr ⟨(k, b), hmem, rfl⟩)
      rw [alookup, if_neg hk]
      exact mem_alookup hnd.2 hmem

theorem alookup_aupdate {α β : Type} [DecidableEq α] :
    ∀ (l : List (α × β)) (a : α) (b : β) (a' : α),
      alookup (aupdate l a b) a' = if a = a' then some b else alookup l a'
  | [], a, b, a' => by
    by_cases h : a = a' <;> simp [aupdate, alookup, h]
  | (k, v) :: rest, a, b, a' => by
    have hrec := alookup_aupdate rest a b a'
    by_cases hk : k = a
    · subst hk
      by_cases h : k = a' <;> simp [aupdate, alookup, h]
    · by_cases h : k = a'
      · subst h
        have hne : a ≠ k := fun e => hk e.symm
        simp [aupdate, alookup, hk, hne]
      · simp [aupdate, alookup, hk, h, hrec]

theorem aupdate_keys_mem {α β : Type} [DecidableEq α] :
    ∀ (l : List (α × β)) (a : α) (b : β), a ∈ l.map Prod.fst →
      (aupdate l a b).map Prod.fst = l.map Prod.fst
  | [], _, _, h => by simp at h
  | (k, v) :: rest, a, b, h => by
    by_cases hk : k = a
    · subst hk; simp [aupdate]
    · rw [List.map_cons] at h
      rcases List.mem_cons.mp h with heq | hmem
      · exact absurd heq.symm hk
      · simp [aupdate, hk, aupdate_keys_mem rest a b hmem]

theorem aupdate_keys_nmem {α β : Type} [DecidableEq α] :
    ∀ (l : List (α × β)) (a : α) (b : β), a ∉ l.map Prod.fst →
      (aupdate l a b).map Prod.fst = l.map Prod.fst ++ [a]
  | [], _, _, _ => by simp [aupdate]
  | (k, v) :: rest, a, b, h => by
    rw [List.map_cons] at h
    have hk : k ≠ a := fun e => h (by simp [e])
    have h2 : a ∉ rest.map Prod.fst := fun hm => h (List.mem_cons_of_mem _ hm)
    simp [aupdate, hk, aupdate_keys_nmem rest a b h2]

theorem aupdate_nodup {α β : Type} [DecidableEq α] (l : List (α × β))
    (a : α) (b : β) (h : (l.map Prod.fst).Nodup) :
    ((aupdate l a b).map Prod.fst).Nodup := by
  by_cases hm : a ∈ l.map Prod.fst
  · rwa [aupdate_keys_mem l a b hm]
  · rw [aupdate_keys_nmem l a b hm]
    refine List.Nodup.append h (List.nodup_singleton a) ?_
    intro x hx hxs
    rw [List.mem_singleton] at hxs
    exact hm (hxs ▸ hx)

theorem aupdate_self {α β : Type} [DecidableEq α] :
    ∀ {l : List (α × β)} {a : α} {b : β},
      alookup l a = some b → aupdate l a b = l
  | [], _, _, h => by simp [alookup] at h
  | (k, v) :: rest, a, b, h => by
    by_cases hk : k = a
    · subst hk
      rw [alookup, if_pos rfl] at h
      cases h
      simp [aupdate]
    · rw [alookup, if_neg hk] at h
      simp [aupdate, hk, aupdate_self h]

theorem aupdate_nmem_append {α β : Type} [DecidableEq α] :
    ∀ {l : List (α × β)} {a : α} (b : β),
      alookup l a = none → aupdate l a b = l ++ [(a, b)]
  | [], _, _, _ => rfl
  | (k, v) :: rest, a, b, h => by
    by_cases hk : k = a
    · rw [alookup, if_pos hk] at h
      cases h
    · rw [alookup, if_neg hk] at h
      rw [aupdate, if_neg hk, aupdate_nmem_append b h]
      rfl

theorem alookup_aremove {α β : Type} [DecidableEq α] :
    ∀ (l : List (α × β)) (a a' : α),
      alookup (aremove l a) a' = if a = a' then none else alookup l a'
  | [], a, a' => by by_cases h : a = a' <;> simp [aremove, alookup, h]
  | (k, v) :: rest, a, a' => by
    have hrec := alookup_aremove rest a a'
    by_cases hk : k = a
    · subst hk
      by_cases h : k = a'
      · subst h
        simp [aremove, hrec]
      · simp [aremove, alookup, h, hrec]
    · by_cases h : k = a'
      · subst h
        have hne : a ≠ k := fun e => hk e.symm
        simp [aremove, alookup, hk, hne]
      · simp [aremove, alookup, hk, h, hrec]

theorem aremove_keys {α β : Type} [DecidableEq α] :
    ∀ (l : List (α × β)) (a : α),
      (aremove l a).map Prod.fst = (l.map Prod.fst).filter (fun x => x ≠ a)
  | [], _ => by simp [aremove]
  | (k, v) :: rest, a => by
    by_cases hk : k = a
    · subst hk; simp [aremove, aremove_keys rest k]
    · simp [aremove, hk, aremove_keys rest a]

theorem alookup_append_left {α β : Type} [DecidableEq α] :
    ∀ {l l' : List (α × β)} {a : α} {b : β},
      alookup l a = some b → alookup (l ++ l') a = some b
  | [], _, _, _, h => by simp [alookup] at h
  | (k, v) :: rest, l', a, b, h => by
    by_cases hk : k = a
    · subst hk
      rw [alookup, if_pos rfl] at h
      simpa [alookup] using h
    · rw [alookup, if_neg hk] at h
      rw [List.cons_append, alookup, if_neg hk]
      exact alookup_append_left h

theorem alookup_append_right {α β : Type} [DecidableEq α] :
    ∀ {l : List (α × β)} (l' : List (α × β)) {a : α},
      alookup l a = none → alookup (l ++ l') a = alookup l' a
  | [], _, _, _ => by simp
  | (k, v) :: rest, l', a, h => by
    by_cases hk : k = a
    · rw [alookup, if_pos hk] at h
      cases h
    · rw [alookup, if_neg hk] at h
      rw [List.cons_append, alookup, if_neg hk]
      exact alookup_append_right l' h

theorem aupdate_mem_self {α β : Type} [DecidableEq α] :
    ∀ (l : List (α × β)) (a : α) (b : β), (a, b) ∈ aupdate l a b
  | [], a, b => by simp [aupdate]
  | (k, v) :: rest, a, b => by
    by_cases hk : k = a
    · subst hk; simp [aupdate]
    · simp [aupdate, hk, aupdate_mem_self rest a b]

/-! ### Well-formedness consequences -/

theorem nodeAt_of_mem {g : WGraph} (hwf : g.WF) {n : String}
    (hn : n ∈ g.nodeNames) : g.nodeAt (locId n) = some n := by
  obtain ⟨p, hp, hpn⟩ := List.mem_map.mp hn
  obtain ⟨k, v⟩ := p
  cases hpn
  have hk := hwf.nodeId _ hp
  exact mem_alookup hwf.nodeKeys (hk ▸ hp)

theorem mem_of_nodeAt {g : WGraph} {i : Nat} {n : String}
    (h : g.nodeAt i = some n) : n ∈ g.nodeNames :=
  List.mem_map.mpr ⟨(i, n), alookup_mem h, rfl⟩

/-! ### C8: AddLocation on an existing name -/

/-- C8 (confirmed): on every well-formed, at-rest store that already
holds a location named `name`, `AddLocation(name, routesTo)` fails with
the AlreadyExists error (`"<name> already exists"`) and returns the store
completely unchanged — same in-memory graph, same backend state, lock
released. -/
theorem addLocation_existing_name_errors (s : RouteStore) (name : String)
    (routes : List (String × ℚ)) (hl : s.locked = false) (hwf : s.graph.WF)
    (hn : name ∈ s.graph.nodeNames) :
    s.addLocation name routes = (.err (name ++ " already exists"), s) := by
  have h := nodeAt_of_mem hwf hn
  unfold RouteStore.addLocation
  rw [hl]
  simp [h]

/-- Witness for C8 at a concrete input. -/
theorem addLocation_existing_name_errors_witness :
    c8Store.addLocation "Q" [("Z", 3)] = (.err "Q already exists", c8Store) :=
  addLocation_existing_name_errors c8Store "Q" [("Z", 3)] rfl
    ⟨by decide, by decide, by decide, by decide⟩ (by decide)

/-! ### C2: DeleteLocation can never succeed -/

/-- Core fact about `DeleteLocation` on an existing location: it ends in
the self-deadlock with the lock still held. -/
theorem deleteLocation_blocks (s : RouteStore) (name : String)
    (hl : s.locked = false) (hf : s.redis.fails = [])
    (hn : (s.graph.nodeAt (locId name)).isSome = true) :
    (s.deleteLocation name).1 = Outcome.deadlock ∧
    (s.deleteLocation name).2.locked = true := by
  obtain ⟨v, hv⟩ := Option.isSome_iff_exists.mp hn
  unfold RouteStore.deleteLocation
  rw [hl]
  simp [hv, Redis.srem, Redis.step, hf, RouteStore.getLocations]

/-- Core fact about `DeleteLocation` on an unknown location: the NotFound
error, with the store unchanged. -/
theorem deleteLocation_err {s : RouteStore} {name : String}
    (hl : s.locked = false) (hn : s.graph.nodeAt (locId name) = none) :
    s.deleteLocation name = (.err (name ++ " does not exist"), s) := by
  obtain ⟨lk, g, r⟩ := s
  have hlk : lk = false := hl
  subst hlk
  have hn' : g.nodeAt (locId name) = none := hn
  unfold RouteStore.deleteLocation
  rw [if_neg (fun hc => Bool.noConfusion hc),
    if_pos (show (g.nodeAt (locId name)).isNone = true by rw [hn']; rfl)]

/-- C2 (code_bug): on every at-rest store with a reliable backend,
`DeleteLocation` of any known location never succeeds: after the `SREM`
it re-acquires the store's own (non-reentrant) mutex through the internal
`rs.GetLocations()` call and blocks forever with the lock still held — so
it can never reach the code that would clean up the in-memory node and
the inbound persisted edges. -/
theorem deleteLocation_never_succeeds (s : RouteStore) (name : String)
    (hl : s.locked = false) (hf : s.redis.fails = [])
    (hn : (s.graph.nodeAt (locId name)).isSome = true) :
    (s.deleteLocation name).1 = Outcome.deadlock ∧
    (s.deleteLocation name).2.locked = true :=
  deleteLocation_blocks s name hl hf hn

/-- Witness for C2 at a concrete input. -/
theorem deleteLocation_never_succeeds_witness :
    (c2Store.deleteLocation "L").1 = Outcome.deadlock ∧
    (c2Store.deleteLocation "L").2.locked = true :=
  deleteLocation_never_succeeds c2Store "L" rfl rfl (by rfl)

/-! ### C7: the trivial route -/

/-- C7 (amended, proved): on every well-formed, at-rest store all of
whose edge weights are non-negative (so that gonum's `DijkstraAllFrom`
cannot panic), for every known location X, `RoutesBetween(X, X)`
succeeds and returns exactly one route — the single-element path `[X]`
with total weight zero — and leaves the store untouched.  Without the
weight restriction the call can panic instead:
see `routesBetween_self_neg_weight_crash`. -/
theorem routesBetween_self_amended (s : RouteStore) (X : String)
    (hl : s.locked = false) (hwf : s.graph.WF) (hx : X ∈ s.graph.nodeNames)
    (hnn : ∀ e ∈ s.graph.edges, 0 ≤ e.2) :
    s.routesBetween X X = (.ok [{ route := [X], weight := 0 }], s) := by
  have h := nodeAt_of_mem hwf hx
  have hnp : ¬s.graph.negPanic (locId X) := by
    intro hp
    unfold WGraph.negPanic at hp
    obtain ⟨e, he, hlt, -⟩ := hp
    exact absurd (hnn e he) (not_le.mpr hlt)
  unfold RouteStore.routesBetween
  rw [hl]
  simp [h, hnp, WGraph.allTo]

/-- Witness for the amended C7 at a concrete input. -/
theorem routesBetween_self_amended_witness :
    c7Store.routesBetween "P" "P" =
      (.ok [{ route := ["P"], weight := 0 }], c7Store) :=
  routesBetween_self_amended c7Store "P" rfl
    ⟨by decide, by decide, by decide, by decide⟩ (by decide) (by decide)

/-! ### C10: silent node creation by AddRoutes -/

/-- C10 (amended, proved): let A be a known location of an at-rest store
with a reliable backend, and B a name that is not currently a node name
and whose ID differs from A's own ID.  Then `AddRoutes(A, {B: w})`
succeeds and silently creates B as an in-memory node — B is listed by
`GetLocations`, and B is a successor of A in `RoutesFrom(A)` — while the
backend's location-name set is unchanged: B is never `SADD`ed.  This
holds even when B's ID collides with another existing node's ID: gonum's
`SetWeightedEdge` then overwrites the colliding record with B, as the
conjoined concrete run shows — after `c10Hist`, `collA` has taken
`collB`'s place in `GetLocations` and `RoutesFrom("X")`.  Only a
collision with A's own ID prevents creation, by the self-edge panic
(`addRoutes_collision_self_edge_crash`). -/
theorem addRoutes_creates_target_node :
    (∀ (s : RouteStore) (A B : String) (w : ℚ),
      s.locked = false → s.redis.fails = [] →
      (s.graph.nodeAt (locId A)).isSome = true →
      B ∉ s.graph.nodeNames → locId B ≠ locId A →
      ∃ s', s.addRoutes A [(B, w)] = (.ok (), s') ∧
        s'.getLocations = (.ok s'.graph.nodeNames, s') ∧
        B ∈ s'.graph.nodeNames ∧
        (s'.routesFrom A).1 = .ok (s'.graph.fromNames (locId A)) ∧
        B ∈ s'.graph.fromNames (locId A) ∧
        s'.redis.locSet = s.redis.locSet) ∧
    execAll s0 c10Hist = some c10Store ∧
    c10Store.getLocations.1 = .ok ["X", collA] ∧
    (c10Store.routesFrom "X").1 = .ok [collA] ∧
    collB ∉ c10Store.graph.nodeNames ∧
    c10Store.redis.locSet = ["X", collB] := by
  refine ⟨?_, by rfl, by rfl, by rfl, by decide, by rfl⟩
  intro s A B w hl hf hA hB hid
  obtain ⟨x, hx⟩ := Option.isSome_iff_exists.mp hA
  have hAB : A ≠ B := fun e => hid (by rw [e])
  have hedge : s.graph.setWEdge A B w =
      some { nodes := aupdate (aupdate s.graph.nodes (locId A) A) (locId B) B
             edges := aupdate s.graph.edges (locId A, locId B) w } := by
    unfold WGraph.setWEdge
    rw [if_neg (fun e => hid e.symm)]
  have happ : applyRoutes A [(B, w)] s.graph s.redis =
      (.ok (),
       { nodes := aupdate (aupdate s.graph.nodes (locId A) A) (locId B) B
         edges := aupdate s.graph.edges (locId A, locId B) w },
       { s.redis with
         hashes := aupdate s.redis.hashes A
           (aupdate (s.redis.hashOf A) B (RVal.num w)) }) := by
    unfold applyRoutes
    rw [if_pos hAB, hedge]
    unfold Redis.hset Redis.step
    rw [hf]
    simp [applyRoutes]
  have hBat : WGraph.nodeAt
      ⟨aupdate (aupdate s.graph.nodes (locId A) A) (locId B) B,
       aupdate s.graph.edges (locId A, locId B) w⟩ (locId B) = some B := by
    show alookup (aupdate (aupdate s.graph.nodes (locId A) A) (locId B) B)
      (locId B) = some B
    rw [alookup_aupdate, if_pos rfl]
  have hAat : WGraph.nodeAt
      ⟨aupdate (aupdate s.graph.nodes (locId A) A) (locId B) B,
       aupdate s.graph.edges (locId A, locId B) w⟩ (locId A) = some A := by
    show alookup (aupdate (aupdate s.graph.nodes (locId A) A) (locId B) B)
      (locId A) = some A
    rw [alookup_aupdate, if_neg hid, alookup_aupdate, if_pos rfl]
  refine ⟨{ s with
      graph := { nodes := aupdate (aupdate s.graph.nodes (locId A) A) (locId B) B
                 edges := aupdate s.graph.edges (locId A, locId B) w }
      redis := { s.redis with
                 hashes := aupdate s.redis.hashes A
                   (aupdate (s.redis.hashOf A) B (RVal.num w)) } },
    ?_, ?_, ?_, ?_, ?_, ?_⟩
  · unfold RouteStore.addRoutes
    rw [hl]
    simp only [WGraph.nodeAt] at hx
    simp only [WGraph.nodeAt, hx, Option.isNone_some, Bool.false_eq_true,
      if_false, happ]
  · unfold RouteStore.getLocations
    simp only [hl, Bool.false_eq_true, if_false]
  · exact List.mem_map.mpr ⟨(locId B, B), aupdate_mem_self _ _ _, rfl⟩
  · unfold RouteStore.routesFrom
    simp only [hl, Bool.false_eq_true, if_false, hAat, Option.isNone_some]
  · unfold WGraph.fromNames
    refine List.mem_filterMap.mpr ⟨((locId A, locId B), w),
      aupdate_mem_self _ _ _, ?_⟩
    rw [if_pos rfl]
    exact hBat
  · rfl

/-! ### More association-list and primitive-step lemmas -/

theorem mem_aupdate {α β : Type} [DecidableEq α] :
    ∀ {l : List (α × β)} {a : α} {b : β} {p : α × β},
      p ∈ aupdate l a b → p ∈ l ∨ p = (a, b)
  | [], _, _, _, h => by
    rw [aupdate] at h
    exact Or.inr (List.mem_singleton.mp h)
  | (k, v) :: rest, a, b, p, h => by
    by_cases hk : k = a
    · subst hk
      rw [aupdate, if_pos rfl] at h
      rcases List.mem_cons.mp h with h | h
      · exact Or.inr h
      · exact Or.inl (List.mem_cons_of_mem _ h)
    · rw [aupdate, if_neg hk] at h
      rcases List.mem_cons.mp h with h | h
      · exact Or.inl (h ▸ List.mem_cons_self _ _)
      · rcases mem_aupdate h with h | h
        · exact Or.inl (List.mem_cons_of_mem _ h)
        · exact Or.inr h

theorem aremove_sublist {α β : Type} [DecidableEq α] :
    ∀ (l : List (α × β)) (a : α), (aremove l a).Sublist l
  | [], _ => List.Sublist.refl _
  | (k, v) :: rest, a => by
    by_cases hk : k = a
    · rw [aremove, if_pos hk]
      exact (aremove_sublist rest a).cons _
    · rw [aremove, if_neg hk]
      exact (aremove_sublist rest a).cons₂ _

theorem mem_aremove {α β : Type} [DecidableEq α] {l : List (α × β)} {a : α}
    {p : α × β} (h : p ∈ aremove l a) : p ∈ l :=
  (aremove_sublist l a).mem h

/-- `HSET` on a reliable connection. -/
theorem hset_ok {r : Redis} (hf : r.fails = []) (key field : String) (v : RVal) :
    r.hset key field v =
      (false, { r with
        hashes := aupdate r.hashes key (aupdate (r.hashOf key) field v) }) := by
  obtain ⟨ls, hs, fl⟩ := r
  have h : fl = [] := hf
  subst h
  rfl

/-- `HDEL` on a reliable connection. -/
theorem hdel_ok {r : Redis} (hf : r.fails = []) (key field : String) :
    r.hdel key field =
      (false, { r with
        hashes := aupdate r.hashes key (aremove (r.hashOf key) field) }) := by
  obtain ⟨ls, hs, fl⟩ := r
  have h : fl = [] := hf
  subst h
  rfl

/-- `SADD` on a reliable connection. -/
theorem sadd_ok {r : Redis} (hf : r.fails = []) (m : String) :
    r.sadd m = (false, { r with
      locSet := if m ∈ r.locSet then r.locSet else r.locSet ++ [m] }) := by
  obtain ⟨ls, hs, fl⟩ := r
  have h : fl = [] := hf
  subst h
  rfl

/-- Hash content after an `HSET`-style update of the hash map. -/
theorem hashOf_aupdate (r : Redis) (key : String) (X : List (String × RVal))
    (key' : String) :
    ({ r with hashes := aupdate r.hashes key X } : Redis).hashOf key' =
      if key = key' then X else r.hashOf key' := by
  show (alookup (aupdate r.hashes key X) key').getD [] = _
  rw [alookup_aupdate]
  by_cases h : key = key' <;> simp [h, Redis.hashOf]

/-- `SetWeightedEdge` when both endpoint records are already stored with
the edge's own endpoints: the node-map writes are identities. -/
theorem setWEdge_present {g : WGraph} {A d : String}
    (hid : locId A ≠ locId d) (hA : g.nodeAt (locId A) = some A)
    (hd : g.nodeAt (locId d) = some d) (w : ℚ) :
    g.setWEdge A d w =
      some { nodes := g.nodes, edges := aupdate g.edges (locId A, locId d) w } := by
  unfold WGraph.setWEdge
  rw [if_neg hid, aupdate_self hA, aupdate_self hd]

/-- `SetWeightedEdge` when the source record is stored as the edge's
source and the target ID is absent: the target node is appended. -/
theorem setWEdge_new {g : WGraph} {A d : String}
    (hid : locId A ≠ locId d) (hA : g.nodeAt (locId A) = some A)
    (hd : g.nodeAt (locId d) = none) (w : ℚ) :
    g.setWEdge A d w =
      some { nodes := g.nodes ++ [(locId d, d)]
             edges := aupdate g.edges (locId A, locId d) w } := by
  unfold WGraph.setWEdge
  rw [if_neg hid, aupdate_self hA, aupdate_nmem_append d hd]

/-- Node lookup is preserved by appending fresh node records. -/
theorem nodeAt_append {g : WGraph} {ext : List (Nat × String)} {i : Nat}
    (h : (g.nodeAt i).isSome = true) :
    alookup (g.nodes ++ ext) i = g.nodeAt i := by
  obtain ⟨v, hv⟩ := Option.isSome_iff_exists.mp h
  rw [hv]
  exact alookup_append_left hv

theorem ApplyEff.nodeAtPres {name : String} {fields : List (String × ℚ)}
    {g : WGraph} {r : Redis} {g' : WGraph} {r' : Redis}
    (eff : ApplyEff name fields g r g' r') (i : Nat)
    (hi : (g.nodeAt i).isSome = true) : g'.nodeAt i = g.nodeAt i := by
  obtain ⟨ext, hgn, _⟩ := eff.nodesApp
  show alookup g'.nodes i = _
  rw [hgn]
  exact nodeAt_append hi

/-! ### The pointwise specification of `applyRoutes` -/

theorem applyRoutes_spec (name : String) :
    ∀ (fields : List (String × ℚ)) (g : WGraph) (r : Redis),
      r.fails = [] →
      g.nodeAt (locId name) = some name →
      (∀ p ∈ fields, p.1 ≠ name →
        g.nodeAt (locId p.1) = none ∨ g.nodeAt (locId p.1) = some p.1) →
      (∀ p ∈ fields, p.1 ≠ name → locId p.1 ≠ locId name) →
      (fields.map Prod.fst).Nodup →
      (∀ p ∈ fields, ∀ q ∈ fields, locId p.1 = locId q.1 → p.1 = q.1) →
      ∃ g' r', applyRoutes name fields g r = (.ok (), g', r') ∧
        ApplyEff name fields g r g' r'
  | [], g, r, _, _, _, _, _, _ =>
    ⟨g, r, rfl,
     { locSetEq := rfl
       failsEq := rfl
       hashOfOther := fun _ _ => rfl
       hashOfName := rfl
       hashNodup := fun h => h
       hashMem := fun _ h hm => Or.inl hm
       nodesApp := ⟨[], by simp, by simp, by simp⟩
       nodesNew := by simp
       edgeWOther := fun _ _ _ => rfl
       edgeWNomatch := fun _ _ => rfl
       edgeWMatch := by simp
       edgeMem := fun _ he => Or.inl he
       edgeKeysPres := fun _ _ h => h
       edgeNodup := fun h => h }⟩
  | (d, w) :: rest, g, r, hf, hname, htgt, hno, hnd, hinj => by
    rw [List.map_cons, List.nodup_cons] at hnd
    by_cases hd : name = d
    · -- self-referencing pair: skipped by the loop
      obtain ⟨g', r', happ, heff⟩ := applyRoutes_spec name rest g r hf hname
        (fun p hp hpn => htgt p (List.mem_cons_of_mem _ hp) hpn)
        (fun p hp => hno p (List.mem_cons_of_mem _ hp)) hnd.2
        (fun p hp q hq => hinj p (List.mem_cons_of_mem _ hp) q (List.mem_cons_of_mem _ hq))
      refine ⟨g', r', ?_, ?_⟩
      · rw [applyRoutes, if_neg (fun h => h hd)]
        exact happ
      · refine
          { locSetEq := heff.locSetEq
            failsEq := heff.failsEq
            hashOfOther := heff.hashOfOther
            hashOfName := by rw [heff.hashOfName, hfold, if_neg (fun h => h hd)]
            hashNodup := heff.hashNodup
            hashMem := by
              intro hnodup h hm
              rcases heff.hashMem hnodup h hm with h1 | ⟨h1, h2⟩
              · exact Or.inl h1
              · exact Or.inr ⟨h1, by rw [h2, hfold, if_neg (fun h => h hd)]⟩
            nodesApp := ?_
            nodesNew := ?_
            edgeWOther := heff.edgeWOther
            edgeWNomatch := fun t hc => heff.edgeWNomatch t
              (fun p hp => hc p (List.mem_cons_of_mem _ hp))
            edgeWMatch := ?_
            edgeMem := ?_
            edgeKeysPres := heff.edgeKeysPres
            edgeNodup := heff.edgeNodup }
        · obtain ⟨ext, hgn, hext, hcond⟩ := heff.nodesApp
          exact ⟨ext, hgn, hext, fun p hp =>
            ⟨⟨(hcond p hp).1.choose, List.mem_cons_of_mem _ (hcond p hp).1.choose_spec⟩,
             (hcond p hp).2.1, (hcond p hp).2.2.1, (hcond p hp).2.2.2⟩⟩
        · intro p hp hpn
          rcases List.mem_cons.mp hp with heq | hp'
          · cases heq
            exact absurd hd.symm hpn
          · exact heff.nodesNew p hp' hpn
        · intro d' w' hm hd'
          rcases List.mem_cons.mp hm with heq | hm'
          · cases heq
            exact absurd hd.symm (by simpa using hd')
          · exact heff.edgeWMatch d' w' hm' hd'
        · intro e he
          rcases heff.edgeMem e he with h1 | ⟨h1, d', w', hm', hd', ht'⟩
          · exact Or.inl h1
          · exact Or.inr ⟨h1, d', w', List.mem_cons_of_mem _ hm', hd', ht'⟩
    · -- a real edge: SetWeightedEdge then HSET, then the rest of the loop
      have hdn : d ≠ name := fun e => hd e.symm
      have hid : locId name ≠ locId d :=
        fun e => hno (d, w) (List.mem_cons_self _ _) hdn e.symm
      -- the redis state after the HSET
      have hr1 : r.hset name d (RVal.num w) = (false, { r with hashes := aupdate r.hashes name (aupdate (r.hashOf name) d (RVal.num w)) }) :=
        hset_ok hf name d _
      set r₁ : Redis := { r with hashes := aupdate r.hashes name (aupdate (r.hashOf name) d (RVal.num w)) } with hr1def
      have hf1 : r₁.fails = [] := hf
      by_cases hpres : (g.nodeAt (locId d)).isSome = true
      · -- target node already present
        have hdstored : g.nodeAt (locId d) = some d := by
          rcases htgt (d, w) (List.mem_cons_self _ _) hdn with h | h
          · rw [h] at hpres
            exact Bool.noConfusion hpres
          · exact h
        set g₁ : WGraph :=
          { nodes := g.nodes, edges := aupdate g.edges (locId name, locId d) w }
          with hg1def
        have hstep : applyRoutes name ((d, w) :: rest) g r =
            applyRoutes name rest g₁ r₁ := by
          rw [applyRoutes, if_pos hd, setWEdge_present hid hname hdstored, hr1]
          rfl
        have hn1 : g₁.nodeAt (locId name) = some name := hname
        obtain ⟨g', r', happ, heff⟩ := applyRoutes_spec name rest g₁ r₁ hf1 hn1
          (fun p hp hpn => htgt p (List.mem_cons_of_mem _ hp) hpn)
          (fun p hp => hno p (List.mem_cons_of_mem _ hp)) hnd.2
          (fun p hp q hq => hinj p (List.mem_cons_of_mem _ hp) q (List.mem_cons_of_mem _ hq))
        refine ⟨g', r', by rw [hstep]; exact happ, ?_⟩
        refine
          { locSetEq := heff.locSetEq
            failsEq := heff.failsEq
            hashOfOther := ?_
            hashOfName := ?_
            hashNodup := fun h => heff.hashNodup (aupdate_nodup _ _ _ h)
            hashMem := ?_
            nodesApp := ?_
            nodesNew := ?_
            edgeWOther := ?_
            edgeWNomatch := ?_
            edgeWMatch := ?_
            edgeMem := ?_
            edgeKeysPres := ?_
            edgeNodup := fun h => heff.edgeNodup (aupdate_nodup _ _ _ h) }
        · intro key hkey
          rw [heff.hashOfOther key hkey,
            show r₁.hashOf key = _ from hashOf_aupdate r name _ key,
            if_neg (fun e => hkey e.symm)]
        · rw [heff.hashOfName,
            show r₁.hashOf name = _ from hashOf_aupdate r name _ name, if_pos rfl,
            hfold, if_pos hd]
        · intro hnodup h hm
          have hnd1 : (r₁.hashes.map Prod.fst).Nodup := aupdate_nodup _ _ _ hnodup
          have hfoldeq : hfold name (r₁.hashOf name) rest =
              hfold name (r.hashOf name) ((d, w) :: rest) := by
            rw [show r₁.hashOf name = _ from hashOf_aupdate r name _ name, if_pos rfl,
              hfold, if_pos hd]
          rcases heff.hashMem hnd1 h hm with h1 | ⟨h1, h2⟩
          · rcases mem_aupdate h1 with h2 | h2
            · exact Or.inl h2
            · -- the partially updated entry: its value must equal the final fold
              refine Or.inr ⟨by rw [h2], ?_⟩
              have hl : alookup r'.hashes name = some h.2 := by
                have := mem_alookup (heff.hashNodup hnd1) (show (name, h.2) ∈ r'.hashes by
                  rw [show (name, h.2) = h from by rw [h2]] at *
                  · exact hm)
                exact this
              have : r'.hashOf name = h.2 := by
                show (alookup r'.hashes name).getD [] = _
                rw [hl]
                rfl
              rw [← this, heff.hashOfName, hfoldeq]
          · exact Or.inr ⟨h1, by rw [h2, hfoldeq]⟩
        · obtain ⟨ext, hgn, hext, hcond⟩ := heff.nodesApp
          refine ⟨ext, hgn, hext, fun p hp => ?_⟩
          obtain ⟨⟨w', hw'⟩, hpn, hpk, hpnone⟩ := hcond p hp
          exact ⟨⟨w', List.mem_cons_of_mem _ hw'⟩, hpn, hpk, hpnone⟩
        · intro p hp hpn
          rcases List.mem_cons.mp hp with heq | hp'
          · cases heq
            show (g'.nodeAt (locId d)).isSome = true
            rw [heff.nodeAtPres _ hpres]
            exact hpres
          · exact heff.nodesNew p hp' hpn
        · intro f t hft
          rw [heff.edgeWOther f t hft]
          show alookup (aupdate g.edges (locId name, locId d) w) (f, t) = _
          rw [alookup_aupdate, if_neg (fun e => hft (congrArg Prod.fst e).symm)]
          rfl
        · intro t hc
          have hldt : locId d ≠ t := by
            rcases hc (d, w) (List.mem_cons_self _ _) with h | h
            · exact absurd h hdn
            · exact h
          rw [heff.edgeWNomatch t (fun p hp => hc p (List.mem_cons_of_mem _ hp))]
          show alookup (aupdate g.edges (locId name, locId d) w) (locId name, t) = _
          rw [alookup_aupdate, if_neg (fun e => hldt (congrArg Prod.snd e))]
          rfl
        · intro d' w' hm hd'
          rcases List.mem_cons.mp hm with heq | hm'
          · cases heq
            have h1 : g₁.edgeW (locId name) (locId d) = some w := by
              show alookup (aupdate g.edges (locId name, locId d) w) _ = _
              rw [alookup_aupdate, if_pos rfl]
            rw [heff.edgeWNomatch (locId d) ?_]
            · exact h1
            · intro p hp
              by_cases hpn : p.1 = name
              · exact Or.inl hpn
              · refine Or.inr (fun he => ?_)
                have := hinj p (List.mem_cons_of_mem _ hp) (d, w)
                  (List.mem_cons_self _ _) he
                exact hnd.1 (this ▸ List.mem_map.mpr ⟨p, hp, rfl⟩)
          · exact heff.edgeWMatch d' w' hm' hd'
        · intro e he
          rcases heff.edgeMem e he with h1 | ⟨h1, d', w', hm', hd', ht'⟩
          · rcases mem_aupdate h1 with h2 | h2
            · exact Or.inl h2
            · exact Or.inr ⟨by rw [h2], d, w, List.mem_cons_self _ _, hdn, by rw [h2]⟩
          · exact Or.inr ⟨h1, d', w', List.mem_cons_of_mem _ hm', hd', ht'⟩
        · intro f t hsome
          refine heff.edgeKeysPres f t ?_
          show (alookup (aupdate g.edges (locId name, locId d) w) (f, t)).isSome = true
          rw [alookup_aupdate]
          by_cases he : (locId name, locId d) = (f, t)
          · rw [if_pos he]
            rfl
          · rw [if_neg he]
            exact hsome
      · -- target node created on the fly
        have hnone : g.nodeAt (locId d) = none := by
          cases hcase : g.nodeAt (locId d)
          · rfl
          · rw [hcase] at hpres
            exact absurd rfl hpres
        set g₁ : WGraph :=
          { nodes := g.nodes ++ [(locId d, d)]
            edges := aupdate g.edges (locId name, locId d) w } with hg1def
        have hstep : applyRoutes name ((d, w) :: rest) g r =
            applyRoutes name rest g₁ r₁ := by
          rw [applyRoutes, if_pos hd, setWEdge_new hid hname hnone, hr1]
          rfl
        have hn1 : g₁.nodeAt (locId name) = some name := by
          show alookup (g.nodes ++ [(locId d, d)]) (locId name) = some name
          exact alookup_append_left hname
        have hd1 : (g₁.nodeAt (locId d)).isSome = true := by
          show (alookup (g.nodes ++ [(locId d, d)]) (locId d)).isSome = true
          rw [alookup_append_right _ hnone, alookup, if_pos rfl]
          rfl
        have htgt1 : ∀ p ∈ rest, p.1 ≠ name →
            g₁.nodeAt (locId p.1) = none ∨ g₁.nodeAt (locId p.1) = some p.1 := by
          intro p hp hpn
          rcases htgt p (List.mem_cons_of_mem _ hp) hpn with h | h
          · by_cases hpd : locId p.1 = locId d
            · have hpd' : p.1 = d := hinj p (List.mem_cons_of_mem _ hp) (d, w)
                (List.mem_cons_self _ _) hpd
              refine Or.inr ?_
              show alookup (g.nodes ++ [(locId d, d)]) (locId p.1) = some p.1
              rw [alookup_append_right _ h, hpd, alookup, if_pos rfl, hpd']
            · refine Or.inl ?_
              show alookup (g.nodes ++ [(locId d, d)]) (locId p.1) = none
              rw [alookup_append_right _ h, alookup,
                if_neg (fun e => hpd e.symm)]
              rfl
          · refine Or.inr ?_
            show alookup (g.nodes ++ [(locId d, d)]) (locId p.1) = some p.1
            exact alookup_append_left h
        obtain ⟨g', r', happ, heff⟩ := applyRoutes_spec name rest g₁ r₁ hf1 hn1
          htgt1
          (fun p hp => hno p (List.mem_cons_of_mem _ hp)) hnd.2
          (fun p hp q hq => hinj p (List.mem_cons_of_mem _ hp) q (List.mem_cons_of_mem _ hq))
        refine ⟨g', r', by rw [hstep]; exact happ, ?_⟩
        refine
          { locSetEq := heff.locSetEq
            failsEq := heff.failsEq
            hashOfOther := ?_
            hashOfName := ?_
            hashNodup := fun h => heff.hashNodup (aupdate_nodup _ _ _ h)
            hashMem := ?_
            nodesApp := ?_
            nodesNew := ?_
            edgeWOther := ?_
            edgeWNomatch := ?_
            edgeWMatch := ?_
            edgeMem := ?_
            edgeKeysPres := ?_
            edgeNodup := fun h => heff.edgeNodup (aupdate_nodup _ _ _ h) }
        · intro key hkey
          rw [heff.hashOfOther key hkey,
            show r₁.hashOf key = _ from hashOf_aupdate r name _ key,
            if_neg (fun e => hkey e.symm)]
        · rw [heff.hashOfName,
            show r₁.hashOf name = _ from hashOf_aupdate r name _ name, if_pos rfl,
            hfold, if_pos hd]
        · intro hnodup h hm
          have hnd1 : (r₁.hashes.map Prod.fst).Nodup := aupdate_nodup _ _ _ hnodup
          have hfoldeq : hfold name (r₁.hashOf name) rest =
              hfold name (r.hashOf name) ((d, w) :: rest) := by
            rw [show r₁.hashOf name = _ from hashOf_aupdate r name _ name, if_pos rfl,
              hfold, if_pos hd]
          rcases heff.hashMem hnd1 h hm with h1 | ⟨h1, h2⟩
          · rcases mem_aupdate h1 with h2 | h2
            · exact Or.inl h2
            · refine Or.inr ⟨by rw [h2], ?_⟩
              have hl : alookup r'.hashes name = some h.2 := by
                have := mem_alookup (heff.hashNodup hnd1) (show (name, h.2) ∈ r'.hashes by
                  rw [show (name, h.2) = h from by rw [h2]] at *
                  · exact hm)
                exact this
              have : r'.hashOf name = h.2 := by
                show (alookup r'.hashes name).getD [] = _
                rw [hl]
                rfl
              rw [← this, heff.hashOfName, hfoldeq]
          · exact Or.inr ⟨h1, by rw [h2, hfoldeq]⟩
        · obtain ⟨ext, hgn, hext, hcond⟩ := heff.nodesApp
          refine ⟨(locId d, d) :: ext, ?_, ?_, ?_⟩
          · rw [hgn]
            show (g.nodes ++ [(locId d, d)]) ++ ext = _
            rw [List.append_assoc]
            rfl
          · rw [List.map_cons, List.nodup_cons]
            refine ⟨?_, hext⟩
            intro hmem
            obtain ⟨p, hp, hpk⟩ := List.mem_map.mp hmem
            have := (hcond p hp).2.2.2
            rw [hpk] at this
            rw [show g₁.nodeAt (locId d) = none from this] at hd1
            cases hd1
          · intro p hp
            rcases List.mem_cons.mp hp with rfl | hp'
            · exact ⟨⟨w, List.mem_cons_self _ _⟩, hdn, rfl, hnone⟩
            · obtain ⟨⟨w', hw'⟩, hpn, hpk, hpnone⟩ := hcond p hp'
              refine ⟨⟨w', List.mem_cons_of_mem _ hw'⟩, hpn, hpk, ?_⟩
              cases hcase : g.nodeAt p.1
              · rfl
              · have : (g₁.nodeAt p.1).isSome = true := by
                  show (alookup (g.nodes ++ [(locId d, d)]) p.1).isSome = true
                  rw [nodeAt_append (by rw [hcase]; rfl)]
                  rw [hcase]
                  rfl
                rw [Option.isSome_iff_ne_none] at this
                exact absurd hpnone this
        · intro p hp hpn
          rcases List.mem_cons.mp hp with heq | hp'
          · cases heq
            show (g'.nodeAt (locId d)).isSome = true
            rw [heff.nodeAtPres _ hd1]
            exact hd1
          · exact heff.nodesNew p hp' hpn
        · intro f t hft
          rw [heff.edgeWOther f t hft]
          show alookup (aupdate g.edges (locId name, locId d) w) (f, t) = _
          rw [alookup_aupdate, if_neg (fun e => hft (congrArg Prod.fst e).symm)]
          rfl
        · intro t hc
          have hldt : locId d ≠ t := by
            rcases hc (d, w) (List.mem_cons_self _ _) with h | h
            · exact absurd h hdn
            · exact h
          rw [heff.edgeWNomatch t (fun p hp => hc p (List.mem_cons_of_mem _ hp))]
          show alookup (aupdate g.edges (locId name, locId d) w) (locId name, t) = _
          rw [alookup_aupdate, if_neg (fun e => hldt (congrArg Prod.snd e))]
          rfl
        · intro d' w' hm hd'
          rcases List.mem_cons.mp hm with heq | hm'
          · cases heq
            have h1 : g₁.edgeW (locId name) (locId d) = some w := by
              show alookup (aupdate g.edges (locId name, locId d) w) _ = _
              rw [alookup_aupdate, if_pos rfl]
            rw [heff.edgeWNomatch (locId d) ?_]
            · exact h1
            · intro p hp
              by_cases hpn : p.1 = name
              · exact Or.inl hpn
              · refine Or.inr (fun he => ?_)
                have := hinj p (List.mem_cons_of_mem _ hp) (d, w)
                  (List.mem_cons_self _ _) he
                exact hnd.1 (this ▸ List.mem_map.mpr ⟨p, hp, rfl⟩)
          · exact heff.edgeWMatch d' w' hm' hd'
        · intro e he
          rcases heff.edgeMem e he with h1 | ⟨h1, d', w', hm', hd', ht'⟩
          · rcases mem_aupdate h1 with h2 | h2
            · exact Or.inl h2
            · exact Or.inr ⟨by rw [h2], d, w, List.mem_cons_self _ _, hdn, by rw [h2]⟩
          · exact Or.inr ⟨h1, d', w', List.mem_cons_of_mem _ hm', hd', ht'⟩
        · intro f t hsome
          refine heff.edgeKeysPres f t ?_
          show (alookup (aupdate g.edges (locId name, locId d) w) (f, t)).isSome = true
          rw [alookup_aupdate]
          by_cases he : (locId name, locId d) = (f, t)
          · rw [if_pos he]
            rfl
          · rw [if_neg he]
            exact hsome

/-! ### The pointwise specification of `removeRoutesLoop` -/

theorem removeRoutesLoop_spec (name : String) :
    ∀ (targets : List String) (g : WGraph) (r : Redis),
      r.fails = [] →
      ∃ g' r', removeRoutesLoop name targets g r = (.ok (), g', r') ∧
        RemoveEff name targets g r g' r'
  | [], g, r, _ =>
    ⟨g, r, rfl,
     { locSetEq := rfl
       failsEq := rfl
       hashOfOther := fun _ _ => rfl
       hashOfName := rfl
       hashNodup := fun h => h
       hashMem := fun _ h hm => Or.inl hm
       nodesEq := rfl
       edgeWOther := fun _ _ _ => rfl
       edgeWNomatch := fun _ _ => rfl
       edgeWMatch := by simp
       edgeWNone := fun _ _ h => h
       edgeMemSub := fun _ he => he
       edgeNodup := fun h => h }⟩
  | d :: rest, g, r, hf => by
    by_cases hd : name = d
    · obtain ⟨g', r', happ, heff⟩ := removeRoutesLoop_spec name rest g r hf
      refine ⟨g', r', ?_, ?_⟩
      · rw [removeRoutesLoop, if_neg (fun h => h hd)]
        exact happ
      · refine
          { locSetEq := heff.locSetEq
            failsEq := heff.failsEq
            hashOfOther := heff.hashOfOther
            hashOfName := by rw [heff.hashOfName, rfold, if_neg (fun h => h hd)]
            hashNodup := heff.hashNodup
            hashMem := by
              intro hnodup h hm
              rcases heff.hashMem hnodup h hm with h1 | ⟨h1, h2⟩
              · exact Or.inl h1
              · exact Or.inr ⟨h1, by rw [h2, rfold, if_neg (fun h => h hd)]⟩
            nodesEq := heff.nodesEq
            edgeWOther := heff.edgeWOther
            edgeWNomatch := fun t hc => heff.edgeWNomatch t
              (fun p hp => hc p (List.mem_cons_of_mem _ hp))
            edgeWMatch := ?_
            edgeWNone := heff.edgeWNone
            edgeMemSub := heff.edgeMemSub
            edgeNodup := heff.edgeNodup }
        intro d' hm hd'
        rcases List.mem_cons.mp hm with heq | hm'
        · cases heq
          exact absurd hd.symm hd'
        · exact heff.edgeWMatch d' hm' hd'
    · have hdn : d ≠ name := fun e => hd e.symm
      have hr1 : r.hdel name d = (false, { r with hashes := aupdate r.hashes name (aremove (r.hashOf name) d) }) :=
        hdel_ok hf name d
      set r₁ : Redis := { r with hashes := aupdate r.hashes name (aremove (r.hashOf name) d) } with hr1def
      have hf1 : r₁.fails = [] := hf
      set g₁ : WGraph :=
        { nodes := g.nodes, edges := aremove g.edges (locId name, locId d) }
        with hg1def
      have hstep : removeRoutesLoop name (d :: rest) g r =
          removeRoutesLoop name rest g₁ r₁ := by
        rw [removeRoutesLoop, if_pos hd, hr1]
        rfl
      obtain ⟨g', r', happ, heff⟩ := removeRoutesLoop_spec name rest g₁ r₁ hf1
      refine ⟨g', r', by rw [hstep]; exact happ, ?_⟩
      refine
        { locSetEq := heff.locSetEq
          failsEq := heff.failsEq
          hashOfOther := ?_
          hashOfName := ?_
          hashNodup := fun h => heff.hashNodup (aupdate_nodup _ _ _ h)
          hashMem := ?_
          nodesEq := heff.nodesEq
          edgeWOther := ?_
          edgeWNomatch := ?_
          edgeWMatch := ?_
          edgeWNone := ?_
          edgeMemSub := fun e he => mem_aremove (heff.edgeMemSub e he)
          edgeNodup := ?_ }
      · intro key hkey
        rw [heff.hashOfOther key hkey,
          show r₁.hashOf key = _ from hashOf_aupdate r name _ key,
          if_neg (fun e => hkey e.symm)]
      · rw [heff.hashOfName,
          show r₁.hashOf name = _ from hashOf_aupdate r name _ name, if_pos rfl,
          rfold, if_pos hd]
      · intro hnodup h hm
        have hnd1 : (r₁.hashes.map Prod.fst).Nodup := aupdate_nodup _ _ _ hnodup
        have hfoldeq : rfold name (r₁.hashOf name) rest =
            rfold name (r.hashOf name) (d :: rest) := by
          rw [show r₁.hashOf name = _ from hashOf_aupdate r name _ name, if_pos rfl,
            rfold, if_pos hd]
        rcases heff.hashMem hnd1 h hm with h1 | ⟨h1, h2⟩
        · rcases mem_aupdate h1 with h2 | h2
          · exact Or.inl h2
          · refine Or.inr ⟨by rw [h2], ?_⟩
            have hl : alookup r'.hashes name = some h.2 := by
              have := mem_alookup (heff.hashNodup hnd1) (show (name, h.2) ∈ r'.hashes by
                rw [show (name, h.2) = h from by rw [h2]] at *
                · exact hm)
              exact this
            have : r'.hashOf name = h.2 := by
              show (alookup r'.hashes name).getD [] = _
              rw [hl]
              rfl
            rw [← this, heff.hashOfName, hfoldeq]
        · exact Or.inr ⟨h1, by rw [h2, hfoldeq]⟩
      · intro f t hft
        rw [heff.edgeWOther f t hft]
        show alookup (aremove g.edges (locId name, locId d)) (f, t) = _
        rw [alookup_aremove, if_neg (fun e => hft (congrArg Prod.fst e).symm)]
        rfl
      · intro t hc
        have hldt : locId d ≠ t := by
          rcases hc d (List.mem_cons_self _ _) with h | h
          · exact absurd h hdn
          · exact h
        rw [heff.edgeWNomatch t (fun p hp => hc p (List.mem_cons_of_mem _ hp))]
        show alookup (aremove g.edges (locId name, locId d)) (locId name, t) = _
        rw [alookup_aremove, if_neg (fun e => hldt (congrArg Prod.snd e))]
        rfl
      · intro d' hm hd'
        rcases List.mem_cons.mp hm with heq | hm'
        · cases heq
          refine heff.edgeWNone _ _ ?_
          show alookup (aremove g.edges (locId name, locId d)) (locId name, locId d) = none
          rw [alookup_aremove, if_pos rfl]
        · exact heff.edgeWMatch d' hm' hd'
      · intro f t hnone
        refine heff.edgeWNone f t ?_
        show alookup (aremove g.edges (locId name, locId d)) (f, t) = none
        rw [alookup_aremove]
        by_cases he : (locId name, locId d) = (f, t)
        · rw [if_pos he]
        · rw [if_neg he]
          exact hnone
      · intro h
        refine heff.edgeNodup ?_
        show ((aremove g.edges (locId name, locId d)).map Prod.fst).Nodup
        exact h.sublist (List.Sublist.map _ (aremove_sublist _ _))

/-! ### Lookup through the hash folds -/

theorem alookup_hfold_nmem (name : String) :
    ∀ (fields : List (String × ℚ)) (base : List (String × RVal)) (d : String),
      (d ∉ fields.map Prod.fst ∨ d = name) →
      alookup (hfold name base fields) d = alookup base d
  | [], _, _, _ => rfl
  | (d', w') :: rest, base, d, hc => by
    have hc' : d ∉ rest.map Prod.fst ∨ d = name := by
      rcases hc with hc | hc
      · exact Or.inl (fun hm => hc (by rw [List.map_cons]; exact List.mem_cons_of_mem _ hm))
      · exact Or.inr hc
    by_cases hn : name = d'
    · rw [hfold, if_neg (fun h => h hn)]
      exact alookup_hfold_nmem name rest base d hc'
    · rw [hfold, if_pos hn]
      have hdd' : d ≠ d' := by
        rcases hc with hc | hc
        · intro e
          exact hc (by rw [e, List.map_cons]; exact List.mem_cons_self _ _)
        · intro e
          exact hn (by rw [← hc, ← e])
      rw [alookup_hfold_nmem name rest _ d hc', alookup_aupdate,
        if_neg (fun e => hdd' e.symm)]

theorem alookup_hfold_mem (name : String) :
    ∀ (fields : List (String × ℚ)) (base : List (String × RVal)) {d : String}
      {w : ℚ}, (d, w) ∈ fields → d ≠ name → (fields.map Prod.fst).Nodup →
      alookup (hfold name base fields) d = some (RVal.num w)
  | [], _, _, _, h, _, _ => by simp at h
  | (d', w') :: rest, base, d, w, hm, hd, hnd => by
    rw [List.map_cons, List.nodup_cons] at hnd
    rcases List.mem_cons.mp hm with heq | hm'
    · cases heq
      rw [hfold, if_pos (fun e => hd e.symm),
        alookup_hfold_nmem name rest _ d' (Or.inl hnd.1), alookup_aupdate, if_pos rfl]
    · by_cases hn : name = d'
      · rw [hfold, if_neg (fun h => h hn)]
        exact alookup_hfold_mem name rest base hm' hd hnd.2
      · rw [hfold, if_pos hn]
        exact alookup_hfold_mem name rest _ hm' hd hnd.2

theorem mem_hfold (name : String) :
    ∀ (fields : List (String × ℚ)) (base : List (String × RVal)) {p : String × RVal},
      p ∈ hfold name base fields →
      p ∈ base ∨ ∃ w, p.2 = RVal.num w ∧ (p.1, w) ∈ fields ∧ p.1 ≠ name
  | [], _, _, h => Or.inl h
  | (d', w') :: rest, base, p, h => by
    by_cases hn : name = d'
    · rw [hfold, if_neg (fun hh => hh hn)] at h
      rcases mem_hfold name rest base h with h | ⟨w, h1, h2, h3⟩
      · exact Or.inl h
      · exact Or.inr ⟨w, h1, List.mem_cons_of_mem _ h2, h3⟩
    · rw [hfold, if_pos hn] at h
      rcases mem_hfold name rest _ h with h | ⟨w, h1, h2, h3⟩
      · rcases mem_aupdate h with h | h
        · exact Or.inl h
        · refine Or.inr ⟨w', by rw [h], by rw [h]; exact List.mem_cons_self _ _, ?_⟩
          rw [h]
          exact fun e => hn e.symm
      · exact Or.inr ⟨w, h1, List.mem_cons_of_mem _ h2, h3⟩

theorem hfold_nodup (name : String) :
    ∀ (fields : List (String × ℚ)) (base : List (String × RVal)),
      (base.map Prod.fst).Nodup → ((hfold name base fields).map Prod.fst).Nodup
  | [], _, h => h
  | (d', w') :: rest, base, h => by
    by_cases hn : name = d'
    · rw [hfold, if_neg (fun hh => hh hn)]
      exact hfold_nodup name rest base h
    · rw [hfold, if_pos hn]
      exact hfold_nodup name rest _ (aupdate_nodup _ _ _ h)

theorem alookup_rfold_nmem (name : String) :
    ∀ (targets : List String) (base : List (String × RVal)) (d : String),
      (d ∉ targets ∨ d = name) →
      alookup (rfold name base targets) d = alookup base d
  | [], _, _, _ => rfl
  | d' :: rest, base, d, hc => by
    have hc' : d ∉ rest ∨ d = name := by
      rcases hc with hc | hc
      · exact Or.inl (fun hm => hc (List.mem_cons_of_mem _ hm))
      · exact Or.inr hc
    by_cases hn : name = d'
    · rw [rfold, if_neg (fun h => h hn)]
      exact alookup_rfold_nmem name rest base d hc'
    · rw [rfold, if_pos hn]
      have hdd' : d ≠ d' := by
        rcases hc with hc | hc
        · intro e
          exact hc (e ▸ List.mem_cons_self _ _)
        · intro e
          exact hn (by rw [← hc, ← e])
      rw [alookup_rfold_nmem name rest _ d hc', alookup_aremove,
        if_neg (fun e => hdd' e.symm)]

theorem alookup_rfold_mem (name : String) :
    ∀ (targets : List String) (base : List (String × RVal)) {d : String},
      d ∈ targets → d ≠ name → alookup (rfold name base targets) d = none
  | [], _, _, h, _ => by simp at h
  | d' :: rest, base, d, hm, hd => by
    by_cases hn : name = d'
    · rw [rfold, if_neg (fun h => h hn)]
      rcases List.mem_cons.mp hm with heq | hm'
      · exact absurd (heq.trans hn.symm) hd
      · exact alookup_rfold_mem name rest base hm' hd
    · rw [rfold, if_pos hn]
      rcases List.mem_cons.mp hm with heq | hm'
      · subst heq
        by_cases hdr : d ∈ rest
        · exact alookup_rfold_mem name rest _ hdr hd
        · rw [alookup_rfold_nmem name rest _ d (Or.inl hdr), alookup_aremove,
            if_pos rfl]
      · exact alookup_rfold_mem name rest _ hm' hd

theorem mem_rfold (name : String) :
    ∀ (targets : List String) (base : List (String × RVal)) {p : String × RVal},
      p ∈ rfold name base targets → p ∈ base
  | [], _, _, h => h
  | d' :: rest, base, p, h => by
    by_cases hn : name = d'
    · rw [rfold, if_neg (fun hh => hh hn)] at h
      exact mem_rfold name rest base h
    · rw [rfold, if_pos hn] at h
      exact mem_aremove (mem_rfold name rest _ h)

theorem rfold_nodup (name : String) :
    ∀ (targets : List String) (base : List (String × RVal)),
      (base.map Prod.fst).Nodup → ((rfold name base targets).map Prod.fst).Nodup
  | [], _, h => h
  | d' :: rest, base, h => by
    by_cases hn : name = d'
    · rw [rfold, if_neg (fun hh => hh hn)]
      exact rfold_nodup name rest base h
    · rw [rfold, if_pos hn]
      exact rfold_nodup name rest _ (h.sublist (List.Sublist.map _ (aremove_sublist _ _)))

/-! ### Invariant preservation -/

theorem hashOf_sub {r : Redis} {key : String} {p : String × RVal}
    (h : p ∈ r.hashOf key) : ∃ l, (key, l) ∈ r.hashes ∧ p ∈ l := by
  unfold Redis.hashOf at h
  cases hl : alookup r.hashes key
  · rw [hl] at h
    simp at h
  · rw [hl] at h
    exact ⟨_, alookup_mem hl, h⟩

theorem Inv.hashOfFieldsNodup {U E : List String} {s : RouteStore}
    (inv : Inv U E s) (key : String) :
    ((s.redis.hashOf key).map Prod.fst).Nodup := by
  unfold Redis.hashOf
  cases hl : alookup s.redis.hashes key
  · exact List.nodup_nil
  · exact inv.hashFieldsNodup _ (alookup_mem hl)

/-- In an invariant store, the record stored at the ID of a used name is
either absent or that very name (`locId` is injective on `U` and every
stored name is in `U`). -/
theorem Inv.nodeAt_stored {U E : List String} {s : RouteStore}
    (inv : Inv U E s) (hU : IdInj U) {n : String} (hn : n ∈ U) :
    s.graph.nodeAt (locId n) = none ∨ s.graph.nodeAt (locId n) = some n := by
  cases hacc : s.graph.nodeAt (locId n) with
  | none => exact Or.inl rfl
  | some x =>
    refine Or.inr ?_
    have hxU : x ∈ U := inv.nodeSub x (mem_of_nodeAt hacc)
    have hkx : locId n = locId x := inv.gwf.nodeId (locId n, x) (alookup_mem hacc)
    rw [hU n hn x hxU hkx]

theorem hashNum_eq_of_alookup {r r' : Redis} {name dst : String}
    (h : alookup (r'.hashOf name) dst = alookup (r.hashOf name) dst) :
    r'.hashNum name dst = r.hashNum name dst := by
  unfold Redis.hashNum
  rw [h]

theorem isSome_of_not_isNone {α : Type} {o : Option α}
    (h : ¬o.isNone = true) : o.isSome = true := by
  cases o
  · exact absurd rfl h
  · rfl

/-- An `ApplyEff` starting from an invariant-satisfying store lands in an
invariant-satisfying store. -/
theorem inv_applyEff {U E : List String} {s : RouteStore} {name : String}
    {rts : List (String × ℚ)} {g' : WGraph} {r' : Redis}
    (inv : Inv U E s) (hU : IdInj U) (hname : name ∈ U)
    (hrts : ∀ p ∈ rts, p.1 ∈ U) (hnd : (rts.map Prod.fst).Nodup)
    (hexs : (s.graph.nodeAt (locId name)).isSome = true)
    (heff : ApplyEff name rts s.graph s.redis g' r') :
    Inv U E { s with graph := g', redis := r' } := by
  obtain ⟨ext, hgn, hextnd, hcond⟩ := heff.nodesApp
  have hnodesub : ∀ p ∈ s.graph.nodes, p ∈ g'.nodes := by
    intro p hp
    rw [hgn]
    exact List.mem_append_left _ hp
  refine
    { lockedEq := inv.lockedEq
      failsEq := heff.failsEq.trans inv.failsEq
      gwf := ?_
      nodeSub := ?_
      locSetEq := heff.locSetEq.trans inv.locSetEq
      locSetNodup := heff.locSetEq ▸ inv.locSetNodup
      locSub := ?_
      hashKeySub := ?_
      hashFieldSub := ?_
      hashGood := ?_
      hashKeysNodup := heff.hashNodup inv.hashKeysNodup
      hashFieldsNodup := ?_
      mirror := ?_ }
  · refine
      { nodeId := ?_
        nodeKeys := ?_
        edgeKeys := heff.edgeNodup inv.gwf.edgeKeys
        edgeEnds := ?_ }
    · intro p hp
      rw [hgn] at hp
      rcases List.mem_append.mp hp with hp | hp
      · exact inv.gwf.nodeId p hp
      · exact (hcond p hp).2.2.1
    · rw [hgn, List.map_append]
      refine List.Nodup.append inv.gwf.nodeKeys hextnd ?_
      intro k hk hk'
      obtain ⟨p, hp, hpk⟩ := List.mem_map.mp hk'
      have := (hcond p hp).2.2.2
      rw [hpk] at this
      exact (alookup_eq_none _ _).mp this hk
    · intro e he
      rcases heff.edgeMem e he with he' | ⟨hsrc, d, w', hdw, hdn, htgt⟩
      · obtain ⟨h1, h2⟩ := inv.gwf.edgeEnds e he'
        constructor
        · rw [heff.nodeAtPres _ h1]
          exact h1
        · rw [heff.nodeAtPres _ h2]
          exact h2
      · constructor
        · rw [hsrc, heff.nodeAtPres _ hexs]
          exact hexs
        · rw [htgt]
          exact heff.nodesNew (d, w') hdw hdn
  · intro n hn
    obtain ⟨p, hp, hpn⟩ := List.mem_map.mp hn
    rw [hgn] at hp
    rcases List.mem_append.mp hp with hp | hp
    · exact inv.nodeSub n (hpn ▸ List.mem_map.mpr ⟨p, hp, rfl⟩)
    · obtain ⟨w', hw'⟩ := (hcond p hp).1
      exact hpn ▸ hrts (p.2, w') hw'
  · intro n hn
    obtain ⟨p, hp, hpn⟩ := List.mem_map.mp (inv.locSub n hn)
    exact List.mem_map.mpr ⟨p, hnodesub p hp, hpn⟩
  · intro hh hmem
    rcases heff.hashMem inv.hashKeysNodup hh hmem with h1 | ⟨h1, _⟩
    · exact inv.hashKeySub hh h1
    · exact h1 ▸ hname
  · intro hh hmem f hf
    rcases heff.hashMem inv.hashKeysNodup hh hmem with h1 | ⟨h1, h2⟩
    · exact inv.hashFieldSub hh h1 f hf
    · rw [h2] at hf
      rcases mem_hfold name rts _ hf with hf' | ⟨w, _, h3, _⟩
      · obtain ⟨l, hl, hfl⟩ := hashOf_sub hf'
        exact inv.hashFieldSub _ hl f hfl
      · exact hrts (f.1, w) h3
  · intro hh hmem f hf
    rcases heff.hashMem inv.hashKeysNodup hh hmem with h1 | ⟨h1, h2⟩
    · exact inv.hashGood hh h1 f hf
    · rw [h2] at hf
      rw [h1]
      rcases mem_hfold name rts _ hf with hf' | ⟨w, h3, _, h4⟩
      · obtain ⟨l, hl, hfl⟩ := hashOf_sub hf'
        exact ⟨(inv.hashGood _ hl f hfl).1, (inv.hashGood _ hl f hfl).2⟩
      · exact ⟨⟨w, h3⟩, h4⟩
  · intro hh hmem
    rcases heff.hashMem inv.hashKeysNodup hh hmem with h1 | ⟨_, h2⟩
    · exact inv.hashFieldsNodup hh h1
    · rw [h2]
      exact hfold_nodup name rts _ (inv.hashOfFieldsNodup name)
  · intro name' hn' dst hd'
    show r'.hashNum name' dst = g'.edgeW (locId name') (locId dst)
    by_cases hne : name' = name
    · subst hne
      by_cases hds : dst = name'
      · subst hds
        have hh : alookup (r'.hashOf dst) dst =
            alookup (s.redis.hashOf dst) dst := by
          rw [heff.hashOfName]
          exact alookup_hfold_nmem dst rts _ dst (Or.inr rfl)
        rw [hashNum_eq_of_alookup hh, heff.edgeWNomatch (locId dst) ?_]
        · exact inv.mirror dst hn' dst hd'
        · intro p hp
          by_cases hpn : p.1 = dst
          · exact Or.inl hpn
          · exact Or.inr (fun e => hpn (hU p.1 (hrts p hp) dst hd' e))
      · by_cases hmem : dst ∈ rts.map Prod.fst
        · obtain ⟨p, hp, hpd⟩ := List.mem_map.mp hmem
          have hpdst : (dst, p.2) ∈ rts := by
            rw [← hpd]
            exact hp
          have hh : r'.hashNum name' dst = some p.2 := by
            unfold Redis.hashNum
            rw [heff.hashOfName, alookup_hfold_mem name' rts _ hpdst hds hnd]
          rw [hh, heff.edgeWMatch dst p.2 hpdst hds]
        · have hh : alookup (r'.hashOf name') dst =
              alookup (s.redis.hashOf name') dst := by
            rw [heff.hashOfName]
            exact alookup_hfold_nmem name' rts _ dst (Or.inl hmem)
          rw [hashNum_eq_of_alookup hh, heff.edgeWNomatch (locId dst) ?_]
          · exact inv.mirror name' hn' dst hd'
          · intro p hp
            by_cases hpn : p.1 = name'
            · exact Or.inl hpn
            · refine Or.inr (fun e => hmem ?_)
              rw [← hU p.1 (hrts p hp) dst hd' e]
              exact List.mem_map.mpr ⟨p, hp, rfl⟩
    · have hid' : locId name' ≠ locId name := fun e => hne (hU name' hn' name hname e)
      have hh : alookup (r'.hashOf name') dst =
          alookup (s.redis.hashOf name') dst := by
        rw [heff.hashOfOther name' hne]
      rw [hashNum_eq_of_alookup hh, heff.edgeWOther _ _ hid']
      exact inv.mirror name' hn' dst hd'

/-- Successful `AddRoutes` preserves the invariant. -/
theorem addRoutes_pres {U E : List String} {s s' : RouteStore} {name : String}
    {rts : List (String × ℚ)} (inv : Inv U E s) (hU : IdInj U)
    (hname : name ∈ U) (hrts : ∀ p ∈ rts, p.1 ∈ U)
    (hnd : (rts.map Prod.fst).Nodup)
    (h : s.addRoutes name rts = (.ok (), s')) : Inv U E s' := by
  unfold RouteStore.addRoutes at h
  rw [inv.lockedEq, if_neg (fun hc => Bool.noConfusion hc)] at h
  by_cases hex : (s.graph.nodeAt (locId name)).isNone = true
  · rw [if_pos hex] at h
    simp at h
  · rw [if_neg hex] at h
    have hexs := isSome_of_not_isNone (o := s.graph.nodeAt (locId name)) (by simpa using hex)
    have hstored : s.graph.nodeAt (locId name) = some name := by
      rcases inv.nodeAt_stored hU hname with hc | hc
      · rw [hc] at hexs
        exact Bool.noConfusion hexs
      · exact hc
    obtain ⟨g', r', happ, heff⟩ := applyRoutes_spec name rts s.graph s.redis
      inv.failsEq hstored
      (fun p hp _ => inv.nodeAt_stored hU (hrts p hp))
      (fun p hp hpn e => hpn (hU p.1 (hrts p hp) name hname e))
      hnd
      (fun p hp q hq e => hU p.1 (hrts p hp) q.1 (hrts q hq) e)
    rw [happ] at h
    have hs' : s' = { locked := false, graph := g', redis := r' } :=
      (congrArg Prod.snd h).symm
    subst hs'
    have hres := inv_applyEff inv hU hname hrts hnd hexs heff
    rwa [show ({ s with graph := g', redis := r' } : RouteStore) =
      { locked := false, graph := g', redis := r' } from by rw [inv.lockedEq]] at hres

/-- A `RemoveEff` starting from an invariant-satisfying store lands in an
invariant-satisfying store. -/
theorem inv_removeEff {U E : List String} {s : RouteStore} {name : String}
    {targets : List String} {g' : WGraph} {r' : Redis}
    (inv : Inv U E s) (hU : IdInj U) (hname : name ∈ U)
    (htg : ∀ d ∈ targets, d ∈ U)
    (heff : RemoveEff name targets s.graph s.redis g' r') :
    Inv U E { s with graph := g', redis := r' } := by
  have hnodeAt : ∀ i, g'.nodeAt i = s.graph.nodeAt i := by
    intro i
    show alookup g'.nodes i = _
    rw [heff.nodesEq]
    rfl
  have hnames : g'.nodeNames = s.graph.nodeNames := by
    unfold WGraph.nodeNames
    rw [heff.nodesEq]
  refine
    { lockedEq := inv.lockedEq
      failsEq := heff.failsEq.trans inv.failsEq
      gwf := ?_
      nodeSub := by rw [hnames]; exact inv.nodeSub
      locSetEq := heff.locSetEq.trans inv.locSetEq
      locSetNodup := heff.locSetEq ▸ inv.locSetNodup
      locSub := by rw [hnames]; exact inv.locSub
      hashKeySub := ?_
      hashFieldSub := ?_
      hashGood := ?_
      hashKeysNodup := heff.hashNodup inv.hashKeysNodup
      hashFieldsNodup := ?_
      mirror := ?_ }
  · refine
      { nodeId := by rw [heff.nodesEq]; exact inv.gwf.nodeId
        nodeKeys := by rw [heff.nodesEq]; exact inv.gwf.nodeKeys
        edgeKeys := heff.edgeNodup inv.gwf.edgeKeys
        edgeEnds := ?_ }
    intro e he
    obtain ⟨h1, h2⟩ := inv.gwf.edgeEnds e (heff.edgeMemSub e he)
    rw [hnodeAt, hnodeAt]
    exact ⟨h1, h2⟩
  · intro hh hmem
    rcases heff.hashMem inv.hashKeysNodup hh hmem with h1 | ⟨h1, _⟩
    · exact inv.hashKeySub hh h1
    · exact h1 ▸ hname
  · intro hh hmem f hf
    rcases heff.hashMem inv.hashKeysNodup hh hmem with h1 | ⟨h1, h2⟩
    · exact inv.hashFieldSub hh h1 f hf
    · rw [h2] at hf
      obtain ⟨l, hl, hfl⟩ := hashOf_sub (mem_rfold name targets _ hf)
      exact inv.hashFieldSub _ hl f hfl
  · intro hh hmem f hf
    rcases heff.hashMem inv.hashKeysNodup hh hmem with h1 | ⟨h1, h2⟩
    · exact inv.hashGood hh h1 f hf
    · rw [h2] at hf
      rw [h1]
      obtain ⟨l, hl, hfl⟩ := hashOf_sub (mem_rfold name targets _ hf)
      exact ⟨(inv.hashGood _ hl f hfl).1, (inv.hashGood _ hl f hfl).2⟩
  · intro hh hmem
    rcases heff.hashMem inv.hashKeysNodup hh hmem with h1 | ⟨_, h2⟩
    · exact inv.hashFieldsNodup hh h1
    · rw [h2]
      exact rfold_nodup name targets _ (inv.hashOfFieldsNodup name)
  · intro name' hn' dst hd'
    show r'.hashNum name' dst = g'.edgeW (locId name') (locId dst)
    by_cases hne : name' = name
    · subst hne
      by_cases hds : dst = name'
      · subst hds
        have hh : alookup (r'.hashOf dst) dst =
            alookup (s.redis.hashOf dst) dst := by
          rw [heff.hashOfName]
          exact alookup_rfold_nmem dst targets _ dst (Or.inr rfl)
        rw [hashNum_eq_of_alookup hh, heff.edgeWNomatch (locId dst) ?_]
        · exact inv.mirror dst hn' dst hd'
        · intro d hd
          by_cases hdn : d = dst
          · exact Or.inl hdn
          · exact Or.inr (fun e => hdn (hU d (htg d hd) dst hd' e))
      · by_cases hmem : dst ∈ targets
        · have hh : r'.hashNum name' dst = none := by
            unfold Redis.hashNum
            rw [heff.hashOfName, alookup_rfold_mem name' targets _ hmem hds]
          rw [hh, heff.edgeWMatch dst hmem hds]
        · have hh : alookup (r'.hashOf name') dst =
              alookup (s.redis.hashOf name') dst := by
            rw [heff.hashOfName]
            exact alookup_rfold_nmem name' targets _ dst (Or.inl hmem)
          rw [hashNum_eq_of_alookup hh, heff.edgeWNomatch (locId dst) ?_]
          · exact inv.mirror name' hn' dst hd'
          · intro d hd
            by_cases hdn : d = name'
            · exact Or.inl hdn
            · refine Or.inr (fun e => hmem ?_)
              rw [← hU d (htg d hd) dst hd' e]
              exact hd
    · have hid' : locId name' ≠ locId name := fun e => hne (hU name' hn' name hname e)
      have hh : alookup (r'.hashOf name') dst =
          alookup (s.redis.hashOf name') dst := by
        rw [heff.hashOfOther name' hne]
      rw [hashNum_eq_of_alookup hh, heff.edgeWOther _ _ hid']
      exact inv.mirror name' hn' dst hd'

/-- Successful `RemoveRoutes` preserves the invariant. -/
theorem removeRoutes_pres {U E : List String} {s s' : RouteStore} {name : String}
    {targets : List String} (inv : Inv U E s) (hU : IdInj U)
    (hname : name ∈ U) (htg : ∀ d ∈ targets, d ∈ U)
    (h : s.removeRoutes name targets = (.ok (), s')) : Inv U E s' := by
  unfold RouteStore.removeRoutes at h
  rw [inv.lockedEq, if_neg (fun hc => Bool.noConfusion hc)] at h
  by_cases hex : (s.graph.nodeAt (locId name)).isNone = true
  · rw [if_pos hex] at h
    simp at h
  · rw [if_neg hex] at h
    obtain ⟨g', r', happ, heff⟩ := removeRoutesLoop_spec name targets s.graph
      s.redis inv.failsEq
    rw [happ] at h
    have hs' : s' = { locked := false, graph := g', redis := r' } :=
      (congrArg Prod.snd h).symm
    subst hs'
    have hres := inv_removeEff inv hU hname htg heff
    rwa [show ({ s with graph := g', redis := r' } : RouteStore) =
      { locked := false, graph := g', redis := r' } from by rw [inv.lockedEq]] at hres

/-- Successful `AddLocation` preserves the invariant and appends the new
name to the explicit-location list. -/
theorem addLocation_pres {U E : List String} {s s' : RouteStore} {name : String}
    {rts : List (String × ℚ)} (inv : Inv U E s) (hU : IdInj U)
    (hname : name ∈ U) (hrts : ∀ p ∈ rts, p.1 ∈ U)
    (hnd : (rts.map Prod.fst).Nodup)
    (h : s.addLocation name rts = (.ok (), s')) : Inv U (E ++ [name]) s' := by
  unfold RouteStore.addLocation at h
  rw [inv.lockedEq, if_neg (fun hc => Bool.noConfusion hc)] at h
  by_cases hex : (s.graph.nodeAt (locId name)).isSome = true
  · rw [if_pos hex] at h
    simp at h
  · rw [if_neg hex] at h
    have hnone : s.graph.nodeAt (locId name) = none := by
      cases hc : s.graph.nodeAt (locId name)
      · rfl
      · rw [hc] at hex
        exact absurd rfl hex
    have hnn : name ∉ s.graph.nodeNames := by
      intro hmem
      rw [nodeAt_of_mem inv.gwf hmem] at hnone
      cases hnone
    have hnE : name ∉ s.redis.locSet := by
      rw [inv.locSetEq]
      intro hmem
      exact hnn (inv.locSub name hmem)
    rw [sadd_ok inv.failsEq name, if_neg hnE] at h
    set r₀ : Redis := { s.redis with locSet := s.redis.locSet ++ [name] } with hr0
    set g₀ : WGraph := s.graph.addNode name with hg0
    have hst₀ : g₀.nodeAt (locId name) = some name := by
      show alookup (s.graph.nodes ++ [(locId name, name)]) (locId name) = some name
      rw [alookup_append_right _ hnone, alookup, if_pos rfl]
    have hexs₀ : (g₀.nodeAt (locId name)).isSome = true := by
      rw [hst₀]
      rfl
    have htgt₀ : ∀ p ∈ rts, p.1 ≠ name →
        g₀.nodeAt (locId p.1) = none ∨ g₀.nodeAt (locId p.1) = some p.1 := by
      intro p hp hpn
      rcases inv.nodeAt_stored hU (hrts p hp) with hc | hc
      · refine Or.inl ?_
        show alookup (s.graph.nodes ++ [(locId name, name)]) (locId p.1) = none
        rw [alookup_append_right _ hc, alookup,
          if_neg (fun e => hpn (hU p.1 (hrts p hp) name hname e.symm))]
        rfl
      · refine Or.inr ?_
        show alookup (s.graph.nodes ++ [(locId name, name)]) (locId p.1) = some p.1
        exact alookup_append_left hc
    obtain ⟨g', r', happ, heff⟩ := applyRoutes_spec name rts g₀ r₀
      inv.failsEq hst₀
      htgt₀
      (fun p hp hpn e => hpn (hU p.1 (hrts p hp) name hname e))
      hnd
      (fun p hp q hq e => hU p.1 (hrts p hp) q.1 (hrts q hq) e)
    change (match applyRoutes name rts g₀ r₀ with
      | (o, g2, r2) =>
        (o, ({ locked := false, graph := g2, redis := r2 } : RouteStore))) =
      (Outcome.ok (), s') at h
    rw [happ] at h
    have hs' : s' = { locked := false, graph := g', redis := r' } :=
      (congrArg Prod.snd h).symm
    subst hs'
    -- the invariant after the AddNode + SADD prologue
    have inv₁ : Inv U (E ++ [name]) { locked := false, graph := g₀, redis := r₀ } := by
      refine
        { lockedEq := rfl
          failsEq := inv.failsEq
          gwf := ?_
          nodeSub := ?_
          locSetEq := by
            show s.redis.locSet ++ [name] = E ++ [name]
            rw [inv.locSetEq]
          locSetNodup := by
            show (s.redis.locSet ++ [name]).Nodup
            refine List.Nodup.append inv.locSetNodup (List.nodup_singleton _) ?_
            intro x hx hxs
            rw [List.mem_singleton] at hxs
            exact hnE (hxs ▸ hx)
          locSub := ?_
          hashKeySub := inv.hashKeySub
          hashFieldSub := inv.hashFieldSub
          hashGood := inv.hashGood
          hashKeysNodup := inv.hashKeysNodup
          hashFieldsNodup := inv.hashFieldsNodup
          mirror := inv.mirror }
      · refine
          { nodeId := ?_
            nodeKeys := ?_
            edgeKeys := inv.gwf.edgeKeys
            edgeEnds := ?_ }
        · intro p hp
          rcases List.mem_append.mp hp with hp | hp
          · exact inv.gwf.nodeId p hp
          · rw [List.mem_singleton.mp hp]
        · show ((s.graph.nodes ++ [(locId name, name)]).map Prod.fst).Nodup
          rw [List.map_append]
          refine List.Nodup.append inv.gwf.nodeKeys (List.nodup_singleton _) ?_
          intro k hk hk'
          rw [show List.map Prod.fst [(locId name, name)] = [locId name] from rfl,
            List.mem_singleton] at hk'
          subst hk'
          exact (alookup_eq_none _ _).mp hnone hk
        · intro e he
          obtain ⟨h1, h2⟩ := inv.gwf.edgeEnds e he
          constructor
          · show (alookup (s.graph.nodes ++ [(locId name, name)]) e.1.1).isSome = true
            rw [nodeAt_append h1]
            exact h1
          · show (alookup (s.graph.nodes ++ [(locId name, name)]) e.1.2).isSome = true
            rw [nodeAt_append h2]
            exact h2
      · intro n hn
        show n ∈ U
        unfold WGraph.nodeNames at hn
        rw [show g₀.nodes = s.graph.nodes ++ [(locId name, name)] from rfl,
          List.map_append] at hn
        rcases List.mem_append.mp hn with hn | hn
        · exact inv.nodeSub n hn
        · rw [show List.map Prod.snd [(locId name, name)] = [name] from rfl,
            List.mem_singleton] at hn
          exact hn ▸ hname
      · intro n hn
        show n ∈ g₀.nodeNames
        unfold WGraph.nodeNames
        rw [show g₀.nodes = s.graph.nodes ++ [(locId name, name)] from rfl,
          List.map_append]
        rcases List.mem_append.mp hn with hn | hn
        · exact List.mem_append_left _ (inv.locSub n hn)
        · rw [List.mem_singleton] at hn
          refine List.mem_append_right _ ?_
          rw [show List.map Prod.snd [(locId name, name)] = [name] from rfl, hn]
          exact List.mem_singleton.mpr rfl
    have hres := inv_applyEff inv₁ hU hname hrts hnd hexs₀ heff
    exact hres

/-- The invariant holds after every all-successful history. -/
theorem execAll_inv {U : List String} (hU : IdInj U) :
    ∀ (H : List Op) (E : List String) (s t : RouteStore),
      Inv U E s → (∀ op ∈ H, op.keysNodup) →
      (∀ op ∈ H, ∀ n ∈ op.names, n ∈ U) →
      execAll s H = some t → Inv U (E ++ explicitNames H) t
  | [], E, s, t, inv, _, _, hex => by
    rw [execAll] at hex
    cases hex
    rw [explicitNames, List.append_nil]
    exact inv
  | op :: rest, E, s, t, inv, hknd, hnames, hex => by
    rw [execAll] at hex
    rcases hr : runOp s op with ⟨o, s₁⟩
    rw [hr] at hex
    cases o with
    | ok a =>
      cases a
      cases op with
      | addLoc n rts =>
        have hop : s.addLocation n rts = (.ok (), s₁) := hr
        have inv₁ := addLocation_pres inv hU
          (hnames _ (List.mem_cons_self _ _) n (List.mem_cons_self _ _))
          (fun p hp => hnames _ (List.mem_cons_self _ _) p.1
            (List.mem_cons_of_mem _ (List.mem_map.mpr ⟨p, hp, rfl⟩)))
          (hknd _ (List.mem_cons_self _ _)) hop
        have hrest := execAll_inv hU rest (E ++ [n]) s₁ t inv₁
          (fun o ho => hknd o (List.mem_cons_of_mem _ ho))
          (fun o ho => hnames o (List.mem_cons_of_mem _ ho)) hex
        rw [List.append_assoc] at hrest
        exact hrest
      | addRts n rts =>
        have hop : s.addRoutes n rts = (.ok (), s₁) := hr
        have inv₁ := addRoutes_pres inv hU
          (hnames _ (List.mem_cons_self _ _) n (List.mem_cons_self _ _))
          (fun p hp => hnames _ (List.mem_cons_self _ _) p.1
            (List.mem_cons_of_mem _ (List.mem_map.mpr ⟨p, hp, rfl⟩)))
          (hknd _ (List.mem_cons_self _ _)) hop
        exact execAll_inv hU rest E s₁ t inv₁
          (fun o ho => hknd o (List.mem_cons_of_mem _ ho))
          (fun o ho => hnames o (List.mem_cons_of_mem _ ho)) hex
      | rmRts n tg =>
        have hop : s.removeRoutes n tg = (.ok (), s₁) := hr
        have inv₁ := removeRoutes_pres inv hU
          (hnames _ (List.mem_cons_self _ _) n (List.mem_cons_self _ _))
          (fun d hd => hnames _ (List.mem_cons_self _ _) d
            (List.mem_cons_of_mem _ hd)) hop
        exact execAll_inv hU rest E s₁ t inv₁
          (fun o ho => hknd o (List.mem_cons_of_mem _ ho))
          (fun o ho => hnames o (List.mem_cons_of_mem _ ho)) hex
      | delLoc n =>
        exfalso
        have hop : s.deleteLocation n = (.ok (), s₁) := hr
        by_cases hc : (s.graph.nodeAt (locId n)).isSome = true
        · have hb := (deleteLocation_blocks s n inv.lockedEq inv.failsEq hc).1
          rw [hop] at hb
          cases hb
        · have hnone : s.graph.nodeAt (locId n) = none := by
            cases hcc : s.graph.nodeAt (locId n)
            · rfl
            · rw [hcc] at hc
              exact absurd rfl hc
          have herr := deleteLocation_err inv.lockedEq hnone
          rw [hop] at herr
          simp at herr
    | err msg => exact Option.noConfusion hex
    | deadlock => exact Option.noConfusion hex
    | crash => exact Option.noConfusion hex

/-- The invariant of the fresh store. -/
theorem inv_s0 (U : List String) : Inv U [] s0 :=
  { lockedEq := rfl
    failsEq := rfl
    gwf := { nodeId := by simp [s0, RouteStore.new]
             nodeKeys := by simp [s0, RouteStore.new]
             edgeKeys := by simp [s0, RouteStore.new]
             edgeEnds := by simp [s0, RouteStore.new] }
    nodeSub := by simp [s0, RouteStore.new, WGraph.nodeNames]
    locSetEq := rfl
    locSetNodup := List.nodup_nil
    locSub := by simp
    hashKeySub := by simp [s0, RouteStore.new, emptyRedis]
    hashFieldSub := by simp [s0, RouteStore.new, emptyRedis]
    hashGood := by simp [s0, RouteStore.new, emptyRedis]
    hashKeysNodup := by simp [s0, RouteStore.new, emptyRedis]
    hashFieldsNodup := by simp [s0, RouteStore.new, emptyRedis]
    mirror := fun _ _ _ _ => rfl }

/-- C1 (amended, proved): along every all-successful history of mutating
operations from a fresh store whose route arguments have duplicate-free
keys and whose names have no `Location.ID` collisions, the persisted
mirror holds in the following form: the backend hash entry `name → dst`
stores exactly the weight of the in-memory edge `name → dst` (for all
names the history uses), and the backend's location-name set is exactly
the list of explicitly created locations — a subset of the in-memory node
set (implicit edge-target nodes are in memory but never in the backend
set, which is why the claim's node-set clause had to be weakened). -/
theorem mirror_invariant_amended (H : List Op) (s : RouteStore)
    (hinj : IdInj (usedNames H)) (hknd : ∀ op ∈ H, op.keysNodup)
    (hex : execAll s0 H = some s) :
    (∀ name ∈ usedNames H, ∀ dst ∈ usedNames H,
      s.redis.hashNum name dst = s.graph.edgeW (locId name) (locId dst)) ∧
    s.redis.locSet = explicitNames H ∧
    (∀ n ∈ s.redis.locSet, n ∈ s.graph.nodeNames) := by
  have hnames : ∀ op ∈ H, ∀ n ∈ op.names, n ∈ usedNames H := by
    intro op hop n hn
    unfold usedNames
    exact List.mem_flatten.mpr ⟨op.names, List.mem_map.mpr ⟨op, hop, rfl⟩, hn⟩
  have hfin := execAll_inv hinj H [] s0 s (inv_s0 (usedNames H)) hknd hnames hex
  rw [List.nil_append] at hfin
  exact ⟨hfin.mirror, hfin.locSetEq,
    fun n hn => hfin.locSub n (by rw [← hfin.locSetEq]; exact hn)⟩

/-! ### Restore: the reading phase -/

theorem parseAll_eq_mapNum :
    ∀ {l : List (String × RVal)}, (∀ f ∈ l, ∃ w, f.2 = RVal.num w) →
      parseAll l = some (mapNum l)
  | [], _ => rfl
  | (k, v) :: rest, h => by
    obtain ⟨w, hw⟩ := h (k, v) (List.mem_cons_self _ _)
    cases hw
    rw [parseAll, mapNum, parseAll_eq_mapNum (fun f hf => h f (List.mem_cons_of_mem _ hf))]
    rfl

theorem mem_mapNum :
    ∀ {l : List (String × RVal)} {d : String} {w : ℚ},
      (d, w) ∈ mapNum l ↔ (d, RVal.num w) ∈ l
  | [], d, w => by simp [mapNum]
  | (k, RVal.num w') :: rest, d, w => by
    rw [mapNum]
    simp only [List.mem_cons, mem_mapNum (l := rest), Prod.mk.injEq, RVal.num.injEq]
  | (k, RVal.bad s') :: rest, d, w => by
    rw [mapNum]
    constructor
    · intro h
      exact List.mem_cons_of_mem _ (mem_mapNum.mp h)
    · intro h
      rcases List.mem_cons.mp h with heq | hm
      · exact absurd (congrArg Prod.snd heq) (by simp)
      · exact mem_mapNum.mpr hm

theorem mapNum_keys_sublist :
    ∀ (l : List (String × RVal)), ((mapNum l).map Prod.fst).Sublist (l.map Prod.fst)
  | [] => List.Sublist.refl _
  | (k, RVal.num w) :: rest => by
    rw [mapNum]
    simp only [List.map_cons]
    exact (mapNum_keys_sublist rest).cons₂ _
  | (k, RVal.bad s) :: rest => by
    rw [mapNum]
    simp only [List.map_cons]
    exact (mapNum_keys_sublist rest).cons _

/-- `HGETALL` on a reliable connection. -/
theorem hgetall_ok {r : Redis} (hf : r.fails = []) (key : String) :
    r.hgetall key = (some (r.hashOf key), r) := by
  obtain ⟨ls, hs, fl⟩ := r
  have h : fl = [] := hf
  subst h
  rfl

/-- `getEdges` on a reliable connection over an all-parsable hash. -/
theorem getEdges_ok {r : Redis} (hf : r.fails = []) (key : String)
    (hgood : ∀ f ∈ r.hashOf key, ∃ w, f.2 = RVal.num w) :
    getEdges r key = (some (mapNum (r.hashOf key)), r) := by
  unfold getEdges
  rw [hgetall_ok hf key]
  show (parseAll (r.hashOf key), r) = _
  rw [parseAll_eq_mapNum hgood]

/-- The reading loop of `Restore`: under the conditions of a backend
produced by an explicit-only history, it succeeds, creates one bare node
per listed location, and returns every hash parsed. -/
theorem restoreRead_spec :
    ∀ (locs : List String) (s : RouteStore),
      s.locked = false → s.redis.fails = [] →
      locs.Nodup →
      (∀ l ∈ locs, ∀ l' ∈ locs, locId l = locId l' → l = l') →
      (∀ l ∈ locs, s.graph.nodeAt (locId l) = none) →
      (∀ l ∈ locs, l ∈ s.redis.locSet) →
      (∀ l ∈ locs, ∀ f ∈ s.redis.hashOf l, ∃ w, f.2 = RVal.num w) →
      restoreRead locs s =
        (some (locs.map (fun l => (l, mapNum (s.redis.hashOf l)))),
         { s with graph := ⟨s.graph.nodes ++ locs.map (fun l => (locId l, l)),
                           s.graph.edges⟩ })
  | [], s, _, _, _, _, _, _, _ => by
    rw [restoreRead]
    simp
  | loc :: rest, s, hl, hf, hnd, hinj, hfresh, hset, hgood => by
    rw [List.nodup_cons] at hnd
    have hnone := hfresh loc (List.mem_cons_self _ _)
    have hadd : s.addLocation loc [] =
        (.ok (), { s with graph := s.graph.addNode loc }) := by
      unfold RouteStore.addLocation
      rw [hl, if_neg (fun hc => Bool.noConfusion hc),
        if_neg (show ¬(s.graph.nodeAt (locId loc)).isSome = true by
          rw [hnone]; simp),
        sadd_ok hf loc, if_pos (hset loc (List.mem_cons_self _ _))]
      rfl
    have hs₂ : ∀ l' ∈ rest,
        ({ s with graph := s.graph.addNode loc } : RouteStore).graph.nodeAt
          (locId l') = none := by
      intro l' hl'
      show alookup (s.graph.nodes ++ [(locId loc, loc)]) (locId l') = none
      rw [alookup_append_right _ (hfresh l' (List.mem_cons_of_mem _ hl')), alookup,
        if_neg ?_]
      · rfl
      · intro e
        exact hnd.1 ((hinj l' (List.mem_cons_of_mem _ hl') loc
          (List.mem_cons_self _ _) e.symm) ▸ hl')
    have hrec := restoreRead_spec rest { s with graph := s.graph.addNode loc }
      hl hf hnd.2
      (fun l hl' l' hl'' => hinj l (List.mem_cons_of_mem _ hl') l'
        (List.mem_cons_of_mem _ hl''))
      hs₂
      (fun l hl' => hset l (List.mem_cons_of_mem _ hl'))
      (fun l hl' => hgood l (List.mem_cons_of_mem _ hl'))
    simp only [restoreRead, hadd,
      getEdges_ok hf loc (hgood loc (List.mem_cons_self _ _)), hrec,
      List.map_cons]
    simp [WGraph.addNode, List.append_assoc]

/-! ### Restore: the replay phase -/

/-- `SMEMBERS` on a reliable connection. -/
theorem smembers_ok {r : Redis} (hf : r.fails = []) :
    r.smembers = (some r.locSet, r) := by
  obtain ⟨ls, hs, fl⟩ := r
  have h : fl = [] := hf
  subst h
  rfl

theorem alookup_append_cases {α β : Type} [DecidableEq α] {l l' : List (α × β)}
    {a : α} {b : β} (h : alookup (l ++ l') a = some b) :
    alookup l a = some b ∨ (alookup l a = none ∧ alookup l' a = some b) := by
  cases hl : alookup l a with
  | none => exact Or.inr ⟨rfl, by rwa [alookup_append_right l' hl] at h⟩
  | some c =>
    exact Or.inl ((alookup_append_left hl).symm.trans h)

theorem option_ext {α : Type} {x y : Option α}
    (h : ∀ b, x = some b ↔ y = some b) : x = y := by
  cases x with
  | none =>
    cases y with
    | none => rfl
    | some c => exact absurd ((h c).mpr rfl) (fun hc => Option.noConfusion hc)
  | some c => exact ((h c).mp rfl).symm

/-- An `ApplyEff` preserves graph well-formedness. -/
theorem applyEff_wf {name : String} {fields : List (String × ℚ)} {g : WGraph}
    {r : Redis} {g' : WGraph} {r' : Redis}
    (hwf : g.WF) (hexs : (g.nodeAt (locId name)).isSome = true)
    (heff : ApplyEff name fields g r g' r') : g'.WF := by
  obtain ⟨ext, hgn, hextnd, hcond⟩ := heff.nodesApp
  refine
    { nodeId := ?_
      nodeKeys := ?_
      edgeKeys := heff.edgeNodup hwf.edgeKeys
      edgeEnds := ?_ }
  · intro p hp
    rw [hgn] at hp
    rcases List.mem_append.mp hp with hp | hp
    · exact hwf.nodeId p hp
    · exact (hcond p hp).2.2.1
  · rw [hgn, List.map_append]
    refine List.Nodup.append hwf.nodeKeys hextnd ?_
    intro k hk hk'
    obtain ⟨p, hp, hpk⟩ := List.mem_map.mp hk'
    have hnone := (hcond p hp).2.2.2
    rw [hpk] at hnone
    exact (alookup_eq_none _ _).mp hnone hk
  · intro e he
    rcases heff.edgeMem e he with he' | ⟨hsrc, d, w', hdw, hdn, htgt⟩
    · obtain ⟨h1, h2⟩ := hwf.edgeEnds e he'
      exact ⟨by rw [heff.nodeAtPres _ h1]; exact h1,
             by rw [heff.nodeAtPres _ h2]; exact h2⟩
    · exact ⟨by rw [hsrc, heff.nodeAtPres _ hexs]; exact hexs,
             by rw [htgt]; exact heff.nodesNew (d, w') hdw hdn⟩

theorem hashNum_some {r : Redis} {name dst : String} {w : ℚ}
    (h : r.hashNum name dst = some w) :
    alookup (r.hashOf name) dst = some (RVal.num w) := by
  unfold Redis.hashNum at h
  cases hl : alookup (r.hashOf name) dst with
  | none =>
    rw [hl] at h
    exact Option.noConfusion h
  | some v =>
    cases v with
    | num w' =>
      rw [hl] at h
      have h' : (some w' : Option ℚ) = some w := h
      cases h'
      rfl
    | bad s' =>
      rw [hl] at h
      exact Option.noConfusion h

theorem hashNum_of_alookup {r : Redis} {name dst : String} {w : ℚ}
    (h : alookup (r.hashOf name) dst = some (RVal.num w)) :
    r.hashNum name dst = some w := by
  unfold Redis.hashNum
  rw [h]

/-- Lookup in the node list produced by the bare `AddLocation` pass. -/
theorem alookup_mapId {locs : List String}
    (hnd : locs.Nodup) (hinj : ∀ a ∈ locs, ∀ b ∈ locs, locId a = locId b → a = b)
    (i : Nat) (n : String) :
    alookup (locs.map (fun l => (locId l, l))) i = some n ↔
      n ∈ locs ∧ i = locId n := by
  constructor
  · intro h
    obtain ⟨l, hl, he⟩ := List.mem_map.mp (alookup_mem h)
    cases he
    exact ⟨hl, rfl⟩
  · rintro ⟨hn, rfl⟩
    refine mem_alookup ?_ (List.mem_map.mpr ⟨n, hn, rfl⟩)
    have hkeys : (locs.map (fun l => (locId l, l))).map Prod.fst =
        locs.map locId := by
      rw [List.map_map]
      rfl
    rw [hkeys]
    exact List.Nodup.map_on (fun x hx y hy e => hinj x hx y hy e) hnd

/-- A successful `applyRoutes` run lifted to a successful `AddRoutes`. -/
theorem addRoutes_ok {s : RouteStore} {name : String}
    {fields : List (String × ℚ)} {g' : WGraph} {r' : Redis}
    (hl : s.locked = false)
    (hexs : (s.graph.nodeAt (locId name)).isSome = true)
    (happ : applyRoutes name fields s.graph s.redis = (.ok (), g', r')) :
    s.addRoutes name fields =
      (.ok (), { locked := false, graph := g', redis := r' }) := by
  unfold RouteStore.addRoutes
  rw [hl, if_neg (fun hc => Bool.noConfusion hc),
    if_neg (show ¬(s.graph.nodeAt (locId name)).isNone = true by
      obtain ⟨v, hv⟩ := Option.isSome_iff_exists.mp hexs
      rw [hv]
      simp), happ]

/-- One step of the replay loop: replaying the (parsed) edge hash of the
next listed location `loc` succeeds and extends the replay invariant from
the prefix `P` to `P ++ [loc]`. -/
theorem replay_step {r : Redis} {U E P : List String} {acc : RouteStore}
    {loc : String}
    (hU : IdInj U) (hEU : ∀ l ∈ E, l ∈ U) (hPE : ∀ l ∈ P, l ∈ E)
    (hallU : ∀ l ∈ E, ∀ f ∈ r.hashOf l, f.1 ∈ U)
    (hallGood : ∀ l ∈ E, ∀ f ∈ r.hashOf l, (∃ w, f.2 = RVal.num w) ∧ f.1 ≠ l)
    (hallNodup : ∀ l ∈ E, ((r.hashOf l).map Prod.fst).Nodup)
    (hloc : loc ∈ E) (hlocP : loc ∉ P)
    (hinv : RepInv r E P acc) :
    ∃ acc', acc.addRoutes loc (mapNum (r.hashOf loc)) = (.ok (), acc') ∧
      RepInv r E (P ++ [loc]) acc' := by
  have hlocU : loc ∈ U := hEU loc hloc
  have hnode : acc.graph.nodeAt (locId loc) = some loc :=
    (hinv.nodeIff (locId loc) loc).mpr (Or.inl ⟨hloc, rfl⟩)
  have hexs : (acc.graph.nodeAt (locId loc)).isSome = true := by
    rw [hnode]
    rfl
  have hfieldsU : ∀ p ∈ mapNum (r.hashOf loc), p.1 ∈ U := by
    intro p hp
    obtain ⟨d, w⟩ := p
    exact hallU loc hloc (d, RVal.num w) (mem_mapNum.mp hp)
  have hfieldsNodup : ((mapNum (r.hashOf loc)).map Prod.fst).Nodup :=
    List.Nodup.sublist (mapNum_keys_sublist _) (hallNodup loc hloc)
  have htgt : ∀ p ∈ mapNum (r.hashOf loc), p.1 ≠ loc →
      acc.graph.nodeAt (locId p.1) = none ∨
      acc.graph.nodeAt (locId p.1) = some p.1 := by
    intro p hp _
    cases hacc : acc.graph.nodeAt (locId p.1) with
    | none => exact Or.inl rfl
    | some n =>
      refine Or.inr ?_
      have hnfacts : n ∈ U ∧ locId p.1 = locId n := by
        rcases (hinv.nodeIff (locId p.1) n).mp hacc with ⟨hnE, hk'⟩ |
          ⟨l', hl', v', hv', hk'⟩
        · exact ⟨hEU n hnE, hk'⟩
        · exact ⟨hallU l' (hPE l' hl') (n, v') hv', hk'⟩
      rw [hU p.1 (hfieldsU p hp) n hnfacts.1 hnfacts.2]
  obtain ⟨g', r', happ, heff⟩ := applyRoutes_spec loc (mapNum (r.hashOf loc))
    acc.graph acc.redis hinv.failsEq hnode
    htgt
    (fun p hp hpn e => hpn (hU p.1 (hfieldsU p hp) loc hlocU e))
    hfieldsNodup
    (fun p hp q hq e => hU p.1 (hfieldsU p hp) q.1 (hfieldsU q hq) e)
  obtain ⟨ext, hgn, hextnd, hcond⟩ := heff.nodesApp
  refine ⟨{ locked := false, graph := g', redis := r' },
    addRoutes_ok hinv.lockedEq hexs happ,
    { lockedEq := rfl
      failsEq := heff.failsEq.trans hinv.failsEq
      gwf := applyEff_wf hinv.gwf hexs heff
      nodeIff := ?_
      edgeIff := ?_ }⟩
  · intro i n
    constructor
    · intro h
      have h' : alookup (acc.graph.nodes ++ ext) i = some n := by
        rw [← hgn]
        exact h
      rcases alookup_append_cases h' with hold | ⟨_, hnew⟩
      · rcases (hinv.nodeIff i n).mp hold with hE | ⟨l, hl, v, hv, hk⟩
        · exact Or.inl hE
        · exact Or.inr ⟨l, List.mem_append_left _ hl, v, hv, hk⟩
      · obtain ⟨⟨w', hw'⟩, hnn, hpk, _⟩ := hcond (i, n) (alookup_mem hnew)
        exact Or.inr ⟨loc, List.mem_append_right _ (List.mem_singleton.mpr rfl),
          RVal.num w', mem_mapNum.mp hw', hpk⟩
    · intro h
      rcases h with ⟨hnE, hk⟩ | ⟨l, hl, v, hv, hk⟩
      · have hacc := (hinv.nodeIff i n).mpr (Or.inl ⟨hnE, hk⟩)
        rw [heff.nodeAtPres i (by rw [hacc]; rfl)]
        exact hacc
      · rcases List.mem_append.mp hl with hlP | hlloc
        · have hacc := (hinv.nodeIff i n).mpr (Or.inr ⟨l, hlP, v, hv, hk⟩)
          rw [heff.nodeAtPres i (by rw [hacc]; rfl)]
          exact hacc
        · rw [List.mem_singleton] at hlloc
          subst hlloc
          obtain ⟨⟨w, hw⟩, hne⟩ := hallGood l hloc (n, v) hv
          subst hw
          subst hk
          have hnU : n ∈ U := hallU l hloc (n, RVal.num w) hv
          have hfm : (n, w) ∈ mapNum (r.hashOf l) := mem_mapNum.mpr hv
          by_cases hacc : (acc.graph.nodeAt (locId n)).isSome = true
          · obtain ⟨m, hm⟩ := Option.isSome_iff_exists.mp hacc
            have hmfacts : m ∈ U ∧ locId n = locId m := by
              rcases (hinv.nodeIff (locId n) m).mp hm with ⟨hmE, hk'⟩ |
                ⟨l', hl', v', hv', hk'⟩
              · exact ⟨hEU m hmE, hk'⟩
              · exact ⟨hallU l' (hPE l' hl') (m, v') hv', hk'⟩
            have hnm : n = m := hU n hnU m hmfacts.1 hmfacts.2
            rw [heff.nodeAtPres (locId n) hacc, hm, hnm]
          · have hnone : acc.graph.nodeAt (locId n) = none := by
              cases hcc : acc.graph.nodeAt (locId n)
              · rfl
              · rw [hcc] at hacc
                exact absurd rfl hacc
            have hsome := heff.nodesNew (n, w) hfm hne
            obtain ⟨m', hm'⟩ := Option.isSome_iff_exists.mp hsome
            have h' : alookup (acc.graph.nodes ++ ext) (locId n) = some m' := by
              rw [← hgn]
              exact hm'
            rcases alookup_append_cases h' with hold | ⟨_, hnew⟩
            · have hkeys := (alookup_eq_none acc.graph.nodes (locId n)).mp hnone
              exact absurd (List.mem_map.mpr ⟨(locId n, m'), alookup_mem hold, rfl⟩)
                hkeys
            · obtain ⟨⟨w'', hw''⟩, _, hpk', _⟩ := hcond (locId n, m')
                (alookup_mem hnew)
              have hm'U : m' ∈ U := hfieldsU (m', w'') hw''
              have hnm' : n = m' := hU n hnU m' hm'U hpk'
              rw [hm', hnm']
  · intro f t w
    constructor
    · intro h
      by_cases hf : f = locId loc
      · subst hf
        by_cases hmatch : ∃ p ∈ mapNum (r.hashOf loc), p.1 ≠ loc ∧ locId p.1 = t
        · obtain ⟨⟨d, w'⟩, hp, hdne, hdt⟩ := hmatch
          have hmt := heff.edgeWMatch d w' hp hdne
          rw [← hdt] at h
          rw [hmt] at h
          have hww : w' = w := Option.some.inj h
          subst hww
          exact ⟨loc, List.mem_append_right _ (List.mem_singleton.mpr rfl), d,
            mem_alookup (hallNodup loc hloc) (mem_mapNum.mp hp), rfl, hdt.symm⟩
        · have hnm : ∀ p ∈ mapNum (r.hashOf loc), p.1 = loc ∨ locId p.1 ≠ t := by
            intro p hp
            by_cases hpl : p.1 = loc
            · exact Or.inl hpl
            · exact Or.inr (fun e => hmatch ⟨p, hp, hpl, e⟩)
          rw [heff.edgeWNomatch t hnm] at h
          obtain ⟨l, hlP, d, hd, hfl, ht⟩ := (hinv.edgeIff _ t w).mp h
          exact ⟨l, List.mem_append_left _ hlP, d, hd, hfl, ht⟩
      · rw [heff.edgeWOther f t hf] at h
        obtain ⟨l, hlP, d, hd, hfl, ht⟩ := (hinv.edgeIff f t w).mp h
        exact ⟨l, List.mem_append_left _ hlP, d, hd, hfl, ht⟩
    · rintro ⟨l, hl, d, hd, hfl, ht⟩
      rcases List.mem_append.mp hl with hlP | hlloc
      · have hold := (hinv.edgeIff f t w).mpr ⟨l, hlP, d, hd, hfl, ht⟩
        have hne : f ≠ locId loc := by
          rw [hfl]
          intro e
          have hle : l = loc := hU l (hEU l (hPE l hlP)) loc hlocU e
          exact hlocP (hle ▸ hlP)
        rw [heff.edgeWOther f t hne]
        exact hold
      · rw [List.mem_singleton] at hlloc
        subst hlloc
        have hdm : (d, RVal.num w) ∈ r.hashOf l := alookup_mem hd
        have hdne : d ≠ l := (hallGood l hloc (d, RVal.num w) hdm).2
        have hfm : (d, w) ∈ mapNum (r.hashOf l) := mem_mapNum.mpr hdm
        rw [hfl, ht]
        exact heff.edgeWMatch d w hfm hdne

/-- The whole replay loop of `Restore`: replaying the parsed hashes of
the remaining locations `todo` succeeds and completes the replay
invariant. -/
theorem restoreReplay_sim {r : Redis} {U E : List String}
    (hU : IdInj U) (hEU : ∀ l ∈ E, l ∈ U)
    (hallU : ∀ l ∈ E, ∀ f ∈ r.hashOf l, f.1 ∈ U)
    (hallGood : ∀ l ∈ E, ∀ f ∈ r.hashOf l, (∃ w, f.2 = RVal.num w) ∧ f.1 ≠ l)
    (hallNodup : ∀ l ∈ E, ((r.hashOf l).map Prod.fst).Nodup) :
    ∀ (todo P : List String) (acc : RouteStore),
      (∀ l ∈ todo, l ∈ E) → (∀ l ∈ P, l ∈ E) →
      (∀ l ∈ todo, l ∉ P) → todo.Nodup →
      RepInv r E P acc →
      ∃ acc', restoreReplay (todo.map (fun l => (l, mapNum (r.hashOf l)))) acc =
        .ret (some acc') none ∧ RepInv r E (P ++ todo) acc'
  | [], P, acc, _, _, _, _, hinv => by
    refine ⟨acc, rfl, ?_⟩
    rw [List.append_nil]
    exact hinv
  | loc :: rest, P, acc, htodoE, hPE, hfresh, hnd, hinv => by
    rw [List.nodup_cons] at hnd
    obtain ⟨acc₁, hstep, hinv₁⟩ := replay_step hU hEU hPE hallU hallGood hallNodup
      (htodoE loc (List.mem_cons_self _ _)) (hfresh loc (List.mem_cons_self _ _))
      hinv
    obtain ⟨acc', hrep, hinv'⟩ := restoreReplay_sim hU hEU hallU hallGood hallNodup
      rest (P ++ [loc]) acc₁
      (fun l hl => htodoE l (List.mem_cons_of_mem _ hl))
      (fun l hl => by
        rcases List.mem_append.mp hl with h | h
        · exact hPE l h
        · rw [List.mem_singleton] at h
          exact h ▸ htodoE loc (List.mem_cons_self _ _))
      (fun l hl hmem => by
        rcases List.mem_append.mp hmem with h | h
        · exact hfresh l (List.mem_cons_of_mem _ hl) h
        · rw [List.mem_singleton] at h
          exact hnd.1 (h ▸ hl))
      hnd.2 hinv₁
    refine ⟨acc', ?_, ?_⟩
    · simp only [List.map_cons, restoreReplay]
      rw [hstep]
      exact hrep
    · rw [List.append_assoc] at hinv'
      exact hinv'

/-- An `ApplyEff` addressed to an explicitly created location preserves
the explicit-only invariant. -/
theorem invR_applyEff {U E : List String} {s : RouteStore} {name : String}
    {rts : List (String × ℚ)} {g' : WGraph} {r' : Redis}
    (inv : InvR U E s) (hU : IdInj U) (hname : name ∈ U) (hnameE : name ∈ E)
    (hrts : ∀ p ∈ rts, p.1 ∈ U) (hnd : (rts.map Prod.fst).Nodup)
    (hexs : (s.graph.nodeAt (locId name)).isSome = true)
    (heff : ApplyEff name rts s.graph s.redis g' r') :
    InvR U E { s with graph := g', redis := r' } := by
  obtain ⟨ext, hgn, hextnd, hcond⟩ := heff.nodesApp
  refine
    { toInv := inv_applyEff inv.toInv hU hname hrts hnd hexs heff
      hashKeyExpl := ?_
      edgeSrc := ?_
      nodeReach := ?_ }
  · intro hh hmem hne
    rcases heff.hashMem inv.hashKeysNodup hh hmem with h1 | ⟨h1, _⟩
    · exact inv.hashKeyExpl hh h1 hne
    · exact h1 ▸ hnameE
  · intro e he
    rcases heff.edgeMem e he with h1 | ⟨hsrc, d, w', hdw, hdn, htgt⟩
    · exact inv.edgeSrc e h1
    · exact ⟨name, hnameE, hsrc⟩
  · intro p hp
    rw [hgn] at hp
    rcases List.mem_append.mp hp with hp | hp
    · rcases inv.nodeReach p hp with h1 | ⟨e, he, het⟩
      · exact Or.inl h1
      · have hkey : (s.graph.edgeW e.1.1 e.1.2).isSome = true :=
          (alookup_isSome _ _).mpr (List.mem_map.mpr ⟨e, he, rfl⟩)
        have hkey' := heff.edgeKeysPres e.1.1 e.1.2 hkey
        obtain ⟨w', hw'⟩ := Option.isSome_iff_exists.mp hkey'
        exact Or.inr ⟨((e.1.1, e.1.2), w'), alookup_mem hw', het⟩
    · obtain ⟨⟨w', hw'⟩, hne, hpk, _⟩ := hcond p hp
      have hedge := heff.edgeWMatch p.2 w' hw' hne
      exact Or.inr ⟨((locId name, locId p.2), w'), alookup_mem hedge, hpk.symm⟩

/-- Successful explicitly-addressed `AddRoutes` preserves the
explicit-only invariant. -/
theorem addRoutes_presR {U E : List String} {s s' : RouteStore} {name : String}
    {rts : List (String × ℚ)} (inv : InvR U E s) (hU : IdInj U)
    (hname : name ∈ U) (hnameE : name ∈ E) (hrts : ∀ p ∈ rts, p.1 ∈ U)
    (hnd : (rts.map Prod.fst).Nodup)
    (h : s.addRoutes name rts = (.ok (), s')) : InvR U E s' := by
  unfold RouteStore.addRoutes at h
  rw [inv.lockedEq, if_neg (fun hc => Bool.noConfusion hc)] at h
  by_cases hex : (s.graph.nodeAt (locId name)).isNone = true
  · rw [if_pos hex] at h
    simp at h
  · rw [if_neg hex] at h
    have hexs := isSome_of_not_isNone (o := s.graph.nodeAt (locId name))
      (by simpa using hex)
    have hstored : s.graph.nodeAt (locId name) = some name := by
      rcases inv.toInv.nodeAt_stored hU hname with hc | hc
      · rw [hc] at hexs
        exact Bool.noConfusion hexs
      · exact hc
    obtain ⟨g', r', happ, heff⟩ := applyRoutes_spec name rts s.graph s.redis
      inv.failsEq hstored
      (fun p hp _ => inv.toInv.nodeAt_stored hU (hrts p hp))
      (fun p hp hpn e => hpn (hU p.1 (hrts p hp) name hname e))
      hnd
      (fun p hp q hq e => hU p.1 (hrts p hp) q.1 (hrts q hq) e)
    rw [happ] at h
    have hs' : s' = { locked := false, graph := g', redis := r' } :=
      (congrArg Prod.snd h).symm
    subst hs'
    have hres := invR_applyEff inv hU hname hnameE hrts hnd hexs heff
    rwa [show ({ s with graph := g', redis := r' } : RouteStore) =
      { locked := false, graph := g', redis := r' } from by rw [inv.lockedEq]]
      at hres

/-- Successful `AddLocation` preserves the explicit-only invariant and
registers the new explicit name. -/
theorem addLocation_presR {U E : List String} {s s' : RouteStore} {name : String}
    {rts : List (String × ℚ)} (inv : InvR U E s) (hU : IdInj U)
    (hname : name ∈ U) (hrts : ∀ p ∈ rts, p.1 ∈ U)
    (hnd : (rts.map Prod.fst).Nodup)
    (h : s.addLocation name rts = (.ok (), s')) : InvR U (E ++ [name]) s' := by
  have hbase := addLocation_pres inv.toInv hU hname hrts hnd h
  unfold RouteStore.addLocation at h
  rw [inv.lockedEq, if_neg (fun hc => Bool.noConfusion hc)] at h
  by_cases hex : (s.graph.nodeAt (locId name)).isSome = true
  · rw [if_pos hex] at h
    simp at h
  · rw [if_neg hex] at h
    have hnone : s.graph.nodeAt (locId name) = none := by
      cases hc : s.graph.nodeAt (locId name)
      · rfl
      · rw [hc] at hex
        exact absurd rfl hex
    have hnn : name ∉ s.graph.nodeNames := by
      intro hmem
      rw [nodeAt_of_mem inv.gwf hmem] at hnone
      cases hnone
    have hnE : name ∉ s.redis.locSet := by
      rw [inv.locSetEq]
      intro hmem
      exact hnn (inv.locSub name hmem)
    rw [sadd_ok inv.failsEq name, if_neg hnE] at h
    set r₀ : Redis := { s.redis with locSet := s.redis.locSet ++ [name] } with hr0
    set g₀ : WGraph := s.graph.addNode name with hg0
    have hst₀ : g₀.nodeAt (locId name) = some name := by
      show alookup (s.graph.nodes ++ [(locId name, name)]) (locId name) = some name
      rw [alookup_append_right _ hnone, alookup, if_pos rfl]
    have hexs₀ : (g₀.nodeAt (locId name)).isSome = true := by
      rw [hst₀]
      rfl
    have htgt₀ : ∀ p ∈ rts, p.1 ≠ name →
        g₀.nodeAt (locId p.1) = none ∨ g₀.nodeAt (locId p.1) = some p.1 := by
      intro p hp hpn
      rcases inv.toInv.nodeAt_stored hU (hrts p hp) with hc | hc
      · refine Or.inl ?_
        show alookup (s.graph.nodes ++ [(locId name, name)]) (locId p.1) = none
        rw [alookup_append_right _ hc, alookup,
          if_neg (fun e => hpn (hU p.1 (hrts p hp) name hname e.symm))]
        rfl
      · refine Or.inr ?_
        show alookup (s.graph.nodes ++ [(locId name, name)]) (locId p.1) = some p.1
        exact alookup_append_left hc
    obtain ⟨g', r', happ, heff⟩ := applyRoutes_spec name rts g₀ r₀
      inv.failsEq hst₀
      htgt₀
      (fun p hp hpn e => hpn (hU p.1 (hrts p hp) name hname e))
      hnd
      (fun p hp q hq e => hU p.1 (hrts p hp) q.1 (hrts q hq) e)
    change (match applyRoutes name rts g₀ r₀ with
      | (o, g2, r2) =>
        (o, ({ locked := false, graph := g2, redis := r2 } : RouteStore))) =
      (Outcome.ok (), s') at h
    rw [happ] at h
    have hs' : s' = { locked := false, graph := g', redis := r' } :=
      (congrArg Prod.snd h).symm
    subst hs'
    obtain ⟨ext, hgn, hextnd, hcond⟩ := heff.nodesApp
    refine
      { toInv := hbase
        hashKeyExpl := ?_
        edgeSrc := ?_
        nodeReach := ?_ }
    · intro hh hmem hne
      rcases heff.hashMem inv.hashKeysNodup hh hmem with h1 | ⟨h1, _⟩
      · exact List.mem_append_left _ (inv.hashKeyExpl hh h1 hne)
      · exact h1 ▸ List.mem_append_right _ (List.mem_singleton.mpr rfl)
    · intro e he
      rcases heff.edgeMem e he with h1 | ⟨hsrc, d, w', hdw, hdn, htgt⟩
      · obtain ⟨n', hn', he'⟩ := inv.edgeSrc e h1
        exact ⟨n', List.mem_append_left _ hn', he'⟩
      · exact ⟨name, List.mem_append_right _ (List.mem_singleton.mpr rfl), hsrc⟩
    · intro p hp
      rw [hgn] at hp
      rcases List.mem_append.mp hp with hp | hp
      · rcases List.mem_append.mp hp with hp | hp
        · rcases inv.nodeReach p hp with h1 | ⟨e, he, het⟩
          · exact Or.inl (List.mem_append_left _ h1)
          · have hkey : (g₀.edgeW e.1.1 e.1.2).isSome = true :=
              (alookup_isSome _ _).mpr (List.mem_map.mpr ⟨e, he, rfl⟩)
            have hkey' := heff.edgeKeysPres e.1.1 e.1.2 hkey
            obtain ⟨w', hw'⟩ := Option.isSome_iff_exists.mp hkey'
            exact Or.inr ⟨((e.1.1, e.1.2), w'), alookup_mem hw', het⟩
        · rw [List.mem_singleton] at hp
          subst hp
          exact Or.inl (List.mem_append_right _ (List.mem_singleton.mpr rfl))
      · obtain ⟨⟨w', hw'⟩, hne, hpk, _⟩ := hcond p hp
        have hedge := heff.edgeWMatch p.2 w' hw' hne
        exact Or.inr ⟨((locId name, locId p.2), w'), alookup_mem hedge, hpk.symm⟩

/-- The explicit-only invariant holds after every all-successful
explicit-only history. -/
theorem execAll_invR {U : List String} (hU : IdInj U) :
    ∀ (H : List Op) (E : List String) (s t : RouteStore),
      InvR U E s → (∀ op ∈ H, op.keysNodup) →
      (∀ op ∈ H, ∀ n ∈ op.names, n ∈ U) →
      explicitOnly H E = true →
      execAll s H = some t → InvR U (E ++ explicitNames H) t
  | [], E, s, t, inv, _, _, _, hex => by
    rw [execAll] at hex
    cases hex
    rw [explicitNames, List.append_nil]
    exact inv
  | op :: rest, E, s, t, inv, hknd, hnames, hexpl, hex => by
    rw [execAll] at hex
    rcases hr : runOp s op with ⟨o, s₁⟩
    rw [hr] at hex
    cases o with
    | ok a =>
      cases a
      cases op with
      | addLoc n rts =>
        simp only [explicitOnly] at hexpl
        have hop : s.addLocation n rts = (.ok (), s₁) := hr
        have inv₁ := addLocation_presR inv hU
          (hnames _ (List.mem_cons_self _ _) n (List.mem_cons_self _ _))
          (fun p hp => hnames _ (List.mem_cons_self _ _) p.1
            (List.mem_cons_of_mem _ (List.mem_map.mpr ⟨p, hp, rfl⟩)))
          (hknd _ (List.mem_cons_self _ _)) hop
        have hrest := execAll_invR hU rest (E ++ [n]) s₁ t inv₁
          (fun o ho => hknd o (List.mem_cons_of_mem _ ho))
          (fun o ho => hnames o (List.mem_cons_of_mem _ ho)) hexpl hex
        rw [List.append_assoc] at hrest
        exact hrest
      | addRts n rts =>
        simp only [explicitOnly, Bool.and_eq_true, decide_eq_true_eq] at hexpl
        have hop : s.addRoutes n rts = (.ok (), s₁) := hr
        have inv₁ := addRoutes_presR inv hU
          (hnames _ (List.mem_cons_self _ _) n (List.mem_cons_self _ _))
          hexpl.1
          (fun p hp => hnames _ (List.mem_cons_self _ _) p.1
            (List.mem_cons_of_mem _ (List.mem_map.mpr ⟨p, hp, rfl⟩)))
          (hknd _ (List.mem_cons_self _ _)) hop
        exact execAll_invR hU rest E s₁ t inv₁
          (fun o ho => hknd o (List.mem_cons_of_mem _ ho))
          (fun o ho => hnames o (List.mem_cons_of_mem _ ho)) hexpl.2 hex
      | rmRts n tg =>
        simp [explicitOnly] at hexpl
      | delLoc n =>
        simp [explicitOnly] at hexpl
    | err msg => exact Option.noConfusion hex
    | deadlock => exact Option.noConfusion hex
    | crash => exact Option.noConfusion hex

/-- The explicit-only invariant of the fresh store. -/
theorem invR_s0 (U : List String) : InvR U [] s0 :=
  { toInv := inv_s0 U
    hashKeyExpl := by
      intro h hm
      simp [s0, RouteStore.new, emptyRedis] at hm
    edgeSrc := by
      intro e he
      simp [s0, RouteStore.new] at he
    nodeReach := by
      intro p hp
      simp [s0, RouteStore.new] at hp }

/-- In a store satisfying the explicit-only invariant, the in-memory
nodes are exactly the explicit locations plus the targets mentioned in
the persisted edge hashes. -/
theorem invR_nodeIff {U E : List String} {s : RouteStore}
    (inv : InvR U E s) (hU : IdInj U) (i : Nat) (n : String) :
    s.graph.nodeAt i = some n ↔
      ((n ∈ E ∧ i = locId n) ∨
       ∃ loc ∈ E, ∃ v, (n, v) ∈ s.redis.hashOf loc ∧ i = locId n) := by
  constructor
  · intro h
    have hmem := alookup_mem h
    have hk : i = locId n := inv.gwf.nodeId (i, n) hmem
    rcases inv.nodeReach (i, n) hmem with hE | ⟨e, he, het⟩
    · exact Or.inl ⟨hE, hk⟩
    · obtain ⟨loc, hlocE, hsrc⟩ := inv.edgeSrc e he
      have hnU : n ∈ U := inv.nodeSub n (mem_of_nodeAt h)
      have hlocU : loc ∈ U := inv.nodeSub loc (inv.locSub loc hlocE)
      have hew : s.graph.edgeW e.1.1 e.1.2 = some e.2 :=
        mem_alookup inv.gwf.edgeKeys he
      rw [hsrc, het] at hew
      have hmir := inv.mirror loc hlocU n hnU
      rw [← hk, hew] at hmir
      exact Or.inr ⟨loc, hlocE, RVal.num e.2, alookup_mem (hashNum_some hmir), hk⟩
  · rintro (⟨hnE, hk⟩ | ⟨loc, hlocE, v, hv, hk⟩)
    · subst hk
      exact nodeAt_of_mem inv.gwf (inv.locSub n hnE)
    · subst hk
      obtain ⟨l', hl'mem, hvl'⟩ := hashOf_sub hv
      obtain ⟨⟨w, hw⟩, -⟩ := inv.hashGood _ hl'mem (n, v) hvl'
      subst hw
      have hnU : n ∈ U := inv.hashFieldSub _ hl'mem (n, RVal.num w) hvl'
      have hlocU : loc ∈ U := inv.nodeSub loc (inv.locSub loc hlocE)
      have halook : alookup (s.redis.hashOf loc) n = some (RVal.num w) :=
        mem_alookup (inv.toInv.hashOfFieldsNodup loc) hv
      have hmir := inv.mirror loc hlocU n hnU
      rw [hashNum_of_alookup halook] at hmir
      have hedge : ((locId loc, locId n), w) ∈ s.graph.edges :=
        alookup_mem hmir.symm
      have hend := (inv.gwf.edgeEnds _ hedge).2
      obtain ⟨m, hm⟩ := Option.isSome_iff_exists.mp hend
      have hkm : locId n = locId m := inv.gwf.nodeId (locId n, m) (alookup_mem hm)
      have hmU : m ∈ U := inv.nodeSub m (mem_of_nodeAt hm)
      have hnm : n = m := hU n hnU m hmU hkm
      rw [hm, hnm]

/-- In a store satisfying the explicit-only invariant, the in-memory
edge weights are exactly the parsed entries of the persisted edge
hashes. -/
theorem invR_edgeIff {U E : List String} {s : RouteStore}
    (inv : InvR U E s) ( _hU : IdInj U) (f t : Nat) (w : ℚ) :
    s.graph.edgeW f t = some w ↔
      ∃ loc ∈ E, ∃ dst, alookup (s.redis.hashOf loc) dst = some (RVal.num w) ∧
        f = locId loc ∧ t = locId dst := by
  constructor
  · intro h
    have hedge : ((f, t), w) ∈ s.graph.edges := alookup_mem h
    obtain ⟨loc, hlocE, hsrc⟩ := inv.edgeSrc _ hedge
    have hend := (inv.gwf.edgeEnds _ hedge).2
    obtain ⟨m, hm⟩ := Option.isSome_iff_exists.mp hend
    have hkm : t = locId m := inv.gwf.nodeId (t, m) (alookup_mem hm)
    have hmU : m ∈ U := inv.nodeSub m (mem_of_nodeAt hm)
    have hlocU : loc ∈ U := inv.nodeSub loc (inv.locSub loc hlocE)
    have hmir := inv.mirror loc hlocU m hmU
    rw [← hsrc, ← hkm, h] at hmir
    exact ⟨loc, hlocE, m, hashNum_some hmir, hsrc, hkm⟩
  · rintro ⟨loc, hlocE, dst, halook, hf, ht⟩
    have hdm := alookup_mem halook
    obtain ⟨l', hl'mem, hdl'⟩ := hashOf_sub hdm
    have hdstU : dst ∈ U := inv.hashFieldSub _ hl'mem (dst, RVal.num w) hdl'
    have hlocU : loc ∈ U := inv.nodeSub loc (inv.locSub loc hlocE)
    have hmir := inv.mirror loc hlocU dst hdstU
    rw [hashNum_of_alookup halook] at hmir
    rw [hf, ht]
    exact hmir.symm

/-- C9 (amended, proved): for every all-successful history consisting only
of `AddLocation` calls and `AddRoutes` calls addressed to explicitly
created locations, with duplicate-free route keys and no `Location.ID`
collisions among the used names, restarting the server over the resulting
backend succeeds (`Restore` returns a store and a `nil` error) and
reproduces the shut-down store's in-memory state pointwise: the same node
at every internal ID, the same weight on every edge, and the same set of
location names.  (The unamended claim — reproduction after an *arbitrary*
history — is refuted by `restore_loses_implicit_source_edges`: edges added
via `AddRoutes` on an implicitly created location are persisted under a
hash key absent from the backend's location set and are lost.) -/
theorem restore_roundtrip_amended (H : List Op) (s : RouteStore)
    (hinj : IdInj (usedNames H)) (hknd : ∀ op ∈ H, op.keysNodup)
    (hexpl : explicitOnly H [] = true)
    (hex : execAll s0 H = some s) :
    ∃ s', Restore s.redis = .ret (some s') none ∧
      (∀ i, s'.graph.nodeAt i = s.graph.nodeAt i) ∧
      (∀ f t, s'.graph.edgeW f t = s.graph.edgeW f t) ∧
      (∀ n, n ∈ s'.graph.nodeNames ↔ n ∈ s.graph.nodeNames) := by
  have hnames : ∀ op ∈ H, ∀ n ∈ op.names, n ∈ usedNames H := by
    intro op hop n hn
    unfold usedNames
    exact List.mem_flatten.mpr ⟨op.names, List.mem_map.mpr ⟨op, hop, rfl⟩, hn⟩
  have invR := execAll_invR hinj H [] s0 s (invR_s0 (usedNames H)) hknd hnames
    hexpl hex
  rw [List.nil_append] at invR
  have hEU : ∀ l ∈ s.redis.locSet, l ∈ usedNames H := by
    intro l hl
    rw [invR.locSetEq] at hl
    exact invR.nodeSub l (invR.locSub l hl)
  have hallU : ∀ l ∈ s.redis.locSet, ∀ f ∈ s.redis.hashOf l,
      f.1 ∈ usedNames H := by
    intro l _ f hf
    obtain ⟨l', hm, hfl⟩ := hashOf_sub hf
    exact invR.hashFieldSub _ hm f hfl
  have hallGood : ∀ l ∈ s.redis.locSet, ∀ f ∈ s.redis.hashOf l,
      (∃ w, f.2 = RVal.num w) ∧ f.1 ≠ l := by
    intro l _ f hf
    obtain ⟨l', hm, hfl⟩ := hashOf_sub hf
    exact invR.hashGood _ hm f hfl
  have hallNodup : ∀ l ∈ s.redis.locSet,
      ((s.redis.hashOf l).map Prod.fst).Nodup :=
    fun l _ => invR.toInv.hashOfFieldsNodup l
  have hinjL : ∀ a ∈ s.redis.locSet, ∀ b ∈ s.redis.locSet,
      locId a = locId b → a = b :=
    fun a ha b hb e => hinj a (hEU a ha) b (hEU b hb) e
  have hread := restoreRead_spec s.redis.locSet
    { locked := false, graph := ⟨[], []⟩, redis := s.redis } rfl invR.failsEq
    invR.locSetNodup hinjL (fun l _ => rfl) (fun l hl => hl)
    (fun l hl f hf => (hallGood l hl f hf).1)
  have hread' : restoreRead s.redis.locSet
      { locked := false, graph := ⟨[], []⟩, redis := s.redis } =
      (some (s.redis.locSet.map (fun l => (l, mapNum (s.redis.hashOf l)))),
       { locked := false,
         graph := ⟨s.redis.locSet.map (fun l => (locId l, l)), []⟩,
         redis := s.redis }) := by
    rw [hread]
    rfl
  have hrep0 : RepInv s.redis s.redis.locSet []
      { locked := false,
        graph := ⟨s.redis.locSet.map (fun l => (locId l, l)), []⟩,
        redis := s.redis } := by
    refine
      { lockedEq := rfl
        failsEq := invR.failsEq
        gwf := ?_
        nodeIff := ?_
        edgeIff := ?_ }
    · refine
        { nodeId := ?_
          nodeKeys := ?_
          edgeKeys := by simp
          edgeEnds := by
            intro e he
            exact absurd he (List.not_mem_nil e) }
      · intro p hp
        obtain ⟨l, hl, he⟩ := List.mem_map.mp hp
        cases he
        rfl
      · have hkeys : ((s.redis.locSet.map (fun l => (locId l, l))).map
            Prod.fst) = s.redis.locSet.map locId := by
          rw [List.map_map]
          rfl
        show ((s.redis.locSet.map (fun l => (locId l, l))).map Prod.fst).Nodup
        rw [hkeys]
        exact List.Nodup.map_on (fun x hx y hy e => hinjL x hx y hy e)
          invR.locSetNodup
    · intro i n
      constructor
      · intro h
        exact Or.inl ((alookup_mapId invR.locSetNodup hinjL i n).mp h)
      · rintro (⟨hn, hk⟩ | ⟨loc, hloc, v, hv, hk⟩)
        · exact (alookup_mapId invR.locSetNodup hinjL i n).mpr ⟨hn, hk⟩
        · exact absurd hloc (List.not_mem_nil loc)
    · intro f t w
      constructor
      · intro h
        exact Option.noConfusion h
      · rintro ⟨loc, hloc, -⟩
        exact absurd hloc (List.not_mem_nil loc)
  obtain ⟨acc', hrepl, hinv'⟩ := restoreReplay_sim hinj hEU hallU hallGood
    hallNodup s.redis.locSet [] _ (fun l hl => hl)
    (fun l hl => absurd hl (List.not_mem_nil l))
    (fun l _ => List.not_mem_nil l) invR.locSetNodup hrep0
  rw [List.nil_append] at hinv'
  have hRestore : Restore s.redis = RestoreResult.ret (some acc') none := by
    simp only [Restore, RouteStore.new, smembers_ok invR.failsEq, hread', hrepl]
  have hnodePt : ∀ i, acc'.graph.nodeAt i = s.graph.nodeAt i := by
    intro i
    refine option_ext (fun n => ?_)
    rw [hinv'.nodeIff i n, invR_nodeIff invR hinj i n, invR.locSetEq]
  have hedgePt : ∀ f t, acc'.graph.edgeW f t = s.graph.edgeW f t := by
    intro f t
    refine option_ext (fun w => ?_)
    rw [hinv'.edgeIff f t w, invR_edgeIff invR hinj f t w, invR.locSetEq]
  refine ⟨acc', hRestore, hnodePt, hedgePt, fun n => ?_⟩
  constructor
  · intro hn
    exact mem_of_nodeAt ((hnodePt (locId n)).symm.trans
      (nodeAt_of_mem hinv'.gwf hn))
  · intro hn
    exact mem_of_nodeAt ((hnodePt (locId n)).trans
      (nodeAt_of_mem invR.gwf hn))

/-- Witness for the amended C9 round trip at a concrete three-operation
history. -/
theorem restore_roundtrip_amended_witness :
    ∃ s', Restore c9WitStore.redis = .ret (some s') none ∧
      (∀ i, s'.graph.nodeAt i = c9WitStore.graph.nodeAt i) ∧
      (∀ f t, s'.graph.edgeW f t = c9WitStore.graph.edgeW f t) ∧
      (∀ n, n ∈ s'.graph.nodeNames ↔ n ∈ c9WitStore.graph.nodeNames) :=
  restore_roundtrip_amended c9WitHist c9WitStore (by decide) (by decide)
    (by decide) (by rfl)

/-! ### RoutesBetween: shortest-path enumeration -/

theorem mem_succs {g : WGraph} {u n : Nat} {w : ℚ} :
    (n, w) ∈ g.succs u ↔ ((u, n), w) ∈ g.edges := by
  unfold WGraph.succs
  rw [List.mem_filterMap]
  constructor
  · rintro ⟨e, he, hcond⟩
    by_cases hc : e.1.1 = u
    · rw [if_pos hc] at hcond
      have heq := Option.some.inj hcond
      have h1 : e.1.2 = n := congrArg Prod.fst heq
      have h2 : e.2 = w := congrArg Prod.snd heq
      have he' : ((u, n), w) = e := by
        rw [← hc, ← h1, ← h2]
      rw [he']
      exact he
    · rw [if_neg hc] at hcond
      exact Option.noConfusion hcond
  · intro he
    exact ⟨((u, n), w), he, by simp⟩

theorem idPathW_isSome (g : WGraph) :
    ∀ p, (g.idPathW p).isSome = true ↔ g.chainB p = true
  | [] => by simp [WGraph.idPathW, WGraph.chainB]
  | [a] => by simp [WGraph.idPathW, WGraph.chainB]
  | a :: b :: rest => by
    have ih := idPathW_isSome g (b :: rest)
    cases hw : g.edgeW a b with
    | none =>
      simp [WGraph.idPathW, WGraph.chainB, hw]
    | some w =>
      cases hr : g.idPathW (b :: rest) with
      | none =>
        have hc : ¬g.chainB (b :: rest) = true := by
          rw [← ih, hr]
          simp
        simp [WGraph.idPathW, WGraph.chainB, hw, hr, hc]
      | some rw' =>
        have hc : g.chainB (b :: rest) = true := by
          rw [← ih, hr]
          rfl
        simp [WGraph.idPathW, WGraph.chainB, hw, hr, hc]

theorem idPathW_eq_wW {g : WGraph} {p : List Nat} (h : g.chainB p = true) :
    g.idPathW p = some (g.wW p) := by
  obtain ⟨w, hw⟩ := Option.isSome_iff_exists.mp ((idPathW_isSome g p).mpr h)
  rw [hw]
  unfold WGraph.wW
  rw [hw]
  rfl

theorem idPathW_nonneg {g : WGraph} (hnn : ∀ e ∈ g.edges, 0 ≤ e.2) :
    ∀ (p : List Nat) {w : ℚ}, g.idPathW p = some w → 0 ≤ w
  | [], w, h => by
    have h' : (some (0 : ℚ)) = some w := h
    rw [← Option.some.inj h']
  | [a], w, h => by
    have h' : (some (0 : ℚ)) = some w := h
    rw [← Option.some.inj h']
  | a :: b :: rest, w, h => by
    cases hw : g.edgeW a b with
    | none =>
      rw [WGraph.idPathW, hw] at h
      exact Option.noConfusion h
    | some w₁ =>
      cases hr : g.idPathW (b :: rest) with
      | none =>
        rw [WGraph.idPathW, hw, hr] at h
        exact Option.noConfusion h
      | some w₂ =>
        rw [WGraph.idPathW, hw, hr] at h
        have h' : w₁ + w₂ = w := Option.some.inj h
        have h1 : 0 ≤ w₁ := hnn _ (alookup_mem hw)
        have h2 : 0 ≤ w₂ := idPathW_nonneg hnn (b :: rest) hr
        rw [← h']
        exact add_nonneg h1 h2

theorem idPathW_append (g : WGraph) :
    ∀ (p₁ : List Nat) (a : Nat) (p₂ : List Nat) {w₁ w₂ : ℚ},
      g.idPathW (p₁ ++ [a]) = some w₁ → g.idPathW (a :: p₂) = some w₂ →
      g.idPathW (p₁ ++ a :: p₂) = some (w₁ + w₂)
  | [], a, p₂, w₁, w₂, h₁, h₂ => by
    have h₁' : (some (0 : ℚ)) = some w₁ := h₁
    rw [List.nil_append, h₂, ← Option.some.inj h₁', zero_add]
  | [x], a, p₂, w₁, w₂, h₁, h₂ => by
    rw [show ([x] ++ [a] : List Nat) = [x, a] from rfl, WGraph.idPathW] at h₁
    cases hw : g.edgeW x a with
    | none =>
      rw [hw] at h₁
      exact Option.noConfusion h₁
    | some w =>
      rw [hw, show g.idPathW [a] = some 0 from rfl] at h₁
      have h₁' : some (w + 0) = some w₁ := h₁
      rw [show ([x] ++ a :: p₂ : List Nat) = x :: a :: p₂ from rfl,
        WGraph.idPathW, hw, h₂]
      show some (w + w₂) = some (w₁ + w₂)
      rw [← Option.some.inj h₁', add_zero]
  | x :: y :: p₁, a, p₂, w₁, w₂, h₁, h₂ => by
    rw [List.cons_append, List.cons_append, WGraph.idPathW] at h₁
    cases hw : g.edgeW x y with
    | none =>
      rw [hw] at h₁
      exact Option.noConfusion h₁
    | some w =>
      rw [hw] at h₁
      cases hr : g.idPathW (y :: (p₁ ++ [a])) with
      | none =>
        rw [hr] at h₁
        exact Option.noConfusion h₁
      | some w₁' =>
        rw [hr] at h₁
        have h₁' : some (w + w₁') = some w₁ := h₁
        have ih := idPathW_append g (y :: p₁) a p₂
          (by rw [List.cons_append]; exact hr) h₂
        have ih' : g.idPathW (y :: (p₁ ++ a :: p₂)) = some (w₁' + w₂) := by
          rw [← List.cons_append]
          exact ih
        rw [List.cons_append, List.cons_append, WGraph.idPathW, hw, ih']
        show some (w + (w₁' + w₂)) = some (w₁ + w₂)
        rw [← Option.some.inj h₁', add_assoc]

theorem idPathW_split (g : WGraph) :
    ∀ (p₁ : List Nat) (a : Nat) (p₂ : List Nat) {w : ℚ},
      g.idPathW (p₁ ++ a :: p₂) = some w →
      ∃ w₁ w₂, g.idPathW (p₁ ++ [a]) = some w₁ ∧
        g.idPathW (a :: p₂) = some w₂ ∧ w = w₁ + w₂
  | [], a, p₂, w, h =>
    ⟨0, w, rfl, by rw [List.nil_append] at h; exact h, (zero_add w).symm⟩
  | [x], a, p₂, w, h => by
    rw [show ([x] ++ a :: p₂ : List Nat) = x :: a :: p₂ from rfl,
      WGraph.idPathW] at h
    cases hw : g.edgeW x a with
    | none =>
      rw [hw] at h
      exact Option.noConfusion h
    | some w' =>
      rw [hw] at h
      cases hr : g.idPathW (a :: p₂) with
      | none =>
        rw [hr] at h
        exact Option.noConfusion h
      | some w₂ =>
        rw [hr] at h
        have h' : some (w' + w₂) = some w := h
        refine ⟨w' + 0, w₂, ?_, rfl, ?_⟩
        · rw [show ([x] ++ [a] : List Nat) = [x, a] from rfl,
            WGraph.idPathW, hw, show g.idPathW [a] = some 0 from rfl]
        · rw [add_zero]
          exact (Option.some.inj h').symm
  | x :: y :: p₁, a, p₂, w, h => by
    rw [List.cons_append, List.cons_append, WGraph.idPathW] at h
    cases hw : g.edgeW x y with
    | none =>
      rw [hw] at h
      exact Option.noConfusion h
    | some w' =>
      rw [hw] at h
      cases hr : g.idPathW (y :: (p₁ ++ a :: p₂)) with
      | none =>
        rw [hr] at h
        exact Option.noConfusion h
      | some wr =>
        rw [hr] at h
        have h' : some (w' + wr) = some w := h
        obtain ⟨w₁', w₂, hw₁', hw₂, hwr⟩ := idPathW_split g (y :: p₁) a p₂
          (by rw [List.cons_append]; exact hr)
        refine ⟨w' + w₁', w₂, ?_, hw₂, ?_⟩
        · rw [List.cons_append, List.cons_append, WGraph.idPathW, hw,
            show g.idPathW (y :: (p₁ ++ [a])) = some w₁' from
              by rw [← List.cons_append]; exact hw₁']
        · rw [← Option.some.inj h', hwr, add_assoc]

theorem head?_append_cons {α : Type} (pre : List α) (a : α) (r r' : List α) :
    (pre ++ a :: r).head? = (pre ++ a :: r').head? := by
  cases pre <;> rfl

theorem getLast?_append_cons {α : Type} :
    ∀ (pre : List α) (a : α) (r : List α),
      (pre ++ a :: r).getLast? = (a :: r).getLast?
  | [], a, r => rfl
  | x :: pre, a, r => by
    have ih := getLast?_append_cons pre a r
    cases hpre : pre ++ a :: r with
    | nil =>
      exfalso
      have : a ∈ pre ++ a :: r :=
        List.mem_append_right _ (List.mem_cons_self _ _)
      rw [hpre] at this
      exact List.not_mem_nil a this
    | cons y l' =>
      rw [List.cons_append, hpre, List.getLast?_cons_cons, ← hpre]
      exact ih

theorem exists_dup_split {α : Type} :
    ∀ {l : List α}, ¬l.Nodup →
      ∃ (pre : List α) (a : α) (mid post : List α),
        l = pre ++ a :: mid ++ a :: post
  | [], h => absurd List.nodup_nil h
  | x :: l, h => by
    by_cases hx : x ∈ l
    · obtain ⟨mid, post, hl⟩ := List.append_of_mem hx
      exact ⟨[], x, mid, post, by rw [hl]; rfl⟩
    · have hnd : ¬l.Nodup := by
        intro hc
        exact h (List.nodup_cons.mpr ⟨hx, hc⟩)
      obtain ⟨pre, a, mid, post, hl⟩ := exists_dup_split hnd
      exact ⟨x :: pre, a, mid, post, by rw [hl]; rfl⟩

theorem nodup_walk_self {g : WGraph} {u : Nat} {p : List Nat}
    (hw : g.IsWalk u u p) (hnd : p.Nodup) : p = [u] := by
  obtain ⟨hh, hl, _⟩ := hw
  cases p with
  | nil => exact Option.noConfusion hh
  | cons x rest =>
    have hx : x = u := Option.some.inj hh
    cases rest with
    | nil => rw [hx]
    | cons y rest' =>
      exfalso
      rw [List.getLast?_cons_cons] at hl
      have hmem : u ∈ y :: rest' := List.mem_of_getLast?_eq_some hl
      rw [hx] at hnd
      exact (List.nodup_cons.mp hnd).1 hmem

/-- Every walk has an elementary (duplicate-free) walk of no larger total
weight between the same endpoints, given non-negative edge weights. -/
theorem exists_nodup_walk {g : WGraph} (hnn : ∀ e ∈ g.edges, 0 ≤ e.2)
    {u v : Nat} :
    ∀ (n : Nat) (q : List Nat), q.length ≤ n → g.IsWalk u v q →
      ∃ p, g.IsWalk u v p ∧ p.Nodup ∧ g.wW p ≤ g.wW q
  | 0, q, hlen, hwalk => by
    exfalso
    rw [Nat.le_zero, List.length_eq_zero] at hlen
    subst hlen
    exact Option.noConfusion hwalk.1
  | n + 1, q, hlen, hwalk => by
    by_cases hnd : q.Nodup
    · exact ⟨q, hwalk, hnd, le_refl _⟩
    · obtain ⟨hh, hl, hc⟩ := hwalk
      obtain ⟨pre, a, mid, post, hq⟩ := exists_dup_split hnd
      subst hq
      rw [List.append_assoc, List.cons_append] at hh hl hc hlen ⊢
      have hweight := idPathW_eq_wW hc
      obtain ⟨w₁, w₂, h₁, h₂, hsum⟩ :=
        idPathW_split g pre a (mid ++ a :: post) hweight
      obtain ⟨w₂₁, w₂₂, h₂₁, h₂₂, hsum₂⟩ := idPathW_split g (a :: mid) a post
        (by rw [List.cons_append]; exact h₂)
      have hq'w := idPathW_append g pre a post h₁ h₂₂
      have hwalk' : g.IsWalk u v (pre ++ a :: post) := by
        refine ⟨?_, ?_, ?_⟩
        · exact (head?_append_cons pre a post (mid ++ a :: post)).trans hh
        · rw [getLast?_append_cons pre a post]
          rw [getLast?_append_cons pre a (mid ++ a :: post)] at hl
          rw [show (a :: (mid ++ a :: post) : List Nat) =
            (a :: mid) ++ a :: post from by rw [List.cons_append]] at hl
          rw [getLast?_append_cons (a :: mid) a post] at hl
          exact hl
        · exact (idPathW_isSome g _).mp (by rw [hq'w]; rfl)
      have hlen' : (pre ++ a :: post).length ≤ n := by
        simp only [List.length_append, List.length_cons] at hlen ⊢
        omega
      obtain ⟨p, pw, pnd, hple⟩ := exists_nodup_walk hnn n (pre ++ a :: post)
        hlen' hwalk'
      refine ⟨p, pw, pnd, le_trans hple ?_⟩
      have hwq' : g.wW (pre ++ a :: post) = w₁ + w₂₂ := by
        unfold WGraph.wW
        rw [hq'w]
        rfl
      have hwq : g.wW (pre ++ a :: (mid ++ a :: post)) = w₁ + w₂ := hsum
      rw [hwq', hwq, hsum₂]
      exact add_le_add_left (le_add_of_nonneg_left
        (idPathW_nonneg hnn _ h₂₁)) w₁

theorem foldl_min_spec :
    ∀ (ws : List ℚ) (a : ℚ),
      (ws.foldl (fun x y => if x ≤ y then x else y) a ≤ a ∧
       ∀ w ∈ ws, ws.foldl (fun x y => if x ≤ y then x else y) a ≤ w) ∧
      (ws.foldl (fun x y => if x ≤ y then x else y) a = a ∨
       ws.foldl (fun x y => if x ≤ y then x else y) a ∈ ws)
  | [], a => ⟨⟨le_refl a, by simp⟩, Or.inl rfl⟩
  | w :: ws, a => by
    have ih := foldl_min_spec ws (if a ≤ w then a else w)
    have hle : (if a ≤ w then a else w) ≤ a ∧ (if a ≤ w then a else w) ≤ w := by
      by_cases h : a ≤ w
      · rw [if_pos h]
        exact ⟨le_refl a, h⟩
      · rw [if_neg h]
        exact ⟨le_of_not_le h, le_refl w⟩
    rw [List.foldl_cons]
    refine ⟨⟨le_trans ih.1.1 hle.1, ?_⟩, ?_⟩
    · intro x hx
      rcases List.mem_cons.mp hx with hxw | hxs
      · rw [hxw]
        exact le_trans ih.1.1 hle.2
      · exact ih.1.2 x hxs
    · rcases ih.2 with heq | hmem
      · rw [heq]
        by_cases h : a ≤ w
        · rw [if_pos h]
          exact Or.inl rfl
        · rw [if_neg h]
          exact Or.inr (List.mem_cons_self _ _)
      · exact Or.inr (List.mem_cons_of_mem _ hmem)

theorem minWeight_spec :
    ∀ {ws : List ℚ} {m : ℚ}, minWeight ws = some m →
      m ∈ ws ∧ ∀ w ∈ ws, m ≤ w
  | [], m, h => Option.noConfusion h
  | w :: ws, m, h => by
    rw [minWeight] at h
    have hm := Option.some.inj h
    obtain ⟨⟨hle, hall⟩, hmem⟩ := foldl_min_spec ws w
    constructor
    · rcases hmem with heq | hmem'
      · rw [← hm, heq]
        exact List.mem_cons_self _ _
      · rw [← hm]
        exact List.mem_cons_of_mem _ hmem'
    · intro x hx
      rcases List.mem_cons.mp hx with hxw | hxs
      · rw [← hm, hxw]
        exact hle
      · rw [← hm]
        exact hall x hxs

theorem minWeight_eq_none :
    ∀ {ws : List ℚ}, minWeight ws = none → ws = []
  | [], _ => rfl
  | w :: ws, h => by
    rw [minWeight] at h
    exact Option.noConfusion h

theorem chain_mem_keys {g : WGraph} (hwf : g.WF) :
    ∀ (p : List Nat), g.chainB p = true → 2 ≤ p.length →
      ∀ x ∈ p, x ∈ g.nodes.map Prod.fst
  | [], _, hlen => by simp at hlen
  | [a], _, hlen => by simp at hlen
  | a :: b :: rest, hc, _ => by
    have hc' : (g.edgeW a b).isSome = true ∧ g.chainB (b :: rest) = true := by
      have h := hc
      rw [WGraph.chainB, Bool.and_eq_true] at h
      exact h
    obtain ⟨w, hw⟩ := Option.isSome_iff_exists.mp hc'.1
    have hedge : ((a, b), w) ∈ g.edges := alookup_mem hw
    obtain ⟨hasome, hbsome⟩ := hwf.edgeEnds _ hedge
    intro x hx
    rcases List.mem_cons.mp hx with hxa | hx'
    · subst hxa
      exact (alookup_isSome _ _).mp hasome
    · cases rest with
      | nil =>
        rw [List.mem_singleton] at hx'
        subst hx'
        exact (alookup_isSome _ _).mp hbsome
      | cons c rest' =>
        exact chain_mem_keys hwf (b :: c :: rest') hc'.2 (by simp) x hx'

/-- The elementary-path enumerator of `allTo` generates exactly the
duplicate-free walks to `v` that avoid `visited`, up to the fuel
bound. -/
theorem pathsAux_iff (g : WGraph) (v : Nat) :
    ∀ (fuel u : Nat) (visited : List Nat) (p : List Nat), u ∉ visited →
      (p ∈ g.pathsAux v fuel u visited ↔
        (p.head? = some u ∧ p.getLast? = some v ∧ g.chainB p = true ∧
         p.Nodup ∧ (∀ x ∈ p, x ∉ visited) ∧ p.length ≤ fuel + 1))
  | 0, u, visited, p, hu => by
    rw [WGraph.pathsAux]
    by_cases huv : u = v
    · subst huv
      rw [if_pos rfl]
      constructor
      · intro hp
        rw [List.mem_singleton] at hp
        subst hp
        refine ⟨rfl, rfl, rfl, List.nodup_singleton u, ?_,
          by simp only [List.length_singleton]; omega⟩
        intro x hx
        rw [List.mem_singleton] at hx
        subst hx
        exact hu
      · rintro ⟨hh, hl, hc, hnd, hav, hlen⟩
        rw [List.mem_singleton]
        exact nodup_walk_self ⟨hh, hl, hc⟩ hnd
    · rw [if_neg huv]
      constructor
      · intro hp
        exact absurd hp (List.not_mem_nil p)
      · rintro ⟨hh, hl, hc, hnd, hav, hlen⟩
        exfalso
        cases p with
        | nil => exact Option.noConfusion hh
        | cons x rest =>
          cases rest with
          | nil =>
            exact huv ((Option.some.inj hh).symm.trans (Option.some.inj hl))
          | cons y rest' =>
            simp only [List.length_cons] at hlen
            omega
  | fuel + 1, u, visited, p, hu => by
    rw [WGraph.pathsAux]
    by_cases huv : u = v
    · subst huv
      rw [if_pos rfl]
      constructor
      · intro hp
        rw [List.mem_singleton] at hp
        subst hp
        refine ⟨rfl, rfl, rfl, List.nodup_singleton u, ?_,
          by simp only [List.length_singleton]; omega⟩
        intro x hx
        rw [List.mem_singleton] at hx
        subst hx
        exact hu
      · rintro ⟨hh, hl, hc, hnd, hav, hlen⟩
        rw [List.mem_singleton]
        exact nodup_walk_self ⟨hh, hl, hc⟩ hnd
    · rw [if_neg huv]
      rw [List.mem_flatMap]
      constructor
      · rintro ⟨⟨n, w⟩, hnw, hp⟩
        rw [List.mem_filter] at hnw
        have hnv : n ∉ u :: visited := of_decide_eq_true hnw.2
        have hsucc : ((u, n), w) ∈ g.edges := mem_succs.mp hnw.1
        rw [List.mem_map] at hp
        obtain ⟨q, hq, hpq⟩ := hp
        subst hpq
        obtain ⟨qh, ql, qc, qnd, qav, qlen⟩ :=
          (pathsAux_iff g v fuel n (u :: visited) q hnv).mp hq
        cases q with
        | nil => exact Option.noConfusion qh
        | cons n' q'' =>
          have hn' : n = n' := (Option.some.inj qh).symm
          subst hn'
          refine ⟨rfl, ?_, ?_, ?_, ?_, ?_⟩
          · rw [List.getLast?_cons_cons]
            exact ql
          · rw [WGraph.chainB, Bool.and_eq_true]
            exact ⟨(alookup_isSome _ _).mpr
              (List.mem_map.mpr ⟨((u, n), w), hsucc, rfl⟩), qc⟩
          · rw [List.nodup_cons]
            refine ⟨?_, qnd⟩
            intro hmem
            exact (qav u hmem) (List.mem_cons_self _ _)
          · intro x hx
            rcases List.mem_cons.mp hx with hxu | hx'
            · subst hxu
              exact hu
            · intro hxv
              exact (qav x hx') (List.mem_cons_of_mem _ hxv)
          · rw [List.length_cons]
            omega
      · rintro ⟨hh, hl, hc, hnd, hav, hlen⟩
        cases p with
        | nil => exact Option.noConfusion hh
        | cons x q =>
          have hx : u = x := (Option.some.inj hh).symm
          subst hx
          cases q with
          | nil =>
            exact absurd (Option.some.inj hl) huv
          | cons n q'' =>
            have hc' : (g.edgeW u n).isSome = true ∧
                g.chainB (n :: q'') = true := by
              have h := hc
              rw [WGraph.chainB, Bool.and_eq_true] at h
              exact h
            obtain ⟨w, hw⟩ := Option.isSome_iff_exists.mp hc'.1
            have hnd' := List.nodup_cons.mp hnd
            have hnv : n ∉ u :: visited := by
              intro hmem
              rcases List.mem_cons.mp hmem with hnu | hnvis
              · refine hnd'.1 ?_
                rw [← hnu]
                exact List.mem_cons_self n q''
              · exact (hav n (List.mem_cons_of_mem _
                  (List.mem_cons_self _ _))) hnvis
            have hq : (n :: q'') ∈ g.pathsAux v fuel n (u :: visited) := by
              refine (pathsAux_iff g v fuel n (u :: visited) (n :: q'') hnv).mpr
                ⟨rfl, ?_, hc'.2, hnd'.2, ?_, ?_⟩
              · rw [List.getLast?_cons_cons] at hl
                exact hl
              · intro y hy hmem
                rcases List.mem_cons.mp hmem with hyu | hyv
                · subst hyu
                  exact hnd'.1 hy
                · exact (hav y (List.mem_cons_of_mem _ hy)) hyv
              · rw [List.length_cons] at hlen
                omega
            refine ⟨(n, w), ?_, ?_⟩
            · rw [List.mem_filter]
              exact ⟨mem_succs.mpr (alookup_mem hw), decide_eq_true hnv⟩
            · rw [List.mem_map]
              exact ⟨n :: q'', hq, rfl⟩

theorem allTo_spec (g : WGraph) (u v : Nat) (huv : ¬u = v) :
    (∃ m, minWeight ((g.pathsAux v g.nodes.length u []).filterMap
        g.idPathW) = some m ∧
      g.allTo u v = ((g.pathsAux v g.nodes.length u []).filter
        (fun p => g.idPathW p = some m), some m)) ∨
    (minWeight ((g.pathsAux v g.nodes.length u []).filterMap
        g.idPathW) = none ∧
      g.allTo u v = ([], none)) := by
  unfold WGraph.allTo
  rw [if_neg huv]
  cases hmin : minWeight ((g.pathsAux v g.nodes.length u []).filterMap
      g.idPathW) with
  | none =>
    refine Or.inr ⟨rfl, ?_⟩
    simp only [hmin]
  | some m =>
    refine Or.inl ⟨m, rfl, ?_⟩
    simp only [hmin]

theorem isWalk_def {g : WGraph} {u v : Nat} {p : List Nat} :
    g.IsWalk u v p ↔
      (p.head? = some u ∧ p.getLast? = some v ∧ g.chainB p = true) :=
  Iff.rfl

/-- The full correctness of `RoutesBetween` on a graph with non-negative
weights: it returns exactly the minimal-weight elementary walks, each
carrying the common minimal weight, and that weight is minimal over all
walks. -/
theorem routesBetween_spec (s : RouteStore) (fromS toS : String)
    (hl : s.locked = false) (hwf : s.graph.WF)
    (hfrom : (s.graph.nodeAt (locId fromS)).isSome = true)
    (hto : (s.graph.nodeAt (locId toS)).isSome = true)
    (hnn : ∀ e ∈ s.graph.edges, 0 ≤ e.2) :
    ∃ rs, s.routesBetween fromS toS = (.ok rs, s) ∧
      (∀ r ∈ rs, ∃ p, s.graph.IsWalk (locId fromS) (locId toS) p ∧ p.Nodup ∧
        r.route = s.graph.namesOf p ∧ r.weight = s.graph.wW p) ∧
      (∀ r ∈ rs, ∀ q, s.graph.IsWalk (locId fromS) (locId toS) q →
        r.weight ≤ s.graph.wW q) ∧
      (∀ p, s.graph.IsWalk (locId fromS) (locId toS) p → p.Nodup →
        (∀ q, s.graph.IsWalk (locId fromS) (locId toS) q →
          s.graph.wW p ≤ s.graph.wW q) →
        ({ route := s.graph.namesOf p, weight := s.graph.wW p } : Route) ∈ rs) := by
  have hf' : ¬(s.graph.nodeAt (locId fromS)).isNone = true := by
    obtain ⟨x, hx⟩ := Option.isSome_iff_exists.mp hfrom
    rw [hx]
    simp
  have ht' : ¬(s.graph.nodeAt (locId toS)).isNone = true := by
    obtain ⟨x, hx⟩ := Option.isSome_iff_exists.mp hto
    rw [hx]
    simp
  have hnp : ¬s.graph.negPanic (locId fromS) := by
    intro h
    unfold WGraph.negPanic at h
    obtain ⟨e, he, hlt, -⟩ := h
    exact absurd (hnn e he) (not_le.mpr hlt)
  have hbr : s.routesBetween fromS toS =
      (.ok ((s.graph.allTo (locId fromS) (locId toS)).1.map (fun p =>
        ({ route := p.map (fun i => (s.graph.nodeAt i).getD (Nat.repr i))
           weight := (s.graph.allTo (locId fromS) (locId toS)).2.getD 0 } :
          Route))), s) := by
    unfold RouteStore.routesBetween
    rw [hl, if_neg (fun hc => Bool.noConfusion hc), if_neg hf', if_neg ht',
      if_neg hnp]
  by_cases huv : locId fromS = locId toS
  · have hallTo : s.graph.allTo (locId fromS) (locId toS) =
        ([[locId fromS]], some 0) := by
      unfold WGraph.allTo
      rw [if_pos huv]
    rw [hallTo, List.map_singleton] at hbr
    refine ⟨_, hbr, ?_, ?_, ?_⟩
    · intro r hr
      rw [List.mem_singleton] at hr
      subst hr
      refine ⟨[locId fromS], ?_, List.nodup_singleton _, rfl, rfl⟩
      rw [isWalk_def]
      refine ⟨rfl, ?_, rfl⟩
      show some (locId fromS) = some (locId toS)
      rw [huv]
    · intro r hr q hqw
      rw [List.mem_singleton] at hr
      subst hr
      rw [isWalk_def] at hqw
      show (0 : ℚ) ≤ s.graph.wW q
      obtain ⟨w', hw'⟩ := Option.isSome_iff_exists.mp
        ((idPathW_isSome s.graph q).mpr hqw.2.2)
      have hq' : s.graph.wW q = w' := by
        unfold WGraph.wW
        rw [hw']
        rfl
      rw [hq']
      exact idPathW_nonneg hnn q hw'
    · intro p hpw hpnd hpmin
      have hpw' := hpw
      rw [isWalk_def] at hpw'
      have hp : p = [locId fromS] := nodup_walk_self
        (by
          rw [isWalk_def]
          exact ⟨hpw'.1, by rw [huv]; exact hpw'.2.1, hpw'.2.2⟩) hpnd
      subst hp
      rw [List.mem_singleton]
      rfl
  · have hcands : ∀ p, p ∈ s.graph.pathsAux (locId toS)
        s.graph.nodes.length (locId fromS) [] ↔
        (s.graph.IsWalk (locId fromS) (locId toS) p ∧ p.Nodup) := by
      intro p
      rw [pathsAux_iff s.graph (locId toS) s.graph.nodes.length (locId fromS)
        [] p (List.not_mem_nil _), isWalk_def]
      constructor
      · rintro ⟨hh, hl', hc, hnd, -, -⟩
        exact ⟨⟨hh, hl', hc⟩, hnd⟩
      · rintro ⟨⟨hh, hl', hc⟩, hnd⟩
        refine ⟨hh, hl', hc, hnd, fun x _ => List.not_mem_nil x, ?_⟩
        cases p with
        | nil => exact Option.noConfusion hh
        | cons x rest =>
          cases rest with
          | nil =>
            exact absurd ((Option.some.inj hh).symm.trans
              (Option.some.inj hl')) huv
          | cons y rest' =>
            have hsub : ∀ z ∈ x :: y :: rest',
                z ∈ s.graph.nodes.map Prod.fst :=
              chain_mem_keys hwf _ hc (by simp)
            have hle := List.Subperm.length_le
              (List.subperm_of_subset hnd hsub)
            rw [List.length_map] at hle
            simp only [List.length_cons] at hle ⊢
            omega
    have hWm : ∀ p, p ∈ s.graph.pathsAux (locId toS) s.graph.nodes.length
        (locId fromS) [] →
        s.graph.wW p ∈ (s.graph.pathsAux (locId toS) s.graph.nodes.length
          (locId fromS) []).filterMap s.graph.idPathW := by
      intro p hp
      refine List.mem_filterMap.mpr ⟨p, hp, ?_⟩
      have hw := ((hcands p).mp hp).1
      rw [isWalk_def] at hw
      exact idPathW_eq_wW hw.2.2
    rcases allTo_spec s.graph (locId fromS) (locId toS) huv with
      ⟨m, hmin, hallTo⟩ | ⟨hmin, hallTo⟩
    · rw [hallTo] at hbr
      obtain ⟨hmW, hminAll⟩ := minWeight_spec hmin
      obtain ⟨p₀, hp₀c, hp₀w⟩ := List.mem_filterMap.mp hmW
      have hp₀ := (hcands p₀).mp hp₀c
      have hp₀chain : s.graph.chainB p₀ = true := by
        have h := hp₀.1
        rw [isWalk_def] at h
        exact h.2.2
      have hwp₀ : s.graph.wW p₀ = m := by
        have h1 := idPathW_eq_wW hp₀chain
        rw [hp₀w] at h1
        exact (Option.some.inj h1).symm
      refine ⟨_, hbr, ?_, ?_, ?_⟩
      · intro r hr
        obtain ⟨p, hpf, hfr⟩ := List.mem_map.mp hr
        obtain ⟨hpc, hdec⟩ := List.mem_filter.mp hpf
        have hpm : s.graph.idPathW p = some m := of_decide_eq_true hdec
        have hp := (hcands p).mp hpc
        have hpchain : s.graph.chainB p = true := by
          have h := hp.1
          rw [isWalk_def] at h
          exact h.2.2
        have hwp : s.graph.wW p = m := by
          have h1 := idPathW_eq_wW hpchain
          rw [hpm] at h1
          exact (Option.some.inj h1).symm
        refine ⟨p, hp.1, hp.2, ?_, ?_⟩
        · rw [← hfr]
          rfl
        · rw [← hfr, hwp]
          rfl
      · intro r hr q hqw
        obtain ⟨p, hpf, hfr⟩ := List.mem_map.mp hr
        obtain ⟨p', hp'w, hp'nd, hp'le⟩ := exists_nodup_walk hnn q.length q
          (le_refl _) hqw
        have hp'c : p' ∈ s.graph.pathsAux (locId toS) s.graph.nodes.length
            (locId fromS) [] := (hcands p').mpr ⟨hp'w, hp'nd⟩
        have hm_le : m ≤ s.graph.wW p' := hminAll _ (hWm p' hp'c)
        have hrw : r.weight = m := by
          rw [← hfr]
          rfl
        rw [hrw]
        exact le_trans hm_le hp'le
      · intro p hpw hpnd hpmin
        have hpc : p ∈ s.graph.pathsAux (locId toS) s.graph.nodes.length
            (locId fromS) [] := (hcands p).mpr ⟨hpw, hpnd⟩
        have hm_le : m ≤ s.graph.wW p := hminAll _ (hWm p hpc)
        have hle_m : s.graph.wW p ≤ m := by
          rw [← hwp₀]
          exact hpmin p₀ hp₀.1
        have hwpm : s.graph.wW p = m := le_antisymm hle_m hm_le
        have hpchain : s.graph.chainB p = true := by
          have h := hpw
          rw [isWalk_def] at h
          exact h.2.2
        have hpidw : s.graph.idPathW p = some m := by
          rw [idPathW_eq_wW hpchain, hwpm]
        refine List.mem_map.mpr ⟨p, ?_, ?_⟩
        · exact List.mem_filter.mpr ⟨hpc, decide_eq_true hpidw⟩
        · rw [hwpm]
          rfl
    · rw [hallTo, List.map_nil] at hbr
      have hcnone : s.graph.pathsAux (locId toS) s.graph.nodes.length
          (locId fromS) [] = [] := by
        cases hcc : s.graph.pathsAux (locId toS) s.graph.nodes.length
            (locId fromS) [] with
        | nil => rfl
        | cons p rest =>
          exfalso
          have hp : p ∈ s.graph.pathsAux (locId toS) s.graph.nodes.length
              (locId fromS) [] := by
            rw [hcc]
            exact List.mem_cons_self _ _
          have hmem := hWm p hp
          rw [minWeight_eq_none hmin] at hmem
          exact List.not_mem_nil _ hmem
      refine ⟨[], hbr, ?_, ?_, ?_⟩
      · intro r hr
        exact absurd hr (List.not_mem_nil r)
      · intro r hr
        exact absurd hr (List.not_mem_nil r)
      · intro p hpw hpnd hpmin
        exfalso
        have hpc := (hcands p).mpr ⟨hpw, hpnd⟩
        rw [hcnone] at hpc
        exact List.not_mem_nil p hpc

/-- Witness for the amended C10 general property at a concrete input. -/
theorem addRoutes_creates_target_node_witness :
    ∃ s', c10WStore.addRoutes "W" [("V", 7)] = (.ok (), s') ∧
      s'.getLocations = (.ok s'.graph.nodeNames, s') ∧
      "V" ∈ s'.graph.nodeNames ∧
      (s'.routesFrom "W").1 = .ok (s'.graph.fromNames (locId "W")) ∧
      "V" ∈ s'.graph.fromNames (locId "W") ∧
      s'.redis.locSet = c10WStore.redis.locSet :=
  addRoutes_creates_target_node.1 c10WStore "W" "V" 7 rfl rfl (by decide)
    (by decide) (by decide)

/-- Witness for the amended C1 at a concrete three-operation history. -/
theorem mirror_invariant_amended_witness :
    (∀ name ∈ usedNames c1WitHist, ∀ dst ∈ usedNames c1WitHist,
      c1WitStore.redis.hashNum name dst =
        c1WitStore.graph.edgeW (locId name) (locId dst)) ∧
    c1WitStore.redis.locSet = explicitNames c1WitHist ∧
    (∀ n ∈ c1WitStore.redis.locSet, n ∈ c1WitStore.graph.nodeNames) :=
  mirror_invariant_amended c1WitHist c1WitStore (by decide) (by decide) (by rfl)

section ConcreteEvaluationTwo

attribute [local semireducible] Rat.add

/-- C6 (amended, proved): on every at-rest store with a well-formed graph
and non-negative edge weights, for every pair of known locations,
`RoutesBetween(from, to)` returns exactly the duplicate-free walks of
minimal total weight from `from` to `to` — each returned route is an
elementary walk carrying its weight, that common weight is minimal over
all walks (elementary or not), and every minimal elementary walk appears
in the result.  The spec's concrete scenario, however, cannot be built as
written — `AddLocation("B", ·)` and `AddLocation("C", ·)` fail with
AlreadyExists because `AddLocation("A", {"B":1, "C":4})` already created
the nodes `B` and `C` implicitly (see
`spec_scenario_build_fails`) — so it is rebuilt with
`AddRoutes("B", {"C":1})`; on the resulting store `RoutesBetween("A","C")`
indeed returns exactly one route, `["A", "B", "C"]` with weight `2`. -/
theorem routesBetween_all_minimal :
    (∀ (s : RouteStore) (fromS toS : String),
      s.locked = false → s.graph.WF →
      (s.graph.nodeAt (locId fromS)).isSome = true →
      (s.graph.nodeAt (locId toS)).isSome = true →
      (∀ e ∈ s.graph.edges, 0 ≤ e.2) →
      ∃ rs, s.routesBetween fromS toS = (.ok rs, s) ∧
        (∀ r ∈ rs, ∃ p, s.graph.IsWalk (locId fromS) (locId toS) p ∧
          p.Nodup ∧ r.route = s.graph.namesOf p ∧ r.weight = s.graph.wW p) ∧
        (∀ r ∈ rs, ∀ q, s.graph.IsWalk (locId fromS) (locId toS) q →
          r.weight ≤ s.graph.wW q) ∧
        (∀ p, s.graph.IsWalk (locId fromS) (locId toS) p → p.Nodup →
          (∀ q, s.graph.IsWalk (locId fromS) (locId toS) q →
            s.graph.wW p ≤ s.graph.wW q) →
          ({ route := s.graph.namesOf p, weight := s.graph.wW p } : Route)
            ∈ rs)) ∧
    execAll s0 c6Hist = some c6Store2 ∧
    (c6Store2.routesBetween "A" "C").1 =
      .ok [{ route := ["A", "B", "C"], weight := 2 }] :=
  ⟨fun s fromS toS hl hwf hfrom hto hnn =>
    routesBetween_spec s fromS toS hl hwf hfrom hto hnn, by rfl, by rfl⟩

/-- Witness for the amended C6 general property at the scenario store. -/
theorem routesBetween_all_minimal_witness :
    ∃ rs, c6Store2.routesBetween "A" "C" = (.ok rs, c6Store2) ∧
      (∀ r ∈ rs, ∃ p, c6Store2.graph.IsWalk (locId "A") (locId "C") p ∧
        p.Nodup ∧ r.route = c6Store2.graph.namesOf p ∧
        r.weight = c6Store2.graph.wW p) ∧
      (∀ r ∈ rs, ∀ q, c6Store2.graph.IsWalk (locId "A") (locId "C") q →
        r.weight ≤ c6Store2.graph.wW q) ∧
      (∀ p, c6Store2.graph.IsWalk (locId "A") (locId "C") p → p.Nodup →
        (∀ q, c6Store2.graph.IsWalk (locId "A") (locId "C") q →
          c6Store2.graph.wW p ≤ c6Store2.graph.wW q) →
        ({ route := c6Store2.graph.namesOf p,
           weight := c6Store2.graph.wW p } : Route) ∈ rs) :=
  routesBetween_all_minimal.1 c6Store2 "A" "C" rfl
    ⟨by decide, by decide, by decide, by decide⟩ (by decide) (by decide)
    (by decide)

end ConcreteEvaluationTwo

end RestProject
